import Mathlib

/-!
# asar.hpp : the JSON document model, its parser and its serializer, and the archive

A shallow embedding of `src/json.hpp` (namespace `json`) and of `src/asar.hpp` (the class
`Asar`).

Conventions of the embedding

* A `std::string` is a `List Char`, one `Char` per byte.  Reading `str[i]` is
  `charAt`: a character for `i < size`, the terminator `'\0'` for `i = size`, and the
  fault `out_of_bounds` beyond it (undefined behaviour in C++).
* A C++ exception or undefined behaviour is a `Fault`; a function that can raise one
  returns `Except Fault _`.  A `size_t &offset` parameter is passed in and returned.
* A `long long` is an `Int` (conversions check the 64-bit range).  A floating-point
  payload is a `LongDouble`: the decimal `mant * 10 ^ exp10` that the conversion or the
  product was asked to compute.  The machine stores a binary number near it, or an
  infinity when a product overflows; this rounding is not modelled, so a payload tells
  which number was asked for and not which bits are stored.  `std::stold` raises
  `std::out_of_range` outside the range of the 80-bit `long double` of x86.
* A `std::map<std::string, JSON>` is its list of pairs in iteration order (ascending
  keys), a `std::deque<JSON>` is a list.
* Loops are recursive functions on a fuel argument that the caller computes from the
  length of the text, and the fuel of `parse_next` bounds the depth of nesting;
  `Load_ne_fuel` shows that the fuel is never exhausted.  Text written to `std::cerr`
  is not modelled.
* `unsigned`, `uint32_t`, `uint64_t` and `int` arithmetic is arithmetic modulo 2^32 or
  2^64, written out where a value can wrap.
* A value is a tree (`JSON`) wherever no two names can designate the same payload: in
  the parser, the serializer and the accessors.  The copy operations are modelled on a
  memory of allocated blocks (`Stored`, `Block`, `Memory`), where sharing is visible, and
  `value_of` reads the tree an object in memory denotes.  A pointer into the header of
  an archive is the chain of keys from the header to the node.
* A file is the list of its bytes; it is there and nobody else writes it.
-/

namespace json

/-- What a call can raise instead of returning: the two exceptions of the standard
library (`std::invalid_argument`, `std::out_of_range`), a read of the text beyond its
terminator, any other undefined behaviour (a dereference of `Internal.Map` or
`Internal.List` under another tag, an access beyond the size of a container, a read of
uninitialised memory), and the exhaustion of the fuel of the embedding. -/
inductive Fault where
  | invalid_argument
  | out_of_range
  | out_of_bounds
  | undefined
  | fuel
deriving DecidableEq, Repr

/-- A floating-point payload (the `long double` of `Internal.Float`), recorded as the
decimal `mant * 10 ^ exp10` that was asked for.  What is stored is a binary number near
it: `std::stold` rounds the decimal to `long double`, and a product with
`std::pow( 10, exp )` is computed from the rounded factors, in `double` arithmetic when
the other factor is a `long long`, and can be an infinity.  This rounding is not
modelled: a payload tells which decimal was asked for, by whichever statement, and
nothing is derived here from its numeric value. -/
structure LongDouble where
  mant : Int
  exp10 : Int
deriving DecidableEq, Repr

/-- The tags `JSON::Class`. -/
inductive Class where
  | Null
  | Object
  | Array
  | String
  | Floating
  | Integral
  | Boolean
deriving DecidableEq, Repr

/-- A `JSON` value: the tag `Type` together with the live member of `Internal`. -/
inductive JSON where
  | null
  | object (m : List (List Char × JSON))
  | array (l : List JSON)
  | string (s : List Char)
  | floating (f : LongDouble)
  | integral (i : Int)
  | boolean (b : Bool)

/-- The default-constructed value `JSON()`. -/
instance : Inhabited JSON := ⟨JSON.null⟩

/-- `JSON::JSONType`. -/
def JSON.JSONType : JSON → Class
  | .null => Class.Null
  | .object _ => Class.Object
  | .array _ => Class.Array
  | .string _ => Class.String
  | .floating _ => Class.Floating
  | .integral _ => Class.Integral
  | .boolean _ => Class.Boolean

/-- `JSON::IsNull`. -/
def JSON.IsNull (j : JSON) : Bool := j.JSONType = Class.Null

/-! ## Characters and strings -/

/-- `str[i]` of a `std::string`. -/
def charAt (str : List Char) (i : Nat) : Except Fault Char :=
  if i ≤ str.length then .ok (str.getD i '\x00') else .error Fault.out_of_bounds

/-- `isspace` in the "C" locale: space, `\t`, `\n`, `\v`, `\f`, `\r`. -/
def isspace (c : Char) : Bool := c = ' ' || (9 ≤ c.toNat && c.toNat ≤ 13)

/-- The test `c >= '0' && c <= '9'`. -/
def isdigit (c : Char) : Bool := 48 ≤ c.toNat && c.toNat ≤ 57

/-- The test of `parse_string` for a hexadecimal digit. -/
def ishex (c : Char) : Bool :=
  (48 ≤ c.toNat && c.toNat ≤ 57) || (97 ≤ c.toNat && c.toNat ≤ 102)
    || (65 ≤ c.toNat && c.toNat ≤ 70)

/-- Ordering of `std::string` keys in a `std::map`: lexicographic on the bytes. -/
def str_lt : List Char → List Char → Bool
  | [], [] => false
  | [], _ :: _ => true
  | _ :: _, [] => false
  | a :: as, b :: bs =>
    if a.toNat < b.toNat then true
    else if b.toNat < a.toNat then false
    else str_lt as bs

/-- `json_escape`, for a string shorter than 2^32 bytes: the loop counts with an
`unsigned`, which wraps before it reaches the length of a longer string. -/
def json_escape : List Char → List Char
  | [] => []
  | c :: str =>
    (if c = '"' then ['\\', '"']
     else if c = '\\' then ['\\', '\\']
     else if c = '\x08' then ['\\', 'b']
     else if c = '\x0c' then ['\\', 'f']
     else if c = '\n' then ['\\', 'n']
     else if c = '\r' then ['\\', 'r']
     else if c = '\t' then ['\\', 't']
     else [c]) ++ json_escape str

/-! ## Number conversions of the standard library -/

/-- The character of a decimal digit `d < 10`. -/
def digitChar (d : Nat) : Char := Char.ofNat (48 + d)

/-- The value of a decimal digit character. -/
def digitVal (c : Char) : Nat := c.toNat - 48

/-- Decimal digits of `n`, most significant first (`fuel` bounds their number). -/
def natDigits : Nat → Nat → List Char
  | 0, _ => []
  | fuel + 1, n =>
    if n < 10 then [digitChar n] else natDigits fuel (n / 10) ++ [digitChar (n % 10)]

/-- `to_str` of a `long long` (`os << t`): the decimal text, `-` first when negative. -/
def to_str (i : Int) : List Char :=
  if i < 0 then '-' :: natDigits (i.natAbs + 1) i.natAbs else natDigits (i.natAbs + 1) i.natAbs

/-- The value of a list of decimal digit characters. -/
def digitsVal (ds : List Char) : Nat := ds.foldl (fun acc c => 10 * acc + digitVal c) 0

/-- An optional sign at the head of a numeric text: whether it is `-`, and the rest. -/
def takeSign : List Char → Bool × List Char
  | [] => (false, [])
  | c :: t => if c = '-' then (true, t) else if c = '+' then (false, t) else (false, c :: t)

/-- `std::stoll` in base 10: leading white space, an optional sign and the longest run
of digits; `invalid_argument` without a digit, `out_of_range` outside `long long`. -/
def stoll (s : List Char) : Except Fault Int :=
  let (neg, t) := takeSign (s.dropWhile isspace)
  let ds := t.takeWhile isdigit
  if ds = [] then .error Fault.invalid_argument
  else
    let v : Int := if neg then -(digitsVal ds : Int) else (digitsVal ds : Int)
    if v < -9223372036854775808 ∨ 9223372036854775807 < v then .error Fault.out_of_range
    else .ok v

/-- Whether `strtold` reports `ERANGE` for the decimal `m / 10 ^ k`, with `long double`
the 80-bit format of x86 (64 binary digits, binary exponents up to 16383): the decimal
rounds to an infinity, that is, it reaches `(2^65 - 1) * 2^16319`, half a unit above the
largest number; or it is not zero, rounds below the least normal number `2^-16382`, that
is, it lies below `(2^65 - 1) * 2^-16447`, and is no multiple of the least subnormal
number `2^-16445`.  The powers of two are written as shifts. -/
def ldbl_erange (m k : Nat) : Bool :=
  decide ((((1 <<< 65) - 1) <<< 16319) * 10 ^ k ≤ m)
    || (decide (0 < m) && decide (m <<< 16447 < ((1 <<< 65) - 1) * 10 ^ k)
      && decide ((m <<< 16445) % 10 ^ k ≠ 0))

/-- `std::stold` on the texts `parse_number` passes (only `-`, digits and `.`): leading
white space, an optional sign, digits, optionally `.` and more digits;
`invalid_argument` without a digit, `out_of_range` when `strtold` reports `ERANGE`.
The result is recorded as the decimal read. -/
def stold (s : List Char) : Except Fault LongDouble :=
  let (neg, t) := takeSign (s.dropWhile isspace)
  let ip := t.takeWhile isdigit
  let r := t.dropWhile isdigit
  let fp := match r with
    | '.' :: r1 => r1.takeWhile isdigit
    | _ => []
  if ip = [] ∧ fp = [] then .error Fault.invalid_argument
  else if ldbl_erange (digitsVal (ip ++ fp)) fp.length then .error Fault.out_of_range
  else
    let m : Int := (digitsVal (ip ++ fp) : Int)
    .ok ⟨if neg then -m else m, -(fp.length : Int)⟩

/-! ## Typed extraction -/

/-- `JSON::ToString( bool &ok )`: the returned string and `ok`. -/
def JSON.ToString : JSON → List Char × Bool
  | .string s => (json_escape s, true)
  | _ => ([], false)

/-- `JSON::ToFloat( bool &ok )`. -/
def JSON.ToFloat : JSON → LongDouble × Bool
  | .floating f => (f, true)
  | _ => (⟨0, 0⟩, false)

/-- `JSON::ToInt( bool &ok )`. -/
def JSON.ToInt : JSON → Int × Bool
  | .integral i => (i, true)
  | _ => (0, false)

/-- `JSON::ToBool( bool &ok )`. -/
def JSON.ToBool : JSON → Bool × Bool
  | .boolean b => (b, true)
  | _ => (false, false)

/-! ## Structural access -/

/-- `JSON::Make`: the value of a tag with its default payload (`SetType` on a fresh
`Null`). -/
def JSON.Make : Class → JSON
  | Class.Null => .null
  | Class.Object => .object []
  | Class.Array => .array []
  | Class.String => .string []
  | Class.Floating => .floating ⟨0, 0⟩
  | Class.Integral => .integral 0
  | Class.Boolean => .boolean false

/-- `JSON::SetType`: nothing when the tag is already `type`, else the default payload. -/
def JSON.SetType (j : JSON) (type : Class) : JSON :=
  if type = j.JSONType then j else JSON.Make type

/-- Assignment through `std::map::operator[]`: `Map[key] = value`, keeping the keys in
ascending order, replacing the value of a key already present. -/
def map_assign : List (List Char × JSON) → List Char → JSON → List (List Char × JSON)
  | [], key, value => [(key, value)]
  | (k, v) :: rest, key, value =>
    if str_lt key k then (key, value) :: (k, v) :: rest
    else if str_lt k key then (k, v) :: map_assign rest key value
    else (key, value) :: rest

/-- The statement `j[key] = value` (`operator[]( const std::string & )`, then
assignment): `j` is first coerced to an Object. -/
def JSON.assign_key (j : JSON) (key : List Char) (value : JSON) : JSON :=
  match j.SetType Class.Object with
  | .object m => .object (map_assign m key value)
  | other => other

/-- `std::deque::resize( n )`: the first `n` elements, filled up with `JSON()`. -/
def resize (l : List JSON) (n : Nat) : List JSON :=
  l.take n ++ List.replicate (n - l.length) JSON.null

/-- `operator[]( unsigned index )`, for `index < 2^32`: the value after the call.  It is
coerced to an Array, which is resized to `index + 1` (computed in `unsigned`) when
`index >= size`; the reference returned is `List[index]`, undefined behaviour when the
deque has no such element. -/
def JSON.subscript_index (j : JSON) (index : Nat) : Except Fault JSON :=
  match j.SetType Class.Array with
  | .array l =>
    let l := if index ≥ l.length then resize l ((index + 1) % 4294967296) else l
    if index < l.length then .ok (.array l) else .error Fault.undefined
  | _ => .error Fault.undefined

/-- `std::map::find`: the value stored under `key`, if any. -/
def map_find : List (List Char × JSON) → List Char → Option JSON
  | [], _ => none
  | (k, v) :: rest, key => if k = key then some v else map_find rest key

/-- `operator[]( const std::string &key )`: the value after the call.  It is coerced to
an Object, and `std::map::operator[]` inserts `key` with a `JSON()` when it is absent.
The mutable `at( key )` is this operator. -/
def JSON.subscript_key (j : JSON) (key : List Char) : JSON :=
  match j.SetType Class.Object with
  | .object m =>
    match map_find m key with
    | some _ => .object m
    | none => .object (map_assign m key JSON.null)
  | other => other

/-- `at( const std::string &key ) const`: `Internal.Map->at( key )`, whatever the tag.
Under another tag than Object the union holds no map (undefined behaviour);
`std::map::at` raises `std::out_of_range` for an absent key. -/
def JSON.at_const_key : JSON → List Char → Except Fault JSON
  | .object m, key =>
    match map_find m key with
    | some v => .ok v
    | none => .error Fault.out_of_range
  | _, _ => .error Fault.undefined

/-- `at( unsigned index ) const`: `Internal.List->at( index )`, whatever the tag. -/
def JSON.at_const_index : JSON → Nat → Except Fault JSON
  | .array l, index =>
    match l.get? index with
    | some v => .ok v
    | none => .error Fault.out_of_range
  | _, _ => .error Fault.undefined

/-- The statement `j[index] = value` (`operator[]( unsigned )`, then assignment). -/
def JSON.assign_index (j : JSON) (index : Nat) (value : JSON) : Except Fault JSON := do
  match ← j.subscript_index index with
  | .array l => pure (.array (l.set index value))
  | other => pure other

/-! ## The compact serializer -/

/-- The text `"undefined"` (quotes included) that `stringify` compares a child with. -/
def undefined_text : List Char := "\"undefined\"".toList

mutual
/-- `JSON::stringify`.  `to_str_f` is `to_str` at `long double` (the text `os << t`
writes for a floating-point number), which the embedding takes as given. -/
def JSON.stringify (to_str_f : LongDouble → List Char) : JSON → List Char
  | .null => "null".toList
  | .object m => stringify_map to_str_f m ['\x7b'] true ++ ['\x7d']
  | .array l => stringify_list to_str_f l ['['] true ++ [']']
  | .string s => '"' :: json_escape s ++ ['"']
  | .floating f => to_str_f f
  | .integral i => to_str i
  | .boolean b => if b then "true".toList else "false".toList
/-- The loop of `stringify` over the pairs of an Object: `s` is the text so far. -/
def stringify_map (to_str_f : LongDouble → List Char) :
    List (List Char × JSON) → List Char → Bool → List Char
  | [], s, _ => s
  | p :: rest, s, skip =>
    let s := if !skip then s ++ [','] else s
    let value := JSON.stringify to_str_f p.2
    if value = undefined_text then stringify_map to_str_f rest s skip
    else stringify_map to_str_f rest (s ++ ('"' :: p.1 ++ '"' :: ':' :: value)) false
/-- The loop of `stringify` over the elements of an Array. -/
def stringify_list (to_str_f : LongDouble → List Char) :
    List JSON → List Char → Bool → List Char
  | [], s, _ => s
  | p :: rest, s, skip =>
    let s := if !skip then s ++ [','] else s
    let value := JSON.stringify to_str_f p
    if value = undefined_text then stringify_list to_str_f rest s skip
    else stringify_list to_str_f rest (s ++ value) false
end

/-! ## The indented serializer -/

/-- The loop `for( int i = 0; i < depth; ++i, pad += tab )` of `dump`: `depth` copies of
`tab`, none when `depth` is not positive. -/
def dump_pad (depth : Int) (tab : List Char) : List Char :=
  (List.replicate depth.toNat tab).flatten

mutual
/-- `JSON::dump( depth, tab )`.  `to_string_f` is `std::to_string` at `long double`, which
the embedding takes as given; `std::to_string` of a `long long` is its decimal text. -/
def JSON.dump (to_string_f : LongDouble → List Char) (depth : Int) (tab : List Char) :
    JSON → Except Fault (List Char)
  | .null => pure "null".toList
  | .object m => do
    let s ← dump_map to_string_f depth tab (dump_pad depth tab) m "\x7b\n".toList true
    pure (s ++ ("\n".toList ++ (dump_pad depth tab).drop 2 ++ ['\x7d']))
  | .array l => do
    let s ← dump_list to_string_f depth tab l ['['] true
    pure (s ++ [']'])
  | .string s => pure ('"' :: json_escape s ++ ['"'])
  | .floating f => pure (to_string_f f)
  | .integral i => pure (to_str i)
  | .boolean b => pure (if b then "true".toList else "false".toList)
/-- The loop of `dump` over the pairs of an Object: `s` is the text so far.  The
argument `depth + 1` of the call for a child overflows the `int` at `depth = 2^31 - 1`
(undefined behaviour). -/
def dump_map (to_string_f : LongDouble → List Char) (depth : Int) (tab pad : List Char) :
    List (List Char × JSON) → List Char → Bool → Except Fault (List Char)
  | [], s, _ => pure s
  | p :: rest, s, skip => do
    let s := if !skip then s ++ ",\n".toList else s
    if depth = 2147483647 then .error Fault.undefined
    else
      let value ← JSON.dump to_string_f (depth + 1) tab p.2
      dump_map to_string_f depth tab pad rest
        (s ++ (pad ++ '"' :: p.1 ++ "\" : ".toList ++ value)) false
/-- The loop of `dump` over the elements of an Array. -/
def dump_list (to_string_f : LongDouble → List Char) (depth : Int) (tab : List Char) :
    List JSON → List Char → Bool → Except Fault (List Char)
  | [], s, _ => pure s
  | p :: rest, s, skip => do
    let s := if !skip then s ++ ", ".toList else s
    if depth = 2147483647 then .error Fault.undefined
    else
      let value ← JSON.dump to_string_f (depth + 1) tab p
      dump_list to_string_f depth tab rest (s ++ value) false
end

/-! ## The parser -/

/-- The loop of `consume_ws`. -/
def consume_ws_loop : Nat → List Char → Nat → Except Fault Nat
  | 0, _, _ => .error Fault.fuel
  | fuel + 1, str, offset => do
    let c ← charAt str offset
    if isspace c then consume_ws_loop fuel str (offset + 1) else pure offset

/-- `consume_ws`: the offset of the first character at or after `offset` that is not
white space. -/
def consume_ws (str : List Char) (offset : Nat) : Except Fault Nat :=
  consume_ws_loop (str.length - offset + 1) str offset

/-- The inner loop of `parse_string` on a `\u` escape: the characters
`str[offset+i]`, ..., as long as `n` more are expected; `none` when one is not a
hexadecimal digit. -/
def parse_string_hex (str : List Char) (offset : Nat) :
    Nat → Nat → List Char → Except Fault (Option (List Char))
  | 0, _, val => pure (some val)
  | n + 1, i, val => do
    let c ← charAt str (offset + i)
    if ishex c then parse_string_hex str offset n (i + 1) (val ++ [c]) else pure none

/-- The loop of `parse_string`; each round starts with `c = str[++offset]`. -/
def parse_string_loop : Nat → List Char → Nat → List Char → Except Fault (JSON × Nat)
  | 0, _, _, _ => .error Fault.fuel
  | fuel + 1, str, offset, val => do
    let offset := offset + 1
    let c ← charAt str offset
    if c = '"' then pure (JSON.string val, offset + 1)
    else if c = '\\' then do
      let offset := offset + 1
      let e ← charAt str offset
      if e = '"' then parse_string_loop fuel str offset (val ++ ['"'])
      else if e = '\\' then parse_string_loop fuel str offset (val ++ ['\\'])
      else if e = '/' then parse_string_loop fuel str offset (val ++ ['/'])
      else if e = 'b' then parse_string_loop fuel str offset (val ++ ['\x08'])
      else if e = 'f' then parse_string_loop fuel str offset (val ++ ['\x0c'])
      else if e = 'n' then parse_string_loop fuel str offset (val ++ ['\n'])
      else if e = 'r' then parse_string_loop fuel str offset (val ++ ['\r'])
      else if e = 't' then parse_string_loop fuel str offset (val ++ ['\t'])
      else if e = 'u' then do
        match ← parse_string_hex str offset 4 1 (val ++ ['\\', 'u']) with
        | none => pure (JSON.Make Class.String, offset)
        | some val => parse_string_loop fuel str (offset + 4) val
      else parse_string_loop fuel str offset (val ++ ['\\'])
    else parse_string_loop fuel str offset (val ++ [c])

/-- `parse_string`, called with `str[offset]` the opening quote. -/
def parse_string (str : List Char) (offset : Nat) : Except Fault (JSON × Nat) :=
  parse_string_loop (str.length - offset + 1) str offset []

/-- The test `!isspace( c ) && c != ',' && c != ']' && c != '}'` of `parse_number`. -/
def not_terminator (c : Char) : Bool :=
  !isspace c && c != ',' && c != ']' && c != '\x7d'

/-- The first loop of `parse_number` (the mantissa): returns the character `c` that
ended it, the offset after it, `val` and `isDouble`. -/
def parse_number_mantissa :
    Nat → List Char → Nat → List Char → Bool → Except Fault (Char × Nat × List Char × Bool)
  | 0, _, _, _, _ => .error Fault.fuel
  | fuel + 1, str, offset, val, isDouble => do
    let c ← charAt str offset
    let offset := offset + 1
    if c = '-' || isdigit c then parse_number_mantissa fuel str offset (val ++ [c]) isDouble
    else if c = '.' then parse_number_mantissa fuel str offset (val ++ [c]) true
    else pure (c, offset, val, isDouble)

/-- The second loop of `parse_number` (the digits of the exponent): `none` with the
offset when it ends on the error return, else `exp_str` with the offset. -/
def parse_number_exponent :
    Nat → List Char → Nat → List Char → Except Fault (Option (List Char) × Nat)
  | 0, _, _, _ => .error Fault.fuel
  | fuel + 1, str, offset, exp_str => do
    let c ← charAt str offset
    let offset := offset + 1
    if isdigit c then parse_number_exponent fuel str offset (exp_str ++ [c])
    else if not_terminator c then pure (none, offset)
    else pure (some exp_str, offset)

/-- The end of `parse_number`, from `--offset` on: the two `if` statements that assign
`Number`.  A product with `std::pow( 10, exp )` is a floating-point number: the payload
records the decimal of the product, which the machine computes in `double` (from a
`long long`) or `long double` arithmetic, rounded and possibly infinite; no exception
arises from the product. -/
def parse_number_value (val exp_str : List Char) (isDouble : Bool) (exp : Int)
    (offset : Nat) : Except Fault (JSON × Nat) := do
  let offset := offset - 1
  if !isDouble then
    if exp_str = [] then do
      let n ← stoll val
      pure (JSON.integral n, offset)
    else do
      let n ← stoll val
      pure (JSON.floating ⟨n, exp⟩, offset)
  else
    if exp_str = [] then do
      let x ← stold val
      pure (JSON.floating x, offset)
    else do
      let x ← stold val
      pure (JSON.floating ⟨x.mant, x.exp10 + exp⟩, offset)

/-- `parse_number`. -/
def parse_number (str : List Char) (offset : Nat) : Except Fault (JSON × Nat) := do
  let (c, offset, val, isDouble) ←
    parse_number_mantissa (str.length - offset + 1) str offset [] false
  if c = 'E' || c = 'e' then do
    let c ← charAt str offset
    let offset := offset + 1
    let (offset, exp_str) := if c = '-' then (offset + 1, ['-']) else (offset, [])
    match ← parse_number_exponent (str.length - offset + 1) str offset exp_str with
    | (none, offset) => pure (JSON.Make Class.Null, offset)
    | (some exp_str, offset) => do
      let exp ← stoll exp_str
      parse_number_value val exp_str isDouble exp offset
  else if not_terminator c then pure (JSON.Make Class.Null, offset)
  else parse_number_value val [] isDouble 0 offset

/-- `str.substr( offset, n )`, which throws `std::out_of_range` when `offset` is
beyond the size. -/
def substr (str : List Char) (offset n : Nat) : Except Fault (List Char) :=
  if offset ≤ str.length then .ok ((str.drop offset).take n) else .error Fault.out_of_range

/-- `parse_bool`. -/
def parse_bool (str : List Char) (offset : Nat) : Except Fault (JSON × Nat) := do
  let s4 ← substr str offset 4
  if s4 = "true".toList then pure (JSON.boolean true, offset + 4)
  else do
    let s5 ← substr str offset 5
    if s5 = "false".toList then pure (JSON.boolean false, offset + 5)
    else pure (JSON.Make Class.Null, offset)

/-- `parse_null`. -/
def parse_null (str : List Char) (offset : Nat) : Except Fault (JSON × Nat) := do
  let s4 ← substr str offset 4
  if s4 ≠ "null".toList then pure (JSON.Make Class.Null, offset)
  else pure (JSON.null, offset + 4)

/-- The `while( true )` loop of `parse_object`; `next` is `parse_next`. -/
def parse_object_loop (next : List Char → Nat → Except Fault (JSON × Nat)) :
    Nat → List Char → Nat → JSON → Except Fault (JSON × Nat)
  | 0, _, _, _ => .error Fault.fuel
  | fuel + 1, str, offset, Object => do
    let (Key, offset) ← next str offset
    let offset ← consume_ws str offset
    let c ← charAt str offset
    if c ≠ ':' then pure (Object, offset)
    else do
      let offset ← consume_ws str (offset + 1)
      let (Value, offset) ← next str offset
      let Object := Object.assign_key Key.ToString.1 Value
      let offset ← consume_ws str offset
      let c ← charAt str offset
      if c = ',' then parse_object_loop next fuel str (offset + 1) Object
      else if c = '\x7d' then pure (Object, offset + 1)
      else pure (Object, offset)

/-- `parse_object`, called with `str[offset]` the opening brace; `next` is
`parse_next`. -/
def parse_object (next : List Char → Nat → Except Fault (JSON × Nat))
    (str : List Char) (offset : Nat) : Except Fault (JSON × Nat) := do
  let Object := JSON.Make Class.Object
  let offset ← consume_ws str (offset + 1)
  let c ← charAt str offset
  if c = '\x7d' then pure (Object, offset + 1)
  else parse_object_loop next (str.length - offset + 1) str offset Object

/-- The `while( true )` loop of `parse_array`; `next` is `parse_next`, and `index` is
an `unsigned`. -/
def parse_array_loop (next : List Char → Nat → Except Fault (JSON × Nat)) :
    Nat → List Char → Nat → JSON → Nat → Except Fault (JSON × Nat)
  | 0, _, _, _, _ => .error Fault.fuel
  | fuel + 1, str, offset, Array, index => do
    let (value, offset) ← next str offset
    let Array ← Array.assign_index index value
    let index := (index + 1) % 4294967296
    let offset ← consume_ws str offset
    let c ← charAt str offset
    if c = ',' then parse_array_loop next fuel str (offset + 1) Array index
    else if c = ']' then pure (Array, offset + 1)
    else pure (JSON.Make Class.Array, offset)

/-- `parse_array`, called with `str[offset]` the opening bracket; `next` is
`parse_next`. -/
def parse_array (next : List Char → Nat → Except Fault (JSON × Nat))
    (str : List Char) (offset : Nat) : Except Fault (JSON × Nat) := do
  let Array := JSON.Make Class.Array
  let offset ← consume_ws str (offset + 1)
  let c ← charAt str offset
  if c = ']' then pure (Array, offset + 1)
  else parse_array_loop next (str.length - offset + 1) str offset Array 0

/-- `parse_next`.  The fuel bounds the depth of nesting: `parse_object` and
`parse_array` call `parse_next` with one unit less. -/
def parse_next : Nat → List Char → Nat → Except Fault (JSON × Nat)
  | 0, _, _ => .error Fault.fuel
  | fuel + 1, str, offset => do
    let offset ← consume_ws str offset
    let value ← charAt str offset
    if value = '[' then parse_array (parse_next fuel) str offset
    else if value = '\x7b' then parse_object (parse_next fuel) str offset
    else if value = '"' then parse_string str offset
    else if value = 't' || value = 'f' then parse_bool str offset
    else if value = 'n' then parse_null str offset
    else if isdigit value || value = '-' then parse_number str offset
    else pure (JSON.null, offset)

/-- `JSON::Load`: a text nests at most as deep as it is long. -/
def JSON.Load (str : List Char) : Except Fault JSON := do
  let (value, _) ← parse_next (str.length + 1) str 0
  pure value

/-! ## Values in memory -/

/-- A `JSON` object as it lies in memory: the tag `Type` and the union `Internal`, which
holds the number or Boolean itself, or the address of the map, deque or string. -/
inductive Stored where
  | null
  | object (p : Nat)
  | array (p : Nat)
  | string (p : Nat)
  | floating (f : LongDouble)
  | integral (i : Int)
  | boolean (b : Bool)
deriving DecidableEq

/-- What `new` allocated: a map, a deque or a string, or what `delete` left of it. -/
inductive Block where
  | map (m : List (List Char × Stored))
  | deque (l : List Stored)
  | string (s : List Char)
  | deleted
deriving DecidableEq

/-- The memory: the blocks allocated so far, the address of a block being its position;
`new` appends a block. -/
abbrev Memory := List Block

/-- The copies of the elements of a deque, made one after the other by `copy1`. -/
def copy_deque (copy1 : Memory → Stored → Except Fault (Memory × Stored)) :
    Memory → List Stored → Except Fault (Memory × List Stored)
  | mem, [] => pure (mem, [])
  | mem, x :: xs => do
    let (mem, y) ← copy1 mem x
    let (mem, ys) ← copy_deque copy1 mem xs
    pure (mem, y :: ys)

/-- The copies of the pairs of a map, made one after the other by `copy1`. -/
def copy_map (copy1 : Memory → Stored → Except Fault (Memory × Stored)) :
    Memory → List (List Char × Stored) → Except Fault (Memory × List (List Char × Stored))
  | mem, [] => pure (mem, [])
  | mem, (k, x) :: xs => do
    let (mem, y) ← copy1 mem x
    let (mem, ys) ← copy_map copy1 mem xs
    pure (mem, (k, y) :: ys)

/-- The copy constructor `JSON( const JSON &other )`: the memory after the call and the
object constructed.  The range constructors of `std::map` and `std::deque` copy each
element with this constructor; the fuel bounds the depth of nesting.  Reading a block
that is not there, or not of the kind the tag says, is undefined behaviour. -/
def copy_construct : Nat → Memory → Stored → Except Fault (Memory × Stored)
  | 0, _, _ => .error Fault.fuel
  | fuel + 1, mem, .object p =>
    match mem[p]? with
    | some (.map m) => do
      let (mem, m1) ← copy_map (copy_construct fuel) mem m
      pure (mem ++ [Block.map m1], .object mem.length)
    | _ => .error Fault.undefined
  | fuel + 1, mem, .array p =>
    match mem[p]? with
    | some (.deque l) => do
      let (mem, l1) ← copy_deque (copy_construct fuel) mem l
      pure (mem ++ [Block.deque l1], .array mem.length)
    | _ => .error Fault.undefined
  | _ + 1, mem, .string p =>
    match mem[p]? with
    | some (.string s) => pure (mem ++ [Block.string s], .string mem.length)
    | _ => .error Fault.undefined
  | _ + 1, mem, other => pure (mem, other)

/-- The destructors of the elements of a container, run one after the other. -/
def destroy_all (destroy1 : Memory → Stored → Except Fault Memory) :
    Memory → List Stored → Except Fault Memory
  | mem, [] => pure mem
  | mem, x :: xs => do
    let mem ← destroy1 mem x
    destroy_all destroy1 mem xs

/-- `ClearInternal` (the destructor `~JSON` has the same body): `delete` of the map,
deque or string of the object, which first destroys the elements of a container. -/
def ClearInternal : Nat → Memory → Stored → Except Fault Memory
  | 0, _, _ => .error Fault.fuel
  | fuel + 1, mem, .object p =>
    match mem[p]? with
    | some (.map m) => do
      let mem ← destroy_all (ClearInternal fuel) mem (m.map Prod.snd)
      pure (mem.set p Block.deleted)
    | _ => .error Fault.undefined
  | fuel + 1, mem, .array p =>
    match mem[p]? with
    | some (.deque l) => do
      let mem ← destroy_all (ClearInternal fuel) mem l
      pure (mem.set p Block.deleted)
    | _ => .error Fault.undefined
  | _ + 1, mem, .string p =>
    match mem[p]? with
    | some (.string _) => pure (mem.set p Block.deleted)
    | _ => .error Fault.undefined
  | _ + 1, mem, _ => pure mem

/-- The copy assignment `operator=( const JSON &other )` to the object `self`:
`ClearInternal`, then the switch of the copy constructor. -/
def copy_assign (fuel : Nat) (mem : Memory) (self other : Stored) :
    Except Fault (Memory × Stored) := do
  let mem ← ClearInternal fuel mem self
  copy_construct fuel mem other

/-! ## Pointers into a value -/

/-- The node a pointer designates.  A pointer into a value is modelled by the chain of
keys that leads from the root to the node; no node when the chain leaves the value. -/
def node_at : JSON → List (List Char) → Option JSON
  | j, [] => some j
  | .object m, k :: ks =>
    match map_find m k with
    | some c => node_at c ks
    | none => none
  | _, _ :: _ => none

/-- The root after the node a pointer designates was replaced by its image under `f`. -/
def update_at (f : JSON → JSON) : JSON → List (List Char) → JSON
  | j, [] => f j
  | .object m, k :: ks =>
    match map_find m k with
    | some c => .object (map_assign m k (update_at f c ks))
    | none => .object m
  | j, _ :: _ => j

/-- The expression `&address->at( key )` on a mutable node: the root after the call
(`at` is `operator[]`, which may change the node) and the pointer to the child. -/
def at_address (root : JSON) (address : List (List Char)) (key : List Char) :
    JSON × List (List Char) :=
  (update_at (fun n => n.subscript_key key) root address, address ++ [key])

/-- The node behind a pointer; a pointer to no node is undefined behaviour. -/
def deref (root : JSON) (address : List (List Char)) : Except Fault JSON :=
  match node_at root address with
  | some n => .ok n
  | none => .error Fault.undefined

/-! ## More of the standard library -/

/-- `std::string::npos` (64-bit `size_t`). -/
def npos : Nat := 18446744073709551615

/-- `std::string::find( char )`: the first position of `c`, or `npos`. -/
def find (s : List Char) (c : Char) : Nat := if c ∈ s then s.indexOf c else npos

/-- Conversion of an unsigned value to `int` (32 bits, two's complement). -/
def to_int (n : Nat) : Int :=
  let m := n % 4294967296
  if m < 2147483648 then (m : Int) else (m : Int) - 4294967296

/-- Conversion of an `int` to a 64-bit unsigned type. -/
def to_uint64 (i : Int) : Nat := (i % 18446744073709551616).toNat

/-- `std::stoull` in base 10: leading white space, an optional sign and the longest run
of digits; `invalid_argument` without a digit, `out_of_range` above 2^64 - 1; with a
minus sign the value is negated in the unsigned type. -/
def stoull (s : List Char) : Except Fault Nat :=
  let (neg, t) := takeSign (s.dropWhile isspace)
  let ds := t.takeWhile isdigit
  if ds = [] then .error Fault.invalid_argument
  else if 18446744073709551615 < digitsVal ds then .error Fault.out_of_range
  else .ok (if neg then (18446744073709551616 - digitsVal ds) % 18446744073709551616
    else digitsVal ds)

/-- The value of a byte as `unsigned char`. -/
def byte (c : Char) : Nat := c.toNat % 256

/-- `*(uint32_t*)p` for the four bytes at `p`, on a little-endian machine. -/
def uint32_at : List Char → Nat
  | [b0, b1, b2, b3] => byte b0 + 256 * byte b1 + 65536 * byte b2 + 16777216 * byte b3
  | _ => 0

/-- `seekg( pos )` then `read( buffer, n )` on a fresh stream of a file: the bytes that
reach the buffer.  A position that is negative as a `std::streamoff` fails the seek, and
nothing is read; at the end of the file the read stops short. -/
def stream_read (file : List Char) (pos n : Nat) : List Char :=
  if 9223372036854775808 ≤ pos then [] else (file.drop pos).take n

end json

/-! ## asar.hpp -/

open json

/-- The class `Asar`.  The field `file` stands for `filename` and the file system: it
is the content of the file of that name, which is there and does not change.
Allocation never fails (`std::bad_alloc` is not modelled). -/
structure Asar where
  file : List Char
  header : JSON
  offset : Int

namespace Asar

/-- The loop of `resolve_asar_path`, entered with `e` already computed.  The test
`e != std::string::npos` converts the `int` to `size_t`, so it fails exactly for
`e = -1`; another negative `e` makes `path.begin() + e + 1` precede `path.begin()`. -/
def resolve_asar_path_loop :
    Nat → JSON → List (List Char) → List Char → Int →
      Except Fault (JSON × List (List Char) × List Char)
  | 0, _, _, _, _ => .error Fault.fuel
  | fuel + 1, header, address, path, e =>
    if e = -1 then .ok (header, address, path)
    else if e < 0 then .error Fault.undefined
    else
      let i := path.take e.toNat
      let path := path.drop (e.toNat + 1)
      let e := to_int (find path '/')
      if i = [] then resolve_asar_path_loop fuel header address path e
      else if '.' ∈ i then
        let (header, address) := at_address header address i
        resolve_asar_path_loop fuel header address path e
      else
        let (header, address) := at_address header address i
        let (header, address) := at_address header address "files".toList
        resolve_asar_path_loop fuel header address path e

/-- `Asar::resolve_asar_path`: the object after the call (the lookups go through the
mutable `at`) and the pointer returned. -/
def resolve_asar_path (a : Asar) (path : List Char) :
    Except Fault (Asar × List (List Char)) := do
  let (header, address) := at_address a.header [] "files".toList
  let (header, address, path) ←
    resolve_asar_path_loop (path.length + 1) header address path (to_int (find path '/'))
  let (header, address) := at_address header address path
  pure ({ a with header := header }, address)

/-- `Asar::exist( const json::JSON *file )`, on the node `file` points to. -/
def exist_file (file : JSON) : Bool := !file.IsNull

/-- `Asar::exist( const std::string path )`: the answer and the object after the call. -/
def exist (a : Asar) (path : List Char) : Except Fault (Bool × Asar) := do
  let (a, c) ← a.resolve_asar_path path
  let node ← deref a.header c
  pure (!node.IsNull, a)

/-- `Asar::content`: the string returned and the object after the call.  The buffer is
allocated uninitialised and written out whole, so a read that stopped short is
undefined behaviour. -/
def content (to_str_f : LongDouble → List Char) (a : Asar) (path : List Char) :
    Except Fault (List Char × Asar) := do
  let (a, c) ← a.resolve_asar_path path
  let node ← deref a.header c
  if !exist_file node then pure ([], a)
  else
    let (header, p) := at_address a.header c "size".toList
    let size_node ← deref header p
    let _size ← stoull (JSON.stringify to_str_f size_node)
    let (header, p) := at_address header c "offset".toList
    let offset_node ← deref header p
    let _offset ← stoull offset_node.ToString.1
    let buffer := stream_read a.file ((to_uint64 a.offset + _offset) % 18446744073709551616) _size
    if buffer.length < _size then .error Fault.undefined
    else pure (buffer, { a with header := header })

/-- The constructor `Asar::Asar( filename )`, on the content of the file.  Fewer than 8
bytes leave `size` uninitialised; `uSize + 1` is computed in `uint32_t`, and when it
wraps to 0 the write `buffer[uSize]` is out of bounds; `Load` takes `buffer` as a C
string, which ends at the first `'\0'` and runs into uninitialised bytes when the read
stopped short and met none. -/
def Asar (file : List Char) : Except Fault Asar :=
  if file.length < 8 then .error Fault.undefined
  else
    let uSize := (uint32_at ((file.drop 4).take 4) + 4294967296 - 8) % 4294967296
    if (uSize + 1) % 4294967296 = 0 then .error Fault.undefined
    else
      let buffer := stream_read file 16 uSize
      if buffer.length < uSize ∧ '\x00' ∉ buffer then .error Fault.undefined
      else do
        let header ← JSON.Load (buffer.takeWhile (fun c => c != '\x00'))
        pure ⟨file, header, to_int ((uSize + 16) % 4294967296)⟩

end Asar

namespace json

/-! ## Vocabulary of the statements -/

/-- The characters `json_escape` replaces by a two-character escape. -/
def escaped (c : Char) : Bool :=
  c = '"' || c = '\\' || c = '\x08' || c = '\x0c' || c = '\n' || c = '\r' || c = '\t'

/-- Order of two pairs of a map: by their keys. -/
def key_lt (a b : List Char × JSON) : Prop := str_lt a.1 b.1 = true

/-- The texts `xs`, each preceded by a comma. -/
def comma_each : List (List Char) → List Char
  | [] => []
  | x :: xs => ',' :: x ++ comma_each xs

/-- The texts `xs` separated by commas. -/
def comma_join : List (List Char) → List Char
  | [] => []
  | x :: xs => x ++ comma_each xs

/-- The text of one pair of an Object in the compact form: `"key":value`. -/
def pair_text (to_str_f : LongDouble → List Char) (p : List Char × JSON) : List Char :=
  '"' :: p.1 ++ '"' :: ':' :: JSON.stringify to_str_f p.2

/-- The statements `j[key] = value` for the pairs of `kvs`, from first to last. -/
def JSON.assign_all (j : JSON) (kvs : List (List Char × JSON)) : JSON :=
  kvs.foldl (fun o kv => o.assign_key kv.1 kv.2) j

/-- `JSON::length`. -/
def JSON.length : JSON → Int
  | .array l => l.length
  | _ => -1

/-- `JSON::hasKey`. -/
def JSON.hasKey : JSON → List Char → Bool
  | .object m, key => (m.map Prod.fst).contains key
  | _, _ => false

/-- The text `undefined` without quotes: the String payload `stringify` suppresses. -/
def undefined_payload : List Char := "undefined".toList

mutual
/-- The values of the well-behaved fragment: built from Null, Boolean, Integral (within
`long long`), String, Array (fewer than 2^32 elements) and Object (keys strictly ascending,
each the `json_escape` of a string), no child being the String `undefined`. -/
def JSON.plain : JSON → Prop
  | .null => True
  | .object m => plain_map m
  | .array l => l.length < 4294967296 ∧ plain_list l
  | .string _ => True
  | .floating _ => False
  | .integral i => -9223372036854775808 ≤ i ∧ i ≤ 9223372036854775807
  | .boolean _ => True
/-- The pairs of an Object of the fragment. -/
def plain_map : List (List Char × JSON) → Prop
  | [] => True
  | p :: rest =>
    (∃ s, p.1 = json_escape s) ∧ JSON.plain p.2 ∧ p.2 ≠ JSON.string undefined_payload
      ∧ (∀ q ∈ rest, key_lt p q) ∧ plain_map rest
/-- The elements of an Array of the fragment. -/
def plain_list : List JSON → Prop
  | [] => True
  | v :: rest => JSON.plain v ∧ v ≠ JSON.string undefined_payload ∧ plain_list rest
end

mutual
/-- The nesting depth of a value: 1 for a value that is not a container. -/
def JSON.depth : JSON → Nat
  | .object m => depth_map m + 1
  | .array l => depth_list l + 1
  | _ => 1
/-- The largest depth among the values of the pairs. -/
def depth_map : List (List Char × JSON) → Nat
  | [] => 0
  | p :: rest => max (JSON.depth p.2) (depth_map rest)
/-- The largest depth among the elements. -/
def depth_list : List JSON → Nat
  | [] => 0
  | v :: rest => max (JSON.depth v) (depth_list rest)
end

/-- A result that is not the exhaustion of the fuel and, when a value, leaves the offset
at or behind `offset`. -/
def Advances (offset : Nat) (r : Except Fault (JSON × Nat)) : Prop :=
  r ≠ .error Fault.fuel ∧ ∀ v o, r = .ok (v, o) → offset ≤ o

/-- What `stringify` writes for one pair of an Object: nothing when the value
serializes to the quoted text `undefined`, else `"key":value`. -/
def pair_body (to_str_f : LongDouble → List Char) (p : List Char × JSON) : List Char :=
  if JSON.stringify to_str_f p.2 = undefined_text then [] else pair_text to_str_f p

/-- The pairs `m` written in their order, the text of each behind its separator. -/
def pieces_text (to_str_f : LongDouble → List Char) :
    List (List Char) → List (List Char × JSON) → List Char
  | sep :: seps, p :: m => sep ++ pair_body to_str_f p ++ pieces_text to_str_f seps m
  | _, _ => []

/-- The characters the escape switch of `parse_string` has a case for. -/
def known_escape (c : Char) : Bool :=
  c = '"' || c = '\\' || c = '/' || c = 'b' || c = 'f' || c = 'n' || c = 'r' || c = 't'
    || c = 'u'

/-- The child of a node under a key, if the node is an Object that has the key. -/
def child : JSON → List Char → Option JSON
  | .object m, k => map_find m k
  | _, _ => none

/-- The node reached from `n` through mutable lookups of `keys`: a lookup that finds no
child reaches the Null it inserts. -/
def walk_node (n : JSON) (keys : List (List Char)) : JSON :=
  keys.foldl (fun n k => (child n k).getD JSON.null) n

/-- The lookups `address = &address->at( k )` for the keys `keys`, from first to last:
the root after them and the pointer reached. -/
def walk (root : JSON) (address : List (List Char)) (keys : List (List Char)) :
    JSON × List (List Char) :=
  keys.foldl (fun s k => at_address s.1 s.2 k) (root, address)

/-- The keys looked up for a segment of a path that a slash ends: none for an empty
segment, the segment itself when it has a dot, else the segment and then `files`. -/
def segment_keys (i : List Char) : List (List Char) :=
  if i = [] then [] else if '.' ∈ i then [i] else [i, "files".toList]

/-- The keys looked up for the rest `path` of a path, `seg` being the part of the
current segment already passed: those of each segment that a slash ends, then the last
segment as it is. -/
def path_keys : List Char → List Char → List (List Char)
  | seg, [] => [seg]
  | seg, c :: rest =>
    if c = '/' then segment_keys seg ++ path_keys [] rest else path_keys (seg ++ [c]) rest

/-- The chain of keys that leads from the header to the node a path names. -/
def lookup_keys (path : List Char) : List (List Char) :=
  "files".toList :: path_keys [] path

/-- The values the objects of a list denote, if each denotes one. -/
def values_of (value1 : Stored → Option JSON) : List Stored → Option (List JSON)
  | [] => some []
  | x :: xs =>
    match value1 x, values_of value1 xs with
    | some v, some vs => some (v :: vs)
    | _, _ => none

/-- The pairs the pairs of a map denote, if each value denotes one. -/
def pairs_of (value1 : Stored → Option JSON) :
    List (List Char × Stored) → Option (List (List Char × JSON))
  | [] => some []
  | (k, x) :: xs =>
    match value1 x, pairs_of value1 xs with
    | some v, some vs => some ((k, v) :: vs)
    | _, _ => none

/-- The value an object in memory denotes: the tree of its payloads, if every block it
leads to is there and of the kind the tag says (the fuel bounds the depth). -/
def value_of : Nat → Memory → Stored → Option JSON
  | 0, _, _ => none
  | fuel + 1, mem, .object p =>
    match mem[p]? with
    | some (.map m) => (pairs_of (value_of fuel mem) m).map JSON.object
    | _ => none
  | fuel + 1, mem, .array p =>
    match mem[p]? with
    | some (.deque l) => (values_of (value_of fuel mem) l).map JSON.array
    | _ => none
  | _ + 1, mem, .string p =>
    match mem[p]? with
    | some (.string s) => some (JSON.string s)
    | _ => none
  | _ + 1, _, .null => some JSON.null
  | _ + 1, _, .floating f => some (JSON.floating f)
  | _ + 1, _, .integral i => some (JSON.integral i)
  | _ + 1, _, .boolean b => some (JSON.boolean b)

/-- Two memories hold the same blocks at the addresses from `lo` up to `hi`. -/
def same_on (lo hi : Nat) (m1 m2 : Memory) : Prop :=
  ∀ p, lo ≤ p → p < hi → m1[p]? = m2[p]?

/-- What is asked of the copy of one object: the memory only grows, and the copy
denotes the same value, which depends only on the new blocks. -/
def Copies (value1 : Memory → Stored → Option JSON)
    (copy1 : Memory → Stored → Except Fault (Memory × Stored)) : Prop :=
  ∀ (mem : Memory) (x : Stored) (v : JSON), value1 mem x = some v →
    ∃ extra y, copy1 mem x = .ok (mem ++ extra, y)
      ∧ ∀ mem1, same_on mem.length (mem.length + extra.length) mem1 (mem ++ extra) →
          value1 mem1 y = some v

/-- A value that depends only on the blocks that are there. -/
def Stable (value1 : Memory → Stored → Option JSON) : Prop :=
  ∀ (mem mem1 : Memory) (x : Stored) (v : JSON), value1 mem x = some v →
    same_on 0 mem.length mem1 mem → value1 mem1 x = some v

/-- A memory that holds the Object `{"x":[1,"s"]}` at address 2. -/
def copy_memory : Memory :=
  [Block.string "s".toList, Block.deque [Stored.integral 1, Stored.string 0],
    Block.map [("x".toList, Stored.array 1)]]

/-- The node `resolve_asar_path` points to when it returns. -/
def resolved (a : Asar) (path : List Char) : Except Fault JSON := do
  let (a1, c) ← a.resolve_asar_path path
  deref a1.header c

/-- The header text of the example archive: the entry `assets/image.png` of 10 bytes at
offset 0, the offset being a string as `asar` writes it. -/
def image_text : List Char :=
  "\x7b\"files\":\x7b\"assets\":\x7b\"files\":\x7b".toList
    ++ "\"image.png\":\x7b\"size\":10,\"offset\":\"0\"\x7d\x7d\x7d\x7d\x7d".toList

/-- An archive with the header `image_text` (69 bytes, size field 77) and 16 bytes of
content. -/
def image_archive : List Char :=
  "\x04\x00\x00\x00\x4d\x00\x00\x00\x49\x00\x00\x00\x45\x00\x00\x00".toList ++ image_text
    ++ "0123456789abcdef".toList

/-- The entry of `assets/image.png` in `image_header`. -/
def image_leaf : JSON :=
  JSON.object [("offset".toList, JSON.string "0".toList), ("size".toList, JSON.integral 10)]

/-- The value of `image_text`. -/
def image_header : JSON :=
  JSON.object [("files".toList, JSON.object [("assets".toList, JSON.object [("files".toList,
    JSON.object [("image.png".toList, image_leaf)])])])]

/-- An archive whose size field is 40: a header of 32 bytes, then 10 bytes of content. -/
def small_archive : List Char :=
  "\x04\x00\x00\x00\x28\x00\x00\x00\x24\x00\x00\x00\x20\x00\x00\x00".toList
    ++ "\x7b\"files\":\x7b\"a.txt\":\x7b\"size\":10\x7d\x7d\x7d ".toList ++ "0123456789".toList

/-- The header text of the example with a numeric `offset` field. -/
def numeric_text : List Char :=
  "\x7b\"files\":\x7b\"assets\":\x7b\"files\":\x7b".toList
    ++ "\"image.png\":\x7b\"size\":10,\"offset\":0\x7d\x7d\x7d\x7d\x7d".toList

/-- The value of `numeric_text`. -/
def numeric_header : JSON :=
  JSON.object [("files".toList, JSON.object [("assets".toList, JSON.object [("files".toList,
    JSON.object [("image.png".toList, JSON.object [("offset".toList, JSON.integral 0),
      ("size".toList, JSON.integral 10)])])])])]

/-- The indentation of nesting depth `n`: `n` copies of the indent unit. -/
def indent (n : Nat) (tab : List Char) : List Char := (List.replicate n tab).flatten

mutual
/-- The pretty form as the specification describes it, at nesting depth `d` with the
indent unit `tab`: an Object is an opening brace and a newline, the pairs `"key" : value`
each behind `d` copies of `tab` and separated by a comma and a newline, then a newline,
`d - 1` copies of `tab` and the closing brace; an Array is `[`, the elements separated by
a comma and a blank, and `]`, on one line; children are written at depth `d + 1`. -/
def JSON.pretty_form (to_string_f : LongDouble → List Char) (d : Nat) (tab : List Char) :
    JSON → List Char
  | .null => "null".toList
  | .object m =>
    "\x7b\n".toList ++ pretty_pairs to_string_f d tab true m
      ++ ("\n".toList ++ indent (d - 1) tab ++ ['\x7d'])
  | .array l => '[' :: pretty_elements to_string_f d tab true l ++ [']']
  | .string s => '"' :: json_escape s ++ ['"']
  | .floating f => to_string_f f
  | .integral i => to_str i
  | .boolean b => if b then "true".toList else "false".toList
/-- The pairs of an Object in the pretty form; `first` tells that no pair precedes. -/
def pretty_pairs (to_string_f : LongDouble → List Char) (d : Nat) (tab : List Char) :
    Bool → List (List Char × JSON) → List Char
  | _, [] => []
  | first, p :: rest =>
    (if first then [] else ",\n".toList)
      ++ (indent d tab ++ '"' :: p.1 ++ "\" : ".toList
        ++ JSON.pretty_form to_string_f (d + 1) tab p.2)
      ++ pretty_pairs to_string_f d tab false rest
/-- The elements of an Array in the pretty form. -/
def pretty_elements (to_string_f : LongDouble → List Char) (d : Nat) (tab : List Char) :
    Bool → List JSON → List Char
  | _, [] => []
  | first, p :: rest =>
    (if first then [] else ", ".toList) ++ JSON.pretty_form to_string_f (d + 1) tab p
      ++ pretty_elements to_string_f d tab false rest
end

/-- The header of the example of a directory with a dot in its name: the entry `a`, with
the content `X`, in the directory `v1.0`. -/
def dotted_header (X : JSON) : JSON :=
  JSON.object [("files".toList, JSON.object [("v1.0".toList,
    JSON.object [("files".toList, JSON.object [("a".toList, X)])])])]

mutual
/-- The invariant of `std::map` throughout a value: the keys of every Object are in
strictly ascending order. -/
def JSON.ordered : JSON → Prop
  | .object m => ordered_map m
  | .array l => ordered_list l
  | _ => True
/-- The pairs of an Object with ascending keys and values that satisfy the invariant. -/
def ordered_map : List (List Char × JSON) → Prop
  | [] => True
  | p :: rest => (∀ q ∈ rest, key_lt p q) ∧ JSON.ordered p.2 ∧ ordered_map rest
/-- The elements of an Array that satisfy the invariant. -/
def ordered_list : List JSON → Prop
  | [] => True
  | v :: rest => JSON.ordered v ∧ ordered_list rest
end

/-- The elements the loop of `parse_array` reads from `offset` on: `next` returns each
of `values`, white space and a comma follow each but the last, and `stop` is the offset
of the first character behind the last one that is not white space. -/
inductive Elements (next : List Char → Nat → Except Fault (JSON × Nat)) (str : List Char) :
    Nat → List JSON → Nat → Prop
  | last (offset o1 stop : Nat) (value : JSON) :
      next str offset = .ok (value, o1) → consume_ws str o1 = .ok stop →
      Elements next str offset [value] stop
  | more (offset o1 o2 stop : Nat) (value : JSON) (values : List JSON) :
      next str offset = .ok (value, o1) → consume_ws str o1 = .ok o2 →
      charAt str o2 = .ok ',' → Elements next str (o2 + 1) values stop →
      Elements next str offset (value :: values) stop

/-- The members the loop of `parse_object` reads from `offset` on: `next` returns each
key and, behind white space, a colon and white space, its value; white space and a comma
follow each member but the last, and `stop` is the offset of the first character behind
the last value that is not white space. -/
inductive Members (next : List Char → Nat → Except Fault (JSON × Nat)) (str : List Char) :
    Nat → List (JSON × JSON) → Nat → Prop
  | last (offset o1 o2 o3 o4 stop : Nat) (Key Value : JSON) :
      next str offset = .ok (Key, o1) → consume_ws str o1 = .ok o2 →
      charAt str o2 = .ok ':' → consume_ws str (o2 + 1) = .ok o3 →
      next str o3 = .ok (Value, o4) → consume_ws str o4 = .ok stop →
      Members next str offset [(Key, Value)] stop
  | more (offset o1 o2 o3 o4 o5 stop : Nat) (Key Value : JSON) (members : List (JSON × JSON)) :
      next str offset = .ok (Key, o1) → consume_ws str o1 = .ok o2 →
      charAt str o2 = .ok ':' → consume_ws str (o2 + 1) = .ok o3 →
      next str o3 = .ok (Value, o4) → consume_ws str o4 = .ok o5 →
      charAt str o5 = .ok ',' → Members next str (o5 + 1) members stop →
      Members next str offset ((Key, Value) :: members) stop

/-- The Object after the assignments `Object[Key.ToString()] = Value` for the members
in their order. -/
def assign_members (Object : JSON) (members : List (JSON × JSON)) : JSON :=
  members.foldl (fun Object m => Object.assign_key m.1.ToString.1 m.2) Object

/-- A memory in which some blocks of another have been deleted, the others being as they
were. -/
def Deleted (mem1 mem : Memory) : Prop :=
  mem1.length = mem.length ∧ ∀ p : Nat, mem1[p]? = mem[p]? ∨ mem1[p]? = some Block.deleted

/-- What is asked of the release of a copy: it succeeds in every memory that holds the
blocks of the copy, and changes no other block. -/
def Releases (value1 : Memory → Stored → Option JSON)
    (copy1 : Memory → Stored → Except Fault (Memory × Stored))
    (clear1 : Memory → Stored → Except Fault Memory) : Prop :=
  ∀ (mem : Memory) (x : Stored) (v : JSON), value1 mem x = some v →
    ∀ (extra : Memory) (y : Stored), copy1 mem x = .ok (mem ++ extra, y) →
      ∀ M : Memory, same_on mem.length (mem.length + extra.length) M (mem ++ extra) →
        ∃ M1, clear1 M y = .ok M1 ∧ M1.length = M.length
          ∧ ∀ p : Nat, p < mem.length ∨ mem.length + extra.length ≤ p → M1[p]? = M[p]?

/-- The value the Object at address 2 of `copy_memory` denotes. -/
def copy_value : JSON :=
  JSON.object [("x".toList, JSON.array [JSON.integral 1, JSON.string "s".toList])]

/-- What the escape switch of `parse_string` appends for the character `e` behind a
backslash, `e` other than `u`: the character the escape stands for, or the backslash
itself when the switch has no case for `e`. -/
def escape_value (e : Char) : Char :=
  if e = '"' then '"'
  else if e = '\\' then '\\'
  else if e = '/' then '/'
  else if e = 'b' then '\x08'
  else if e = 'f' then '\x0c'
  else if e = 'n' then '\n'
  else if e = 'r' then '\r'
  else if e = 't' then '\t'
  else '\\'

/-- The characters between the quotes of a string literal, with the string the parser
stores for them: any character but the quote and the backslash stands for itself, a
backslash with a character other than `u` for `escape_value`, and `\u` with four
hexadecimal digits for these six characters. -/
inductive CharsText : List Char → List Char → Prop
  | nil : CharsText [] []
  | char (c : Char) (body val : List Char) :
      c ≠ '"' → c ≠ '\\' → CharsText body val → CharsText (c :: body) (c :: val)
  | escape (e : Char) (body val : List Char) :
      e ≠ 'u' → CharsText body val → CharsText ('\\' :: e :: body) (escape_value e :: val)
  | unicode (h1 h2 h3 h4 : Char) (body val : List Char) :
      ishex h1 = true → ishex h2 = true → ishex h3 = true → ishex h4 = true →
      CharsText body val →
      CharsText ('\\' :: 'u' :: h1 :: h2 :: h3 :: h4 :: body)
        ('\\' :: 'u' :: h1 :: h2 :: h3 :: h4 :: val)

/-- The value `parse_number` assigns for the mantissa `val`, the digits `exp_str` of the
exponent and `exp`, their number: `isDouble` is set when the mantissa has a point. -/
def number_value (val exp_str : List Char) (exp : Int) : Except Fault JSON :=
  (parse_number_value val exp_str (decide ('.' ∈ val)) exp 1).map Prod.fst

/-- The text of a number with what `parse_number` makes of it when a character that
ends a number follows: a mantissa of digits, `-` and `.` that starts with a digit or
`-`; then possibly an exponent, `e` or `E` with digits behind an optional sign.  Of an
exponent the parser skips the first character, and the one behind a `-`. -/
inductive NumberText : List Char → Except Fault JSON → Prop
  | plain (c : Char) (m : List Char) :
      (c = '-' ∨ isdigit c = true) → (∀ x ∈ m, x = '-' ∨ isdigit x = true ∨ x = '.') →
      NumberText (c :: m) (number_value (c :: m) [] 0)
  | exponent (c : Char) (m : List Char) (e s : Char) (ds : List Char) :
      (c = '-' ∨ isdigit c = true) → (∀ x ∈ m, x = '-' ∨ isdigit x = true ∨ x = '.') →
      (e = 'e' ∨ e = 'E') → (s = '+' ∨ isdigit s = true) → (∀ d ∈ ds, isdigit d = true) →
      NumberText (c :: m ++ e :: s :: ds) (do
        let exp ← stoll ds
        number_value (c :: m) ds exp)
  | negative_exponent (c : Char) (m : List Char) (e d : Char) (ds : List Char) :
      (c = '-' ∨ isdigit c = true) → (∀ x ∈ m, x = '-' ∨ isdigit x = true ∨ x = '.') →
      (e = 'e' ∨ e = 'E') → isdigit d = true → (∀ d ∈ ds, isdigit d = true) →
      NumberText (c :: m ++ e :: '-' :: d :: ds) (do
        let exp ← stoll ('-' :: ds)
        number_value (c :: m) ('-' :: ds) exp)

/-- The Array the loop of `parse_array` builds from the results for the elements: each
value is assigned at the next index, and the first exception ends the loop. -/
def array_result : List (Except Fault JSON) → JSON → Nat → Except Fault JSON
  | [], Array, _ => .ok Array
  | r :: rs, Array, index => do
    let value ← r
    let Array ← Array.assign_index index value
    array_result rs Array ((index + 1) % 4294967296)

/-- The Object the loop of `parse_object` builds from the keys and the results for the
values: each value is assigned under `Key.ToString()`. -/
def object_result : List (List Char × Except Fault JSON) → JSON → Except Fault JSON
  | [], Object => .ok Object
  | (key, r) :: rs, Object => do
    let Value ← r
    object_result rs (Object.assign_key (JSON.string key).ToString.1 Value)

/-- The text of the elements of an array up to the closing bracket, with the results for
the elements: white space may stand before and behind each element. -/
inductive ElementsText (P : List Char → Except Fault JSON → Prop) :
    List Char → List (Except Fault JSON) → Prop
  | last (ws0 e ws1 : List Char) (r : Except Fault JSON) :
      (∀ w ∈ ws0, isspace w = true) → P e r → (∀ w ∈ ws1, isspace w = true) →
      ElementsText P (ws0 ++ (e ++ (ws1 ++ [']']))) [r]
  | more (ws0 e ws1 es : List Char) (r : Except Fault JSON) (rs : List (Except Fault JSON)) :
      (∀ w ∈ ws0, isspace w = true) → P e r → (∀ w ∈ ws1, isspace w = true) →
      ElementsText P es rs →
      ElementsText P (ws0 ++ (e ++ (ws1 ++ ',' :: es))) (r :: rs)

/-- The text of the members of an object up to the closing brace, with the keys and the
results for the values: a string literal, a colon and a value, with white space before and
behind each. -/
inductive MembersText (P : List Char → Except Fault JSON → Prop) :
    List Char → List (List Char × Except Fault JSON) → Prop
  | last (ws0 body key ws1 ws2 v ws3 : List Char) (r : Except Fault JSON) :
      (∀ w ∈ ws0, isspace w = true) → CharsText body key → (∀ w ∈ ws1, isspace w = true) →
      (∀ w ∈ ws2, isspace w = true) → P v r → (∀ w ∈ ws3, isspace w = true) →
      MembersText P
        (ws0 ++ ('"' :: (body ++ '"' :: (ws1 ++ ':' :: (ws2 ++ (v ++ (ws3 ++ ['\x7d'])))))))
        [(key, r)]
  | more (ws0 body key ws1 ws2 v ws3 ms : List Char) (r : Except Fault JSON)
      (rs : List (List Char × Except Fault JSON)) :
      (∀ w ∈ ws0, isspace w = true) → CharsText body key → (∀ w ∈ ws1, isspace w = true) →
      (∀ w ∈ ws2, isspace w = true) → P v r → (∀ w ∈ ws3, isspace w = true) →
      MembersText P ms rs →
      MembersText P
        (ws0 ++ ('"' :: (body ++ '"' :: (ws1 ++ ':' :: (ws2 ++ (v ++ (ws3 ++ ',' :: ms)))))))
        ((key, r) :: rs)

/-- The text of one JSON value, with what the parser makes of it (a value, or the
exception a number conversion raises). -/
inductive ValueText : List Char → Except Fault JSON → Prop
  | null : ValueText "null".toList (.ok JSON.null)
  | true : ValueText "true".toList (.ok (JSON.boolean true))
  | false : ValueText "false".toList (.ok (JSON.boolean false))
  | string (body val : List Char) :
      CharsText body val → ValueText ('"' :: (body ++ ['"'])) (.ok (JSON.string val))
  | number (s : List Char) (r : Except Fault JSON) : NumberText s r → ValueText s r
  | empty_array (ws : List Char) :
      (∀ w ∈ ws, isspace w = true) → ValueText ('[' :: (ws ++ [']'])) (.ok (JSON.array []))
  | array (es : List Char) (rs : List (Except Fault JSON)) :
      ElementsText ValueText es rs →
      ValueText ('[' :: es) (array_result rs (JSON.array []) 0)
  | empty_object (ws : List Char) :
      (∀ w ∈ ws, isspace w = true) →
      ValueText ('\x7b' :: (ws ++ ['\x7d'])) (.ok (JSON.object []))
  | object (ms : List Char) (rs : List (List Char × Except Fault JSON)) :
      MembersText ValueText ms rs →
      ValueText ('\x7b' :: ms) (object_result rs (JSON.object []))

/-- Whether a text starts as a number does: with a digit or `-`. -/
def number_text : List Char → Bool
  | c :: _ => isdigit c || c = '-'
  | [] => false

/-- What it is for `parse_next` with the fuel `fuel` to read the text `s` as `r`: from
every offset where `s` stands, whatever follows it (behind a number, a character that
ends a number), the result is `r`, with the offset behind `s`. -/
def ReadsText (fuel : Nat) (s : List Char) (r : Except Fault JSON) : Prop :=
  ∀ (str : List Char) (offset : Nat) (rest : List Char), str.drop offset = s ++ rest →
    (number_text s = true → ∃ c t, rest = c :: t ∧ not_terminator c = false) →
    parse_next fuel str offset = r.map (fun v => (v, offset + s.length))

/-! ## Reading the text -/

/-- A text whose suffix at `n` starts with `c` has `c` at index `n`. -/
theorem charAt_of_drop {str : List Char} {n : Nat} {c : Char} {t : List Char}
    (h : str.drop n = c :: t) : charAt str n = .ok c := by
  have hlt : n < str.length := by
    by_contra hn
    rw [List.drop_eq_nil_of_le (by omega)] at h
    cases h
  have hc : str[n]? = some c := by
    have := congrArg List.head? h
    simpa [List.head?_drop] using this
  simp [charAt, Nat.le_of_lt hlt, List.getD_eq_getElem?_getD, hc]

/-- The suffix one character further. -/
theorem drop_succ_of_drop {str : List Char} {n : Nat} {c : Char} {t : List Char}
    (h : str.drop n = c :: t) : str.drop (n + 1) = t := by
  have := congrArg List.tail h
  simpa [List.tail_drop] using this

/-! ## Strings: `parse_string` inverts `json_escape` -/

/-- The escaped text is at least as long as the text. -/
theorem length_le_json_escape (s : List Char) : s.length ≤ (json_escape s).length := by
  induction s with
  | nil => simp [json_escape]
  | cons c s ih =>
    simp only [json_escape, List.length_append, List.length_cons]
    split_ifs <;> simp <;> omega

/-- The escaped text is the text itself exactly when no character needs an escape. -/
theorem json_escape_eq_self_iff (s : List Char) :
    json_escape s = s ↔ ∀ c ∈ s, escaped c = false := by
  induction s with
  | nil => simp [json_escape]
  | cons c s ih =>
    have hlen := length_le_json_escape s
    by_cases hc : escaped c = true
    · have hne : json_escape (c :: s) ≠ c :: s := by
        intro h
        have hl := congrArg List.length h
        simp only [json_escape, List.length_append, List.length_cons] at hl
        simp only [escaped, Bool.or_eq_true, decide_eq_true_eq] at hc
        split_ifs at hl <;> simp at hl <;> first | omega | simp_all
      simp [hne, hc]
    · simp only [Bool.not_eq_true] at hc
      have hc' := hc
      simp only [escaped, Bool.or_eq_false_iff, decide_eq_false_iff_not] at hc'
      obtain ⟨⟨⟨⟨⟨⟨h1, h2⟩, h3⟩, h4⟩, h5⟩, h6⟩, h7⟩ := hc'
      simp [json_escape, h1, h2, h3, h4, h5, h6, h7, ih, hc]

/-! ## Numbers -/

/-- The mantissa loop of `parse_number` on a run of `-` and digits ended by `c`. -/
theorem parse_number_mantissa_run (mant : List Char) :
    ∀ (fuel : Nat) (str : List Char) (offset : Nat) (val : List Char) (isDouble : Bool)
      (c : Char) (rest : List Char),
      str.drop offset = mant ++ c :: rest →
      (∀ x ∈ mant, x = '-' ∨ isdigit x = true) →
      c ≠ '-' → isdigit c = false → c ≠ '.' → mant.length < fuel →
      parse_number_mantissa fuel str offset val isDouble
        = .ok (c, offset + mant.length + 1, val ++ mant, isDouble) := by
  induction mant with
  | nil =>
    intro fuel str offset val isDouble c rest hd _ h1 h2 h3 hf
    obtain ⟨f, rfl⟩ : ∃ f, fuel = f + 1 := ⟨fuel - 1, by simp at hf; omega⟩
    simp only [List.nil_append] at hd
    rw [parse_number_mantissa]
    simp [charAt_of_drop hd, bind, Except.bind, pure, Except.pure, h1, h2, h3]
  | cons x mant ih =>
    intro fuel str offset val isDouble c rest hd hm h1 h2 h3 hf
    obtain ⟨f, rfl⟩ : ∃ f, fuel = f + 1 := ⟨fuel - 1, by simp at hf; omega⟩
    have hf2 : mant.length < f := by simp at hf; omega
    have hd0 : str.drop offset = x :: (mant ++ c :: rest) := by simpa using hd
    have hd1 := drop_succ_of_drop hd0
    have hx : (x = '-' || isdigit x) = true := by
      rcases hm x (by simp) with h | h <;> simp [h]
    rw [parse_number_mantissa]
    simp only [charAt_of_drop hd0, bind, Except.bind, hx, if_true]
    rw [ih f str (offset + 1) _ isDouble c rest hd1 (fun y hy => hm y (by simp [hy])) h1 h2 h3 hf2]
    simp
    omega

/-- A text `std::stoll` converts is not empty. -/
theorem stoll_ne_nil {s : List Char} {x : Int} (h : stoll s = .ok x) : s ≠ [] := by
  rintro rfl
  cases h

/-- The character of a digit is a digit, of that value, and no sign, space or quote. -/
theorem digitChar_spec (d : Nat) (h : d < 10) :
    isdigit (digitChar d) = true ∧ digitVal (digitChar d) = d ∧ isspace (digitChar d) = false
      ∧ digitChar d ≠ '-' ∧ digitChar d ≠ '+' ∧ digitChar d ≠ '"' := by
  interval_cases d <;> decide

/-- A digit is none of the other characters the parser looks for. -/
theorem isdigit_facts {c : Char} (h : isdigit c = true) :
    isspace c = false ∧ c ≠ '-' ∧ c ≠ '+' ∧ c ≠ '.' ∧ c ≠ '"' ∧ c ≠ ',' ∧ c ≠ ']'
      ∧ c ≠ '\x7d' ∧ c ≠ ' ' := by
  have hn : 48 ≤ c.toNat ∧ c.toNat ≤ 57 := by simpa [isdigit] using h
  have hne : ∀ d : Char, (d.toNat < 48 ∨ 57 < d.toNat) → c ≠ d := by
    rintro d hd rfl
    omega
  have hsp : c ≠ ' ' := hne _ (by decide)
  refine ⟨?_, hne _ (by decide), hne _ (by decide), hne _ (by decide), hne _ (by decide),
    hne _ (by decide), hne _ (by decide), hne _ (by decide), hsp⟩
  simp only [isspace, hsp, decide_False, Bool.false_or, Bool.and_eq_false_iff,
    decide_eq_false_iff_not]
  omega

/-- The range test of `std::stold` passes the decimal 1.5 and reports `2^16384`, which is
beyond the largest `long double`. -/
theorem ldbl_erange_cases : ldbl_erange 15 1 = false ∧ ldbl_erange (1 <<< 16384) 0 = true :=
  ⟨rfl, rfl⟩

/-- `std::stold` raises `std::out_of_range` on a text of digits whose number the range
test reports. -/
theorem stold_out_of_range (ds : List Char) (h1 : ds ≠ []) (h2 : ∀ d ∈ ds, isdigit d = true)
    (h3 : ldbl_erange (digitsVal ds) 0 = true) : stold ds = .error Fault.out_of_range := by
  obtain ⟨d, t, rfl⟩ := List.exists_cons_of_ne_nil h1
  have hd := h2 d (by simp)
  have hsp : isspace d = false := (isdigit_facts hd).1
  have hne : d ≠ '-' ∧ d ≠ '+' := by
    constructor <;> (rintro rfl; revert hd; decide)
  have htake : (d :: t).takeWhile isdigit = d :: t :=
    List.takeWhile_eq_self_iff.2 h2
  have hdrop : (d :: t).dropWhile isdigit = [] :=
    List.dropWhile_eq_nil_iff.2 h2
  unfold stold
  simp only [List.dropWhile_cons, hsp, Bool.false_eq_true, if_false, takeSign, if_neg hne.1,
    if_neg hne.2, htake, hdrop, List.append_nil, List.length_nil, h3, if_true]
  simp

/-- The value of digits followed by one more digit. -/
theorem digitsVal_append (a : List Char) (c : Char) :
    digitsVal (a ++ [c]) = 10 * digitsVal a + digitVal c := by
  simp [digitsVal, List.foldl_append]

/-- The decimal digits of `n` are digits, of value `n`, and end in a digit. -/
theorem natDigits_spec : ∀ (fuel n : Nat), n < fuel →
    (∀ c ∈ natDigits fuel n, isdigit c = true) ∧ digitsVal (natDigits fuel n) = n
      ∧ ∃ d, d < 10 ∧ (natDigits fuel n).getLast? = some (digitChar d)
  | 0, _, h => by omega
  | fuel + 1, n, h => by
    rw [natDigits]
    split_ifs with h10
    · refine ⟨?_, ?_, n, h10, rfl⟩
      · intro c hc
        rw [List.mem_singleton] at hc
        rw [hc]; exact (digitChar_spec n h10).1
      · simp [digitsVal, (digitChar_spec n h10).2.1]
    · have hlt : n / 10 < fuel := by omega
      obtain ⟨h1, h2, -⟩ := natDigits_spec fuel (n / 10) hlt
      have hm : n % 10 < 10 := Nat.mod_lt _ (by omega)
      refine ⟨?_, ?_, n % 10, hm, by simp⟩
      · intro c hc
        rcases List.mem_append.1 hc with hc | hc
        · exact h1 c hc
        · rw [List.mem_singleton] at hc
          rw [hc]; exact (digitChar_spec _ hm).1
      · rw [digitsVal_append, h2, (digitChar_spec _ hm).2.1]
        omega

/-- A number has at least one decimal digit. -/
theorem natDigits_ne_nil (fuel n : Nat) (h : n < fuel) : natDigits fuel n ≠ [] := by
  obtain ⟨-, -, d, -, hd⟩ := natDigits_spec fuel n h
  intro h0
  rw [h0] at hd
  cases hd

/-- A character is determined by its code. -/
theorem char_eq_of_toNat {a b : Char} (h : a.toNat = b.toNat) : a = b := by
  rw [← Char.ofNat_toNat a, ← Char.ofNat_toNat b, h]

/-- No key is below itself. -/
theorem str_lt_irrefl (a : List Char) : str_lt a a = false := by
  induction a with
  | nil => rfl
  | cons c a ih => simp [str_lt, ih]

/-- The order of keys is asymmetric. -/
theorem str_lt_asymm : ∀ (a b : List Char), str_lt a b = true → str_lt b a = false
  | [], [], h => by simp [str_lt] at h
  | [], _ :: _, _ => by simp [str_lt]
  | _ :: _, [], h => by simp [str_lt] at h
  | x :: a, y :: b, h => by
    simp only [str_lt] at h ⊢
    split_ifs at h with h1 h2
    · rw [if_neg (by omega), if_pos h1]
    · rw [if_neg h1, if_neg h2]
      exact str_lt_asymm a b h

/-- The order of keys is transitive. -/
theorem str_lt_trans : ∀ (a b c : List Char), str_lt a b = true → str_lt b c = true →
    str_lt a c = true
  | [], [], _, h, _ => by simp [str_lt] at h
  | [], _ :: _, [], _, h => by simp [str_lt] at h
  | [], _ :: _, _ :: _, _, _ => by simp [str_lt]
  | _ :: _, [], _, h, _ => by simp [str_lt] at h
  | _ :: _, _ :: _, [], _, h => by simp [str_lt] at h
  | x :: a, y :: b, z :: c, h1, h2 => by
    simp only [str_lt] at h1 h2 ⊢
    split_ifs at h1 with hxy hyx
    · split_ifs at h2 with hyz hzy
      · rw [if_pos (by omega)]
      · rw [if_pos (by omega)]
    · split_ifs at h2 with hyz hzy
      · rw [if_pos (by omega)]
      · rw [if_neg (by omega), if_neg (by omega)]
        exact str_lt_trans a b c h1 h2

/-- Two keys neither of which is below the other are equal. -/
theorem str_lt_total : ∀ (a b : List Char), str_lt a b = false → str_lt b a = false → a = b
  | [], [], _, _ => rfl
  | [], _ :: _, h, _ => by simp [str_lt] at h
  | _ :: _, [], _, h => by simp [str_lt] at h
  | x :: a, y :: b, h1, h2 => by
    simp only [str_lt] at h1 h2
    by_cases hxy : x.toNat < y.toNat
    · rw [if_pos hxy] at h1; cases h1
    · by_cases hyx : y.toNat < x.toNat
      · rw [if_pos hyx] at h2; cases h2
      · rw [if_neg hxy, if_neg hyx] at h1
        rw [if_neg hyx, if_neg hxy] at h2
        have hxy' : x = y := char_eq_of_toNat (by omega)
        rw [hxy', str_lt_total a b h1 h2]

/-- A pair of the map after an assignment is the assigned pair or an old one. -/
theorem map_assign_mem {m : List (List Char × JSON)} {key : List Char} {value : JSON}
    {p : List Char × JSON} (h : p ∈ map_assign m key value) : p = (key, value) ∨ p ∈ m := by
  induction m with
  | nil => simp [map_assign] at h; exact Or.inl h
  | cons q m ih =>
    obtain ⟨k, v⟩ := q
    simp only [map_assign] at h
    split_ifs at h with h1 h2
    · simp only [List.mem_cons] at h ⊢; tauto
    · simp only [List.mem_cons] at h ⊢
      rcases h with h | h
      · tauto
      · rcases ih h with h | h <;> tauto
    · simp only [List.mem_cons] at h ⊢; tauto

/-- The keys after an assignment: the assigned key and the old ones. -/
theorem map_assign_keys (m : List (List Char × JSON)) (key : List Char) (value : JSON)
    (x : List Char) :
    x ∈ (map_assign m key value).map Prod.fst ↔ x = key ∨ x ∈ m.map Prod.fst := by
  induction m with
  | nil => simp [map_assign]
  | cons q m ih =>
    obtain ⟨k, v⟩ := q
    simp only [map_assign]
    split_ifs with h1 h2
    · simp
    · simp only [List.map_cons, List.mem_cons, ih]; tauto
    · have hk : key = k := str_lt_total key k (by simpa using h1) (by simpa using h2)
      subst hk
      simp

/-- An assignment keeps the keys strictly ascending. -/
theorem map_assign_sorted (m : List (List Char × JSON)) (key : List Char) (value : JSON)
    (h : m.Pairwise key_lt) : (map_assign m key value).Pairwise key_lt := by
  induction m with
  | nil => simp [map_assign]
  | cons q m ih =>
    obtain ⟨k, v⟩ := q
    rw [List.pairwise_cons] at h
    simp only [map_assign]
    split_ifs with h1 h2
    · refine List.pairwise_cons.2 ⟨?_, List.pairwise_cons.2 h⟩
      intro p hp
      rcases List.mem_cons.1 hp with rfl | hp
      · exact h1
      · exact str_lt_trans _ _ _ h1 (h.1 p hp)
    · refine List.pairwise_cons.2 ⟨?_, ih h.2⟩
      intro p hp
      rcases map_assign_mem hp with rfl | hp
      · exact h2
      · exact h.1 p hp
    · have hk : key = k := str_lt_total key k (by simpa using h1) (by simpa using h2)
      subst hk
      exact List.pairwise_cons.2 ⟨fun p hp => h.1 p hp, h.2⟩

/-- Assigning a new key adds one pair. -/
theorem map_assign_perm (m : List (List Char × JSON)) (key : List Char) (value : JSON)
    (h : key ∉ m.map Prod.fst) : (map_assign m key value).Perm ((key, value) :: m) := by
  induction m with
  | nil => simp [map_assign]
  | cons q m ih =>
    obtain ⟨k, v⟩ := q
    simp only [List.map_cons, List.mem_cons, not_or] at h
    simp only [map_assign]
    split_ifs with h1 h2
    · exact List.Perm.refl _
    · exact ((ih h.2).cons (k, v)).trans (List.Perm.swap _ _ _)
    · exact absurd (str_lt_total key k (by simpa using h1) (by simpa using h2)) h.1

/-- The Object loop of `stringify` after the first emitted pair, when no value is
suppressed. -/
theorem stringify_map_each (to_str_f : LongDouble → List Char)
    (m : List (List Char × JSON)) :
    ∀ (s : List Char), (∀ p ∈ m, JSON.stringify to_str_f p.2 ≠ undefined_text) →
      stringify_map to_str_f m s false = s ++ comma_each (m.map (pair_text to_str_f)) := by
  induction m with
  | nil => intro s _; simp [stringify_map, comma_each]
  | cons p m ih =>
    intro s h
    have hp := h p (by simp)
    rw [stringify_map]
    simp only [hp, if_false, Bool.not_false, if_true]
    rw [ih _ (fun q hq => h q (by simp [hq]))]
    simp [comma_each, pair_text]

/-- The Object loop of `stringify` from its start, when no value is suppressed. -/
theorem stringify_map_join (to_str_f : LongDouble → List Char)
    (m : List (List Char × JSON)) (s : List Char)
    (h : ∀ p ∈ m, JSON.stringify to_str_f p.2 ≠ undefined_text) :
    stringify_map to_str_f m s true = s ++ comma_join (m.map (pair_text to_str_f)) := by
  cases m with
  | nil => simp [stringify_map, comma_join]
  | cons p m =>
    have hp := h p (by simp)
    rw [stringify_map]
    simp only [hp, if_false, Bool.not_true]
    rw [stringify_map_each to_str_f m _ (fun q hq => h q (by simp [hq]))]
    simp [comma_join, pair_text]

/-- The Object loop of `stringify` writes the pairs in their order, each behind an empty
separator or a comma, a suppressed pair as nothing. -/
theorem stringify_map_pieces (to_str_f : LongDouble → List Char)
    (m : List (List Char × JSON)) :
    ∀ (s : List Char) (skip : Bool), ∃ seps : List (List Char),
      seps.length = m.length ∧ (∀ x ∈ seps, x = [] ∨ x = [','])
        ∧ stringify_map to_str_f m s skip = s ++ pieces_text to_str_f seps m := by
  induction m with
  | nil => intro s skip; exact ⟨[], rfl, by simp, by simp [stringify_map, pieces_text]⟩
  | cons p m ih =>
    intro s skip
    rw [stringify_map]
    by_cases hu : JSON.stringify to_str_f p.2 = undefined_text
    · obtain ⟨seps, h1, h2, h3⟩ := ih (if !skip then s ++ [','] else s) skip
      refine ⟨(if !skip then [','] else []) :: seps, by simp [h1], ?_, ?_⟩
      · intro x hx
        rcases List.mem_cons.1 hx with rfl | hx
        · cases skip <;> simp
        · exact h2 x hx
      · simp only [hu, if_true, h3, pieces_text, pair_body]
        cases skip <;> simp
    · obtain ⟨seps, h1, h2, h3⟩ := ih
        ((if !skip then s ++ [','] else s) ++ ('"' :: p.1 ++ '"' :: ':' ::
          JSON.stringify to_str_f p.2)) false
      refine ⟨(if !skip then [','] else []) :: seps, by simp [h1], ?_, ?_⟩
      · intro x hx
        rcases List.mem_cons.1 hx with rfl | hx
        · cases skip <;> simp
        · exact h2 x hx
      · simp only [hu, if_false, h3, pieces_text, pair_body, pair_text]
        cases skip <;> simp

/-- Assignment of a key on an Object is the assignment on its map. -/
theorem assign_key_object (m : List (List Char × JSON)) (key : List Char) (value : JSON) :
    (JSON.object m).assign_key key value = JSON.object (map_assign m key value) := by
  simp [JSON.assign_key, JSON.SetType, JSON.JSONType]

/-- Two pairs cannot each be below the other. -/
theorem key_lt_antisymm : IsAntisymm (List Char × JSON) key_lt :=
  ⟨fun a b h1 h2 => by
    have := str_lt_asymm _ _ h1
    rw [key_lt] at h2
    rw [h2] at this
    cases this⟩

/-- A sequence of assignments on an Object with ascending keys. -/
theorem assign_all_object (kvs : List (List Char × JSON)) :
    ∀ (m0 : List (List Char × JSON)), m0.Pairwise key_lt →
      ∃ m, (JSON.object m0).assign_all kvs = JSON.object m
        ∧ m.Pairwise key_lt
        ∧ (∀ k, k ∈ m.map Prod.fst ↔ k ∈ m0.map Prod.fst ∨ k ∈ kvs.map Prod.fst)
        ∧ (∀ p ∈ m, p ∈ m0 ∨ p ∈ kvs)
        ∧ (((m0 ++ kvs).map Prod.fst).Nodup → m.Perm (m0 ++ kvs)) := by
  induction kvs with
  | nil =>
    intro m0 h0
    exact ⟨m0, rfl, h0, by simp, by simp, by simp⟩
  | cons kv kvs ih =>
    intro m0 h0
    obtain ⟨m, h1, h2, h3, h4, h5⟩ := ih (map_assign m0 kv.1 kv.2) (map_assign_sorted m0 _ _ h0)
    refine ⟨m, ?_, h2, ?_, ?_, ?_⟩
    · simp only [JSON.assign_all, List.foldl_cons, assign_key_object]
      exact h1
    · intro k
      rw [h3 k, map_assign_keys]
      simp only [List.map_cons, List.mem_cons]
      tauto
    · intro p hp
      rcases h4 p hp with h | h
      · rcases map_assign_mem h with rfl | h
        · exact Or.inr (by simp)
        · exact Or.inl h
      · exact Or.inr (by simp [h])
    · intro hnd
      have hk : kv.1 ∉ m0.map Prod.fst := by
        simp only [List.map_append, List.map_cons] at hnd
        have := (List.nodup_append.1 hnd).2.2
        intro hmem
        exact this hmem (by simp)
      have hperm := map_assign_perm m0 kv.1 kv.2 hk
      have hperm2 : (map_assign m0 kv.1 kv.2 ++ kvs).Perm (m0 ++ kv :: kvs) :=
        (hperm.append_right kvs).trans (by simpa using (@List.perm_middle _ kv m0 kvs).symm)
      refine (h5 ?_).trans hperm2
      exact (hperm2.map Prod.fst).nodup_iff.2 hnd

/-! ## The parser reads the compact form back -/

/-- An offset with a character behind it is inside the text. -/
theorem le_length_of_drop {str : List Char} {n : Nat} {c : Char} {t : List Char}
    (h : str.drop n = c :: t) : n < str.length := by
  by_contra hn
  rw [List.drop_eq_nil_of_le (by omega)] at h
  cases h

/-- `consume_ws` stays on a character that is not white space. -/
theorem consume_ws_of_drop {str : List Char} {offset : Nat} {c : Char} {t : List Char}
    (h : str.drop offset = c :: t) (hc : isspace c = false) :
    consume_ws str offset = .ok offset := by
  unfold consume_ws
  rw [consume_ws_loop]
  simp [charAt_of_drop h, hc, bind, Except.bind, pure, Except.pure]

/-- `substr` inside the text. -/
theorem substr_of_drop {str : List Char} {offset : Nat} {c : Char} {t : List Char}
    (h : str.drop offset = c :: t) (n : Nat) :
    substr str offset n = .ok ((c :: t).take n) := by
  unfold substr
  rw [if_pos (Nat.le_of_lt (le_length_of_drop h)), h]

/-- `parse_null` on the literal `null`. -/
theorem parse_null_of_drop {str : List Char} {offset : Nat} {rest : List Char}
    (h : str.drop offset = "null".toList ++ rest) :
    parse_null str offset = .ok (JSON.null, offset + 4) := by
  have h' : str.drop offset = 'n' :: ('u' :: 'l' :: 'l' :: rest) := h
  unfold parse_null
  rw [substr_of_drop h']
  rfl

/-- `parse_bool` on the literal `true`. -/
theorem parse_bool_of_drop_true {str : List Char} {offset : Nat} {rest : List Char}
    (h : str.drop offset = "true".toList ++ rest) :
    parse_bool str offset = .ok (JSON.boolean true, offset + 4) := by
  have h' : str.drop offset = 't' :: ('r' :: 'u' :: 'e' :: rest) := h
  unfold parse_bool
  rw [substr_of_drop h']
  rfl

/-- `parse_bool` on the literal `false`. -/
theorem parse_bool_of_drop_false {str : List Char} {offset : Nat} {rest : List Char}
    (h : str.drop offset = "false".toList ++ rest) :
    parse_bool str offset = .ok (JSON.boolean false, offset + 5) := by
  have h' : str.drop offset = 'f' :: ('a' :: 'l' :: 's' :: 'e' :: rest) := h
  unfold parse_bool
  rw [substr_of_drop h', substr_of_drop h']
  rfl

/-- Induction on a value, the hypothesis holding for every child of a container. -/
theorem JSON.induct {P : JSON → Prop} (hnull : P JSON.null)
    (hobj : ∀ m : List (List Char × JSON), (∀ p ∈ m, P p.2) → P (JSON.object m))
    (harr : ∀ l : List JSON, (∀ x ∈ l, P x) → P (JSON.array l))
    (hstr : ∀ s, P (JSON.string s)) (hflt : ∀ f, P (JSON.floating f))
    (hint : ∀ i, P (JSON.integral i)) (hbool : ∀ b, P (JSON.boolean b)) : ∀ v, P v :=
  fun v => @JSON.rec P (fun m => ∀ p ∈ m, P p.2) (fun l => ∀ x ∈ l, P x) (fun p => P p.2)
    hnull hobj harr hstr hflt hint hbool
    (fun p hp => by cases hp)
    (fun head tail h1 h2 p hp => by
      rcases List.mem_cons.1 hp with rfl | hp
      · exact h1
      · exact h2 p hp)
    (fun x hx => by cases hx)
    (fun head tail h1 h2 x hx => by
      rcases List.mem_cons.1 hx with rfl | hx
      · exact h1
      · exact h2 x hx)
    (fun _ _ h => h) v

/-- An element is at most as deep as the deepest one. -/
theorem depth_list_mem {l : List JSON} {x : JSON} (hx : x ∈ l) : x.depth ≤ depth_list l := by
  induction l with
  | nil => cases hx
  | cons y l ih =>
    rw [depth_list]
    rcases List.mem_cons.1 hx with rfl | hx
    · exact le_max_left _ _
    · exact le_trans (ih hx) (le_max_right _ _)

/-- A value of a pair is at most as deep as the deepest one. -/
theorem depth_map_mem {m : List (List Char × JSON)} {p : List Char × JSON} (hp : p ∈ m) :
    p.2.depth ≤ depth_map m := by
  induction m with
  | nil => cases hp
  | cons q m ih =>
    rw [depth_map]
    rcases List.mem_cons.1 hp with rfl | hp
    · exact le_max_left _ _
    · exact le_trans (ih hp) (le_max_right _ _)

/-- The suffix behind a known prefix. -/
theorem drop_add_of_drop {str : List Char} {offset : Nat} {a b : List Char}
    (h : str.drop offset = a ++ b) : str.drop (offset + a.length) = b := by
  rw [← List.drop_drop, h, List.drop_left]

/-- Assigning at the index one past the end appends. -/
theorem assign_index_append (acc : List JSON) (x : JSON)
    (h : acc.length + 1 < 4294967296) :
    (JSON.array acc).assign_index acc.length x = .ok (JSON.array (acc ++ [x])) := by
  simp [JSON.assign_index, JSON.subscript_index, JSON.SetType, JSON.JSONType, resize,
    Nat.mod_eq_of_lt h, List.replicate, bind, Except.bind, pure, Except.pure]

/-- The first character of a number selects `parse_number` in `parse_next`. -/
theorem number_start_facts {c : Char} (h : c = '-' ∨ isdigit c = true) :
    c ≠ '[' ∧ c ≠ '\x7b' ∧ c ≠ '"' ∧ c ≠ 't' ∧ c ≠ 'f' ∧ c ≠ 'n' ∧ isspace c = false
      ∧ (isdigit c || decide (c = '-')) = true := by
  rcases h with rfl | h
  · decide
  · have hn : 48 ≤ c.toNat ∧ c.toNat ≤ 57 := by simpa [isdigit] using h
    have hne : ∀ d : Char, (d.toNat < 48 ∨ 57 < d.toNat) → c ≠ d := by
      rintro d hd rfl
      omega
    exact ⟨hne _ (by decide), hne _ (by decide), hne _ (by decide), hne _ (by decide),
      hne _ (by decide), hne _ (by decide), (isdigit_facts h).1, by simp [h]⟩

/-- Every value has depth at least 1. -/
theorem one_le_depth (v : JSON) : 1 ≤ v.depth := by
  cases v <;> simp [JSON.depth]

/-- A returned value with an offset at or behind the start. -/
theorem advances_ok {offset o : Nat} (v : JSON) (h : offset ≤ o) :
    Advances offset (.ok (v, o)) :=
  ⟨by simp, fun _ _ h' => by cases h'; exact h⟩

/-- A fault other than the exhaustion of the fuel. -/
theorem advances_error {offset : Nat} {e : Fault} (h : e ≠ Fault.fuel) :
    Advances offset (.error e) :=
  ⟨by simpa using h, fun _ _ h' => by cases h'⟩

/-- An earlier start. -/
theorem advances_mono {a b : Nat} {r : Except Fault (JSON × Nat)} (h : Advances b r)
    (hab : a ≤ b) : Advances a r :=
  ⟨h.1, fun v o hr => le_trans hab (h.2 v o hr)⟩

/-- Reading `str[i]`: beyond the terminator, the terminator, or a character of the text. -/
theorem charAt_cases (str : List Char) (i : Nat) :
    (str.length < i ∧ charAt str i = .error Fault.out_of_bounds)
    ∨ (i = str.length ∧ charAt str i = .ok '\x00')
    ∨ (i < str.length ∧ ∃ c, charAt str i = .ok c) := by
  unfold charAt
  rcases Nat.lt_trichotomy i str.length with h | h | h
  · exact Or.inr (Or.inr ⟨h, _, by rw [if_pos (Nat.le_of_lt h)]⟩)
  · refine Or.inr (Or.inl ⟨h, ?_⟩)
    rw [if_pos (Nat.le_of_eq h), h, List.getD_eq_getElem?_getD, List.getElem?_eq_none (le_refl _)]
    rfl
  · exact Or.inl ⟨h, by rw [if_neg (by omega)]⟩

/-- The loop of `consume_ws` stops within its fuel, inside the text. -/
theorem consume_ws_loop_spec : ∀ (fuel : Nat) (str : List Char) (offset : Nat),
    1 ≤ fuel → str.length + 1 ≤ fuel + offset →
    consume_ws_loop fuel str offset ≠ .error Fault.fuel
      ∧ ∀ o, consume_ws_loop fuel str offset = .ok o → offset ≤ o ∧ o ≤ str.length
  | 0, _, _, h0, _ => by omega
  | fuel + 1, str, offset, _, h => by
    rw [consume_ws_loop]
    rcases charAt_cases str offset with ⟨_, hc⟩ | ⟨hl, hc⟩ | ⟨hl, c, hc⟩
    · simp [hc, bind, Except.bind]
    · subst hl
      simp [hc, bind, Except.bind, isspace, pure, Except.pure]
    · simp only [hc, bind, Except.bind]
      split_ifs
      · obtain ⟨h1, h2⟩ := consume_ws_loop_spec fuel str (offset + 1) (by omega) (by omega)
        exact ⟨h1, fun o ho => ⟨by have := (h2 o ho).1; omega, (h2 o ho).2⟩⟩
      · simp [pure, Except.pure]; omega

/-- `consume_ws` stops within its fuel, at an offset inside the text. -/
theorem consume_ws_spec (str : List Char) (offset : Nat) :
    consume_ws str offset ≠ .error Fault.fuel
      ∧ ∀ o, consume_ws str offset = .ok o → offset ≤ o ∧ o ≤ str.length :=
  consume_ws_loop_spec _ str offset (by omega) (by omega)

/-- Reading a character uses no fuel. -/
theorem charAt_ne_fuel (str : List Char) (i : Nat) : charAt str i ≠ .error Fault.fuel := by
  unfold charAt
  split_ifs <;> simp

/-- A character other than the terminator is read inside the text. -/
theorem charAt_lt {str : List Char} {i : Nat} {c : Char} (h : charAt str i = .ok c)
    (hc : c ≠ '\x00') : i < str.length := by
  rcases charAt_cases str i with ⟨_, h'⟩ | ⟨_, h'⟩ | ⟨hl, _⟩
  · rw [h'] at h; cases h
  · rw [h'] at h; cases h; exact absurd rfl hc
  · exact hl

/-- Sequencing a step that uses no fuel with one that advances. -/
theorem advances_bind {α : Type} {x : Except Fault α} {f : α → Except Fault (JSON × Nat)}
    {offset : Nat} (hx : x ≠ .error Fault.fuel)
    (hf : ∀ a, x = .ok a → Advances offset (f a)) : Advances offset (x >>= f) := by
  cases x with
  | error e => exact advances_error (by simpa using hx)
  | ok a => exact hf a rfl

/-- A character is read at most at the terminator. -/
theorem charAt_le {str : List Char} {i : Nat} {c : Char} (h : charAt str i = .ok c) :
    i ≤ str.length := by
  rcases charAt_cases str i with ⟨_, h'⟩ | ⟨h', _⟩ | ⟨h', _⟩
  · rw [h'] at h; cases h
  · omega
  · omega

/-- The terminator is no hexadecimal digit. -/
theorem ishex_ne_zero {c : Char} (h : ishex c = true) : c ≠ '\x00' := by
  rintro rfl
  revert h
  decide

/-- The hexadecimal digits of a `\u` escape lie inside the text. -/
theorem parse_string_hex_spec (str : List Char) (offset : Nat) :
    ∀ (n i : Nat) (val : List Char),
      parse_string_hex str offset n i val ≠ .error Fault.fuel
        ∧ ∀ val', parse_string_hex str offset n i val = .ok (some val') →
            n = 0 ∨ offset + i + n ≤ str.length := by
  intro n
  induction n with
  | zero => intro i val; simp [parse_string_hex, pure, Except.pure]
  | succ n ih =>
    intro i val
    rw [parse_string_hex]
    rcases h : charAt str (offset + i) with e | c
    · have := charAt_ne_fuel str (offset + i)
      rw [h] at this
      simpa [bind, Except.bind] using this
    · simp only [bind, Except.bind]
      by_cases hh : ishex c = true
      · rw [if_pos hh]
        have hlt := charAt_lt h (ishex_ne_zero hh)
        refine ⟨(ih (i + 1) _).1, fun val' hv => Or.inr ?_⟩
        rcases (ih (i + 1) _).2 val' hv with h0 | h0
        · omega
        · omega
      · rw [if_neg hh]
        simp [pure, Except.pure]

/-- The loop of `parse_string` stops within its fuel. -/
theorem parse_string_loop_advances (str : List Char) : ∀ (fuel : Nat) (offset : Nat)
    (val : List Char), 1 ≤ fuel → str.length + 1 ≤ fuel + offset →
    Advances offset (parse_string_loop fuel str offset val) := by
  intro fuel
  induction fuel with
  | zero => intro _ _ h0; omega
  | succ fuel ih =>
    intro offset val _ h
    have rec_call : ∀ (o : Nat) (val' : List Char), offset + 1 ≤ o → o ≤ str.length →
        Advances offset (parse_string_loop fuel str o val') := fun o val' h1 h2 =>
      advances_mono (ih o val' (by omega) (by omega)) (by omega)
    rw [parse_string_loop]
    refine advances_bind (charAt_ne_fuel _ _) (fun c hc => ?_)
    have hle1 := charAt_le hc
    by_cases hq : c = '"'
    · rw [if_pos hq]; exact advances_ok _ (by omega)
    rw [if_neg hq]
    by_cases hb : c = '\\'
    · rw [if_pos hb]
      refine advances_bind (charAt_ne_fuel _ _) (fun e he => ?_)
      have hle2 := charAt_le he
      have r2 : ∀ val', Advances offset (parse_string_loop fuel str (offset + 1 + 1) val') :=
        fun val' => rec_call _ val' (by omega) hle2
      by_cases h1 : e = '"'
      · rw [if_pos h1]; exact r2 _
      rw [if_neg h1]
      by_cases h2 : e = '\\'
      · rw [if_pos h2]; exact r2 _
      rw [if_neg h2]
      by_cases h3 : e = '/'
      · rw [if_pos h3]; exact r2 _
      rw [if_neg h3]
      by_cases h4 : e = 'b'
      · rw [if_pos h4]; exact r2 _
      rw [if_neg h4]
      by_cases h5 : e = 'f'
      · rw [if_pos h5]; exact r2 _
      rw [if_neg h5]
      by_cases h6 : e = 'n'
      · rw [if_pos h6]; exact r2 _
      rw [if_neg h6]
      by_cases h7 : e = 'r'
      · rw [if_pos h7]; exact r2 _
      rw [if_neg h7]
      by_cases h8 : e = 't'
      · rw [if_pos h8]; exact r2 _
      rw [if_neg h8]
      by_cases h9 : e = 'u'
      · rw [if_pos h9]
        refine advances_bind (parse_string_hex_spec str _ 4 1 _).1 (fun r hr => ?_)
        cases r with
        | none => exact advances_ok _ (by omega)
        | some val' =>
          have := (parse_string_hex_spec str _ 4 1 _).2 val' hr
          exact rec_call _ _ (by omega) (by omega)
      · rw [if_neg h9]; exact r2 _
    · rw [if_neg hb]
      exact rec_call _ _ (by omega) hle1

/-- `parse_string` stops within its fuel. -/
theorem parse_string_advances (str : List Char) (offset : Nat) :
    Advances offset (parse_string str offset) :=
  parse_string_loop_advances str _ offset [] (by omega) (by omega)

/-- The terminator is no digit. -/
theorem isdigit_ne_zero {c : Char} (h : isdigit c = true) : c ≠ '\x00' := by
  rintro rfl
  revert h
  decide

/-- The mantissa loop of `parse_number` stops within its fuel, at least one character on. -/
theorem parse_number_mantissa_spec (str : List Char) : ∀ (fuel : Nat) (offset : Nat)
    (val : List Char) (isDouble : Bool), 1 ≤ fuel → str.length + 1 ≤ fuel + offset →
    parse_number_mantissa fuel str offset val isDouble ≠ .error Fault.fuel
      ∧ ∀ r, parse_number_mantissa fuel str offset val isDouble = .ok r → offset + 1 ≤ r.2.1 := by
  intro fuel
  induction fuel with
  | zero => intro _ _ _ h0; omega
  | succ fuel ih =>
    intro offset val isDouble _ h
    rw [parse_number_mantissa]
    rcases hc : charAt str offset with e | c
    · have := charAt_ne_fuel str offset
      rw [hc] at this
      simpa [bind, Except.bind] using this
    · simp only [bind, Except.bind]
      have rec_call : c ≠ '\x00' → ∀ (val' : List Char) (d : Bool),
          parse_number_mantissa fuel str (offset + 1) val' d ≠ .error Fault.fuel
            ∧ ∀ r, parse_number_mantissa fuel str (offset + 1) val' d = .ok r →
                offset + 1 ≤ r.2.1 := by
        intro hne val' d
        have hlt := charAt_lt hc hne
        obtain ⟨h1, h2⟩ := ih (offset + 1) val' d (by omega) (by omega)
        exact ⟨h1, fun r hr => by have := h2 r hr; omega⟩
      by_cases h1 : (c = '-' || isdigit c) = true
      · rw [if_pos h1]
        refine rec_call ?_ _ _
        rcases Bool.or_eq_true _ _ ▸ h1 with h | h
        · rintro rfl; revert h; decide
        · exact isdigit_ne_zero h
      · rw [if_neg h1]
        by_cases h2 : c = '.'
        · rw [if_pos h2]
          exact rec_call (by rw [h2]; decide) _ _
        · rw [if_neg h2]
          simp [pure, Except.pure]

/-- The exponent loop of `parse_number` stops within its fuel, at least one character on. -/
theorem parse_number_exponent_spec (str : List Char) : ∀ (fuel : Nat) (offset : Nat)
    (exp_str : List Char), 1 ≤ fuel → str.length + 1 ≤ fuel + offset →
    parse_number_exponent fuel str offset exp_str ≠ .error Fault.fuel
      ∧ ∀ r, parse_number_exponent fuel str offset exp_str = .ok r → offset + 1 ≤ r.2 := by
  intro fuel
  induction fuel with
  | zero => intro _ _ h0; omega
  | succ fuel ih =>
    intro offset exp_str _ h
    rw [parse_number_exponent]
    rcases hc : charAt str offset with e | c
    · have := charAt_ne_fuel str offset
      rw [hc] at this
      simpa [bind, Except.bind] using this
    · simp only [bind, Except.bind]
      by_cases h1 : isdigit c = true
      · rw [if_pos h1]
        have hlt := charAt_lt hc (isdigit_ne_zero h1)
        obtain ⟨g1, g2⟩ := ih (offset + 1) (exp_str ++ [c]) (by omega) (by omega)
        exact ⟨g1, fun r hr => by have := g2 r hr; omega⟩
      · rw [if_neg h1]
        split_ifs <;> simp [pure, Except.pure]

/-- `std::stoll` uses no fuel. -/
theorem stoll_ne_fuel (s : List Char) : stoll s ≠ .error Fault.fuel := by
  unfold stoll
  simp only []
  split_ifs <;> simp

/-- `std::stold` uses no fuel. -/
theorem stold_ne_fuel (s : List Char) : stold s ≠ .error Fault.fuel := by
  unfold stold
  simp only []
  split_ifs <;> simp

/-- The end of `parse_number` steps the offset back by one. -/
theorem parse_number_value_advances (val exp_str : List Char) (isDouble : Bool) (exp : Int)
    (offset base : Nat) (h : base + 1 ≤ offset) :
    Advances base (parse_number_value val exp_str isDouble exp offset) := by
  unfold parse_number_value
  simp only []
  split_ifs
  · exact advances_bind (stoll_ne_fuel val) (fun _ _ => advances_ok _ (by omega))
  · exact advances_bind (stoll_ne_fuel val) (fun _ _ => advances_ok _ (by omega))
  · exact advances_bind (stold_ne_fuel val) (fun _ _ => advances_ok _ (by omega))
  · exact advances_bind (stold_ne_fuel val) (fun _ _ => advances_ok _ (by omega))

/-- `parse_number` stops within its fuel. -/
theorem parse_number_advances (str : List Char) (offset : Nat) :
    Advances offset (parse_number str offset) := by
  unfold parse_number
  obtain ⟨m1, m2⟩ := parse_number_mantissa_spec str (str.length - offset + 1) offset [] false
    (by omega) (by omega)
  refine advances_bind m1 (fun r hr => ?_)
  have hr1 := m2 r hr
  obtain ⟨c, o1, val, isDouble⟩ := r
  simp only at hr1 ⊢
  split_ifs
  · refine advances_bind (charAt_ne_fuel _ _) (fun c2 _ => ?_)
    have key : ∀ (o2 : Nat) (es : List Char), o1 + 1 ≤ o2 →
        Advances offset (do
          match ← parse_number_exponent (str.length - o2 + 1) str o2 es with
          | (none, offset) => pure (JSON.Make Class.Null, offset)
          | (some exp_str, offset) => do
            let exp ← stoll exp_str
            parse_number_value val exp_str isDouble exp offset) := by
      intro o2 es ho2
      obtain ⟨e1, e2⟩ := parse_number_exponent_spec str (str.length - o2 + 1) o2 es
        (by omega) (by omega)
      refine advances_bind e1 (fun r2 hr2 => ?_)
      have hr3 := e2 r2 hr2
      obtain ⟨oe, o3⟩ := r2
      simp only at hr3
      cases oe with
      | none => exact advances_ok _ (by omega)
      | some exp_str =>
        exact advances_bind (stoll_ne_fuel _)
          (fun _ _ => parse_number_value_advances _ _ _ _ _ _ (by omega))
    split_ifs
    · exact key _ _ (by omega)
    · exact key _ _ (by omega)
  · exact advances_ok _ (by omega)
  · exact parse_number_value_advances _ _ _ _ _ _ (by omega)

/-- `substr` uses no fuel. -/
theorem substr_ne_fuel (str : List Char) (offset n : Nat) :
    substr str offset n ≠ .error Fault.fuel := by
  unfold substr
  split_ifs <;> simp

/-- `parse_bool` uses no fuel. -/
theorem parse_bool_advances (str : List Char) (offset : Nat) :
    Advances offset (parse_bool str offset) := by
  unfold parse_bool
  refine advances_bind (substr_ne_fuel _ _ _) (fun s4 _ => ?_)
  split_ifs
  · exact advances_ok _ (by omega)
  · refine advances_bind (substr_ne_fuel _ _ _) (fun s5 _ => ?_)
    split_ifs
    · exact advances_ok _ (by omega)
    · exact advances_ok _ (by omega)

/-- `parse_null` uses no fuel. -/
theorem parse_null_advances (str : List Char) (offset : Nat) :
    Advances offset (parse_null str offset) := by
  unfold parse_null
  refine advances_bind (substr_ne_fuel _ _ _) (fun s4 _ => ?_)
  split_ifs
  · exact advances_ok _ (by omega)
  · exact advances_ok _ (by omega)

/-- An assignment to an element never exhausts fuel: it has none. -/
theorem assign_index_ne_fuel (j : JSON) (index : Nat) (value : JSON) :
    j.assign_index index value ≠ .error Fault.fuel := by
  unfold JSON.assign_index
  cases h : j.subscript_index index with
  | error e =>
    simp only [bind, Except.bind]
    intro he
    rw [he] at h
    unfold JSON.subscript_index at h
    split at h
    · simp only [] at h
      split_ifs at h <;> cases h
    · cases h
  | ok v => cases v <;> simp [bind, Except.bind, pure, Except.pure]

/-- The loop of `parse_array` stops within its fuel when `next` does: each round that
continues consumes a comma. -/
theorem parse_array_loop_advances (next : List Char → Nat → Except Fault (JSON × Nat))
    (str : List Char) (base : Nat)
    (hnext : ∀ o, base ≤ o → o ≤ str.length → Advances o (next str o)) :
    ∀ (fuel : Nat) (offset : Nat) (Array : JSON) (index : Nat), base ≤ offset →
      offset ≤ str.length → str.length + 1 ≤ fuel + offset →
      Advances offset (parse_array_loop next fuel str offset Array index) := by
  intro fuel
  induction fuel with
  | zero => intro _ _ _ _ h1 h2; omega
  | succ fuel ih =>
    intro offset Array index hb hle h
    rw [parse_array_loop]
    have hn := hnext offset hb hle
    refine advances_bind hn.1 (fun r hr => ?_)
    obtain ⟨value, o1⟩ := r
    have ho1 := hn.2 value o1 hr
    simp only []
    refine advances_bind (assign_index_ne_fuel _ _ _) (fun Array1 _ => ?_)
    refine advances_bind (consume_ws_spec str o1).1 (fun o2 ho2 => ?_)
    obtain ⟨h21, h22⟩ := (consume_ws_spec str o1).2 o2 ho2
    refine advances_bind (charAt_ne_fuel _ _) (fun c hc => ?_)
    by_cases h1 : c = ','
    · rw [if_pos h1]
      have hlt := charAt_lt hc (by rw [h1]; decide)
      exact advances_mono (ih (o2 + 1) _ _ (by omega) (by omega) (by omega)) (by omega)
    · rw [if_neg h1]
      split_ifs
      · exact advances_ok _ (by omega)
      · exact advances_ok _ (by omega)

/-- `parse_array` stops within its fuel when `next` does. -/
theorem parse_array_advances (next : List Char → Nat → Except Fault (JSON × Nat))
    (str : List Char) (offset : Nat)
    (hnext : ∀ o, offset + 1 ≤ o → o ≤ str.length → Advances o (next str o)) :
    Advances offset (parse_array next str offset) := by
  unfold parse_array
  simp only []
  refine advances_bind (consume_ws_spec str _).1 (fun o1 ho1 => ?_)
  obtain ⟨h11, h12⟩ := (consume_ws_spec str _).2 o1 ho1
  refine advances_bind (charAt_ne_fuel _ _) (fun c hc => ?_)
  split_ifs
  · exact advances_ok _ (by omega)
  · exact advances_mono (parse_array_loop_advances next str (offset + 1) hnext _ o1 _ _
      h11 h12 (by omega)) (by omega)

/-- The loop of `parse_object` stops within its fuel when `next` does: each round that
continues consumes a colon and a comma. -/
theorem parse_object_loop_advances (next : List Char → Nat → Except Fault (JSON × Nat))
    (str : List Char) (base : Nat)
    (hnext : ∀ o, base ≤ o → o ≤ str.length → Advances o (next str o)) :
    ∀ (fuel : Nat) (offset : Nat) (Object : JSON), base ≤ offset →
      offset ≤ str.length → str.length + 1 ≤ fuel + offset →
      Advances offset (parse_object_loop next fuel str offset Object) := by
  intro fuel
  induction fuel with
  | zero => intro _ _ _ h1 h2; omega
  | succ fuel ih =>
    intro offset Object hb hle h
    rw [parse_object_loop]
    have hn := hnext offset hb hle
    refine advances_bind hn.1 (fun r hr => ?_)
    obtain ⟨Key, o1⟩ := r
    have ho1 := hn.2 Key o1 hr
    simp only []
    refine advances_bind (consume_ws_spec str o1).1 (fun o2 ho2 => ?_)
    obtain ⟨h21, h22⟩ := (consume_ws_spec str o1).2 o2 ho2
    refine advances_bind (charAt_ne_fuel _ _) (fun c hc => ?_)
    by_cases h1 : c ≠ ':'
    · rw [if_pos h1]; exact advances_ok _ (by omega)
    rw [if_neg h1]
    refine advances_bind (consume_ws_spec str _).1 (fun o3 ho3 => ?_)
    obtain ⟨h31, h32⟩ := (consume_ws_spec str _).2 o3 ho3
    have hn3 := hnext o3 (by omega) h32
    refine advances_bind hn3.1 (fun r3 hr3 => ?_)
    obtain ⟨Value, o4⟩ := r3
    have ho4 := hn3.2 Value o4 hr3
    simp only []
    refine advances_bind (consume_ws_spec str o4).1 (fun o5 ho5 => ?_)
    obtain ⟨h51, h52⟩ := (consume_ws_spec str o4).2 o5 ho5
    refine advances_bind (charAt_ne_fuel _ _) (fun c5 hc5 => ?_)
    by_cases h5 : c5 = ','
    · rw [if_pos h5]
      exact advances_mono (ih (o5 + 1) _ (by omega) (by
        have := charAt_lt hc5 (by rw [h5]; decide)
        omega) (by omega)) (by omega)
    · rw [if_neg h5]
      split_ifs
      · exact advances_ok _ (by omega)
      · exact advances_ok _ (by omega)

/-- `parse_object` stops within its fuel when `next` does. -/
theorem parse_object_advances (next : List Char → Nat → Except Fault (JSON × Nat))
    (str : List Char) (offset : Nat)
    (hnext : ∀ o, offset + 1 ≤ o → o ≤ str.length → Advances o (next str o)) :
    Advances offset (parse_object next str offset) := by
  unfold parse_object
  simp only []
  refine advances_bind (consume_ws_spec str _).1 (fun o1 ho1 => ?_)
  obtain ⟨h11, h12⟩ := (consume_ws_spec str _).2 o1 ho1
  refine advances_bind (charAt_ne_fuel _ _) (fun c hc => ?_)
  split_ifs
  · exact advances_ok _ (by omega)
  · exact advances_mono (parse_object_loop_advances next str (offset + 1) hnext _ o1 _
      h11 h12 (by omega)) (by omega)

/-- `parse_next` never exhausts a fuel that covers the rest of the text: each level of
nesting consumes a character. -/
theorem parse_next_advances (str : List Char) : ∀ (fuel : Nat) (offset : Nat),
    offset ≤ str.length → str.length + 1 ≤ fuel + offset →
    Advances offset (parse_next fuel str offset) := by
  intro fuel
  induction fuel with
  | zero => intro _ h1 h2; omega
  | succ fuel ih =>
    intro offset hle h
    rw [parse_next]
    refine advances_bind (consume_ws_spec str _).1 (fun o1 ho1 => ?_)
    obtain ⟨h11, h12⟩ := (consume_ws_spec str _).2 o1 ho1
    refine advances_bind (charAt_ne_fuel _ _) (fun c hc => ?_)
    have hnext : ∀ o, o1 + 1 ≤ o → o ≤ str.length → Advances o (parse_next fuel str o) :=
      fun o ho1' ho2 => ih o ho2 (by omega)
    split_ifs
    · exact advances_mono (parse_array_advances _ str o1 hnext) h11
    · exact advances_mono (parse_object_advances _ str o1 hnext) h11
    · exact advances_mono (parse_string_advances str o1) h11
    · exact advances_mono (parse_bool_advances str o1) h11
    · exact advances_mono (parse_null_advances str o1) h11
    · exact advances_mono (parse_number_advances str o1) h11
    · exact advances_ok _ h11

/-- `Load` never exhausts its fuel: on every text the parser stops, with a value or with a
fault of the code. -/
theorem Load_ne_fuel (str : List Char) : JSON.Load str ≠ .error Fault.fuel := by
  unfold JSON.Load
  have h := (parse_next_advances str (str.length + 1) 0 (by omega) (by omega)).1
  cases hp : parse_next (str.length + 1) str 0 with
  | error e =>
    rw [hp] at h
    simpa [bind, Except.bind] using h
  | ok r => simp [bind, Except.bind, pure, Except.pure]

/-! ## Access to children -/

/-- In a map with ascending keys `find` returns the value of every pair. -/
theorem map_find_of_mem (m : List (List Char × JSON)) (h : m.Pairwise key_lt)
    (k : List Char) (c : JSON) (hm : (k, c) ∈ m) : map_find m k = some c := by
  induction m with
  | nil => cases hm
  | cons p m ih =>
    obtain ⟨k0, v0⟩ := p
    rw [List.pairwise_cons] at h
    rcases List.mem_cons.1 hm with heq | hm
    · cases heq
      simp [map_find]
    · have hlt := h.1 _ hm
      have hne : k0 ≠ k := by
        rintro rfl
        simp only [key_lt] at hlt
        rw [str_lt_irrefl] at hlt
        cases hlt
      simp [map_find, hne, ih h.2 hm]

/-- `find` returns nothing exactly for the keys that are absent. -/
theorem map_find_eq_none (m : List (List Char × JSON)) (k : List Char) :
    map_find m k = none ↔ k ∉ m.map Prod.fst := by
  induction m with
  | nil => simp [map_find]
  | cons p m ih =>
    obtain ⟨k0, v0⟩ := p
    by_cases h : k0 = k
    · simp [map_find, h]
    · simp only [map_find, if_neg h, ih, List.map_cons, List.mem_cons, not_or]
      constructor
      · intro h1; exact ⟨fun he => h he.symm, h1⟩
      · intro h1; exact h1.2

/-- What `find` returns is stored under the key. -/
theorem map_find_mem {m : List (List Char × JSON)} {k : List Char} {c : JSON}
    (h : map_find m k = some c) : (k, c) ∈ m := by
  induction m with
  | nil => cases h
  | cons p m ih =>
    obtain ⟨k0, v0⟩ := p
    by_cases hk : k0 = k
    · simp only [map_find, if_pos hk] at h
      cases h
      rw [hk]
      exact List.mem_cons_self _ _
    · simp only [map_find, if_neg hk] at h
      exact List.mem_cons_of_mem _ (ih h)

/-- Element access at or beyond the length grows the Array with Null elements up to
the index, as long as `index + 1` is representable. -/
theorem subscript_index_grow (l : List JSON) (k : Nat) (hk : l.length ≤ k)
    (h : k + 1 < 4294967296) :
    (JSON.array l).subscript_index k
      = .ok (JSON.array (l ++ List.replicate (k + 1 - l.length) JSON.null)) := by
  simp [JSON.subscript_index, JSON.SetType, JSON.JSONType, resize, Nat.mod_eq_of_lt h, hk,
    List.take_of_length_le (show l.length ≤ k + 1 by omega)]
  omega

/-- Element access below the length changes nothing. -/
theorem subscript_index_below (l : List JSON) (k : Nat) (h : k < l.length) :
    (JSON.array l).subscript_index k = .ok (JSON.array l) := by
  simp [JSON.subscript_index, JSON.SetType, JSON.JSONType, h, Nat.not_le.2 h]

/-! ## What follows a value -/

/-- A character that ends a number is no part of one. -/
theorem terminator_facts {c : Char} (h : not_terminator c = false) :
    c ≠ '-' ∧ isdigit c = false ∧ c ≠ '.' ∧ c ≠ 'E' ∧ c ≠ 'e' := by
  have hc : isspace c = true ∨ c = ',' ∨ c = ']' ∨ c = '\x7d' := by
    by_contra hn
    simp only [not_or] at hn
    obtain ⟨h1, h2, h3, h4⟩ := hn
    simp [not_terminator, h1, h2, h3, h4] at h
  rcases hc with hs | rfl | rfl | rfl
  · have hs' : c = ' ' ∨ (9 ≤ c.toNat ∧ c.toNat ≤ 13) := by simpa [isspace] using hs
    rcases hs' with rfl | hs'
    · decide
    · have hne : ∀ d : Char, 13 < d.toNat → c ≠ d := by
        rintro d hd rfl
        omega
      refine ⟨hne _ (by decide), ?_, hne _ (by decide), hne _ (by decide), hne _ (by decide)⟩
      simp only [isdigit, Bool.and_eq_false_imp, decide_eq_true_eq, decide_eq_false_iff_not]
      intro h1
      omega
  · decide
  · decide
  · decide

/-- The character at an offset within the text or at its end. -/
theorem charAt_headD {str : List Char} {n : Nat} (h : n ≤ str.length) :
    charAt str n = .ok ((str.drop n).headD '\x00') := by
  unfold charAt
  rw [if_pos h, List.getD_eq_getElem?_getD, List.headD_eq_head?_getD, List.head?_drop]

/-- The loop of `consume_ws` passes over a run of white space. -/
theorem consume_ws_loop_run (ws tail : List Char) (hws : ∀ w ∈ ws, isspace w = true)
    (htail : isspace (tail.headD '\x00') = false) :
    ∀ (fuel : Nat) (str : List Char) (offset : Nat), ws.length + 1 ≤ fuel →
      offset ≤ str.length → str.drop offset = ws ++ tail →
      consume_ws_loop fuel str offset = .ok (offset + ws.length) := by
  induction ws with
  | nil =>
    intro fuel str offset hf hle hd
    obtain ⟨f, rfl⟩ : ∃ f, fuel = f + 1 := ⟨fuel - 1, by omega⟩
    rw [consume_ws_loop, charAt_headD hle, hd]
    simp only [List.nil_append, bind, Except.bind, htail, Bool.false_eq_true, if_false, pure,
      Except.pure, List.length_nil, Nat.add_zero]
  | cons w ws ih =>
    intro fuel str offset hf hle hd
    obtain ⟨f, rfl⟩ : ∃ f, fuel = f + 1 := ⟨fuel - 1, by omega⟩
    have hd' : str.drop offset = w :: (ws ++ tail) := hd
    rw [consume_ws_loop, charAt_of_drop hd']
    simp only [bind, Except.bind, hws w (by simp), if_true]
    rw [ih (fun z hz => hws z (by simp [hz])) f str (offset + 1)
      (by simp only [List.length_cons] at hf; omega) (le_length_of_drop hd')
      (drop_succ_of_drop hd')]
    simp only [List.length_cons]
    congr 1
    omega

/-- `consume_ws` passes over a run of white space and stops behind it. -/
theorem consume_ws_run {str : List Char} {offset : Nat} (ws tail : List Char)
    (hws : ∀ w ∈ ws, isspace w = true) (htail : isspace (tail.headD '\x00') = false)
    (hle : offset ≤ str.length) (hd : str.drop offset = ws ++ tail) :
    consume_ws str offset = .ok (offset + ws.length) := by
  unfold consume_ws
  have hlen := congrArg List.length hd
  simp only [List.length_drop, List.length_append] at hlen
  exact consume_ws_loop_run ws tail hws htail _ str offset (by omega) hle hd

/-! ## Lookups through pointers -/

/-- After an assignment `find` returns the value assigned. -/
theorem map_find_map_assign (m : List (List Char × JSON)) (k : List Char) (v : JSON) :
    map_find (map_assign m k v) k = some v := by
  induction m with
  | nil => simp [map_assign, map_find]
  | cons p m ih =>
    obtain ⟨k0, v0⟩ := p
    rw [map_assign]
    by_cases h1 : str_lt k k0 = true
    · simp [h1, map_find]
    · by_cases h2 : str_lt k0 k = true
      · have hne : k0 ≠ k := by
          rintro rfl
          rw [str_lt_irrefl] at h2
          cases h2
        simp [h1, h2, map_find, hne, ih]
      · simp [h1, h2, map_find]

/-- The node behind a chain of keys: the child under the first key, then the rest. -/
theorem node_at_cons (j : JSON) (k : List Char) (ks : List (List Char)) :
    node_at j (k :: ks) = (child j k).bind (fun c => node_at c ks) := by
  cases j <;> simp only [node_at, child, Option.bind]
  rename_i m
  cases map_find m k <;> rfl

/-- The node behind two chains of keys, one after the other. -/
theorem node_at_append (ks1 ks2 : List (List Char)) :
    ∀ j : JSON, node_at j (ks1 ++ ks2) = (node_at j ks1).bind (fun c => node_at c ks2) := by
  induction ks1 with
  | nil => intro j; simp [node_at]
  | cons k ks ih =>
    intro j
    rw [List.cons_append, node_at_cons, node_at_cons]
    cases child j k with
    | none => rfl
    | some c => simp only [Option.bind]; exact ih c

/-- After the node behind a pointer was replaced, the pointer designates the new node. -/
theorem node_at_update_at (f : JSON → JSON) (address : List (List Char)) :
    ∀ (root n : JSON), node_at root address = some n →
      node_at (update_at f root address) address = some (f n) := by
  induction address with
  | nil =>
    intro root n h
    simp only [node_at] at h
    cases h
    simp [update_at, node_at]
  | cons k ks ih =>
    intro root n h
    cases root with
    | object m =>
      simp only [node_at] at h
      cases hm : map_find m k with
      | none => rw [hm] at h; cases h
      | some c =>
        rw [hm] at h
        simp only [update_at, hm, node_at, map_find_map_assign]
        exact ih c n h
    | _ => simp [node_at] at h

/-- After `operator[]( k )` the node has the child `k`: the one it had, or a Null. -/
theorem child_subscript_key (n : JSON) (k : List Char) :
    child (n.subscript_key k) k = some ((child n k).getD JSON.null) := by
  unfold JSON.subscript_key JSON.SetType
  by_cases h : Class.Object = n.JSONType
  · rw [if_pos h]
    cases n <;> simp only [JSON.JSONType, reduceCtorEq] at h
    rename_i m
    simp only [child]
    cases hm : map_find m k with
    | none => simp [child, map_find_map_assign]
    | some c => simp [child, hm]
  · rw [if_neg h]
    have hc : child n k = none := by
      cases n <;> simp_all [child, JSON.JSONType]
    rw [hc]
    simp [JSON.Make, map_find, child, map_assign]

/-- One lookup: the pointer reached and the node behind it. -/
theorem at_address_spec (root : JSON) (address : List (List Char)) (k : List Char) (n : JSON)
    (h : node_at root address = some n) :
    (at_address root address k).2 = address ++ [k]
    ∧ node_at (at_address root address k).1 (at_address root address k).2
        = some ((child n k).getD JSON.null) := by
  refine ⟨rfl, ?_⟩
  simp only [at_address]
  rw [node_at_append, node_at_update_at _ address root n h]
  simp only [Option.bind]
  rw [node_at_cons, child_subscript_key]
  simp [Option.bind, node_at]

/-- A sequence of lookups: the pointer reached is the chain of the keys, and the node
behind it is the one reached from the start node. -/
theorem walk_spec (keys : List (List Char)) :
    ∀ (root : JSON) (address : List (List Char)) (n : JSON),
      node_at root address = some n →
      (walk root address keys).2 = address ++ keys
      ∧ node_at (walk root address keys).1 (walk root address keys).2
          = some (walk_node n keys) := by
  induction keys with
  | nil => intro root address n h; simpa [walk, walk_node] using h
  | cons k ks ih =>
    intro root address n h
    obtain ⟨h1, h2⟩ := at_address_spec root address k n h
    have hw : walk root address (k :: ks)
        = walk (at_address root address k).1 (at_address root address k).2 ks := rfl
    have := ih (at_address root address k).1 (at_address root address k).2 _ h2
    rw [hw]
    refine ⟨by rw [this.1, h1]; simp, ?_⟩
    rw [this.2]
    rfl

/-- Every lookup from a Null reaches a Null. -/
theorem walk_node_null (keys : List (List Char)) : walk_node JSON.null keys = JSON.null := by
  induction keys with
  | nil => rfl
  | cons k ks ih => simpa [walk_node, child] using ih

/-- The lookups reach the node the chain of keys leads to, and a Null when the chain
leaves the value. -/
theorem walk_node_of_node_at (keys : List (List Char)) :
    ∀ n : JSON, (∀ c, node_at n keys = some c → walk_node n keys = c)
      ∧ (node_at n keys = none → walk_node n keys = JSON.null) := by
  induction keys with
  | nil => intro n; simp [node_at, walk_node]
  | cons k ks ih =>
    intro n
    rw [node_at_cons]
    simp only [walk_node, List.foldl_cons]
    cases child n k with
    | none =>
      exact ⟨fun c h => (by cases h), fun _ => walk_node_null ks⟩
    | some c => exact ih c

/-- `operator[]` with a key that is there leaves the Object as it is. -/
theorem subscript_key_of_find {m : List (List Char × JSON)} {k : List Char} {c : JSON}
    (h : map_find m k = some c) : (JSON.object m).subscript_key k = JSON.object m := by
  simp [JSON.subscript_key, JSON.SetType, JSON.JSONType, h]

/-- The two lookups of `content` on an entry that has both fields. -/
theorem content_fields (root : JSON) (c : List (List Char)) (m : List (List Char × JSON))
    (vs vo : JSON) (hnode : node_at root c = some (JSON.object m))
    (hs : map_find m "size".toList = some vs) (ho : map_find m "offset".toList = some vo) :
    deref (at_address root c "size".toList).1 (at_address root c "size".toList).2 = .ok vs
    ∧ deref (at_address (at_address root c "size".toList).1 c "offset".toList).1
        (at_address (at_address root c "size".toList).1 c "offset".toList).2 = .ok vo := by
  have h1 := (at_address_spec root c "size".toList _ hnode).2
  have hn2 : node_at (at_address root c "size".toList).1 c = some (JSON.object m) := by
    have := node_at_update_at (fun n => n.subscript_key "size".toList) c root _ hnode
    simp only [subscript_key_of_find hs] at this
    exact this
  have h2 := (at_address_spec _ c "offset".toList _ hn2).2
  simp only [child, hs, ho, Option.getD] at h1 h2
  simp only [deref, h1, h2, and_self]

/-! ## The path of an entry -/

/-- Without a slash `find` returns `npos`, which is -1 as an `int`. -/
theorem find_of_not_mem {p : List Char} (h : '/' ∉ p) : to_int (find p '/') = -1 := by
  simp only [find, if_neg h]
  decide

/-- The position of the first slash, as an `int`, when it is below 2^31. -/
theorem find_first (seg rest : List Char) (h : '/' ∉ seg) (hlen : seg.length < 2147483648) :
    to_int (find (seg ++ '/' :: rest) '/') = (seg.length : Int) := by
  have hm : '/' ∈ seg ++ '/' :: rest := by simp
  have hi : (seg ++ '/' :: rest).indexOf '/' = seg.length := by
    rw [List.indexOf_append_of_not_mem h, List.indexOf_cons_self]
    rfl
  simp only [find, if_pos hm, hi, to_int]
  rw [Nat.mod_eq_of_lt (by omega), if_pos hlen]

/-- A value below 2^31 is kept by the conversion to `int`. -/
theorem to_int_of_lt {n : Nat} (h : n < 2147483648) : to_int n = (n : Int) := by
  have h1 : n % 4294967296 = n := Nat.mod_eq_of_lt (by omega)
  unfold to_int
  simp only [h1, if_pos h]

/-- A path has no slash or splits at its first one. -/
theorem first_slash (path : List Char) :
    '/' ∉ path ∨ ∃ seg rest, path = seg ++ '/' :: rest ∧ '/' ∉ seg := by
  induction path with
  | nil => exact Or.inl (by simp)
  | cons c p ih =>
    by_cases hc : c = '/'
    · exact Or.inr ⟨[], p, by simp [hc], by simp⟩
    · rcases ih with h | ⟨seg, rest, h1, h2⟩
      · exact Or.inl (by simp [h, Ne.symm hc])
      · exact Or.inr ⟨c :: seg, rest, by simp [h1], by simp [h2, Ne.symm hc]⟩

/-- The keys of a rest without a slash: the last segment. -/
theorem path_keys_of_not_mem (p : List Char) (h : '/' ∉ p) :
    ∀ seg, path_keys seg p = [seg ++ p] := by
  induction p with
  | nil => intro seg; simp [path_keys]
  | cons c p ih =>
    intro seg
    have hc : c ≠ '/' := fun hc => h (by simp [hc])
    rw [path_keys, if_neg hc, ih (fun hp => h (List.mem_cons_of_mem _ hp))]
    simp

/-- The keys of a rest with a slash: those of the segment before the first slash, then
those of what follows it. -/
theorem path_keys_first (s rest : List Char) (h : '/' ∉ s) :
    ∀ seg, path_keys seg (s ++ '/' :: rest) = segment_keys (seg ++ s) ++ path_keys [] rest := by
  induction s with
  | nil => intro seg; simp [path_keys]
  | cons c s ih =>
    intro seg
    have hc : c ≠ '/' := fun hc => h (by simp [hc])
    rw [List.cons_append, path_keys, if_neg hc, ih (fun hp => h (List.mem_cons_of_mem _ hp))]
    simp

/-- Lookups of two sequences of keys, one after the other. -/
theorem walk_append (root : JSON) (address : List (List Char)) (ks1 ks2 : List (List Char)) :
    walk root address (ks1 ++ ks2)
      = walk (walk root address ks1).1 (walk root address ks1).2 ks2 := by
  simp [walk, List.foldl_append]

/-- One round of the loop of `resolve_asar_path`: the segment before the slash at `e`
is looked up and the loop goes on behind the slash. -/
theorem resolve_asar_path_loop_step (fuel : Nat) (header : JSON)
    (address : List (List Char)) (seg rest : List Char) :
    Asar.resolve_asar_path_loop (fuel + 1) header address (seg ++ '/' :: rest)
        (seg.length : Int)
      = Asar.resolve_asar_path_loop fuel (walk header address (segment_keys seg)).1
          (walk header address (segment_keys seg)).2 rest (to_int (find rest '/')) := by
  rw [Asar.resolve_asar_path_loop]
  have h1 : ¬ ((seg.length : Int) = -1) := by omega
  have h2 : ¬ ((seg.length : Int) < 0) := by omega
  simp only [if_neg h1, if_neg h2, Int.toNat_ofNat, List.take_left', List.drop_left',
    List.take_left, Nat.cast_inj]
  have hd : (seg ++ '/' :: rest).drop (seg.length + 1) = rest := by
    rw [← List.drop_drop, List.drop_left]
    rfl
  rw [hd]
  by_cases he : seg = []
  · simp [he, segment_keys, walk]
  · by_cases hdot : '.' ∈ seg
    · simp [he, hdot, segment_keys, walk]
    · simp [he, hdot, segment_keys, walk]

/-- The loop of `resolve_asar_path` and the final lookup perform the lookups of the keys of
the path; the fuel is not exhausted. -/
theorem resolve_asar_path_loop_walk :
    ∀ (n : Nat) (path : List Char), path.length = n → n < 2147483648 →
      ∀ (fuel : Nat) (header : JSON) (address : List (List Char)), n + 1 ≤ fuel →
      ∃ h ad last, Asar.resolve_asar_path_loop fuel header address path
          (to_int (find path '/')) = .ok (h, ad, last)
        ∧ at_address h ad last = walk header address (path_keys [] path) := by
  intro n
  induction n using Nat.strong_induction_on with
  | _ n ih =>
    intro path hn hlt fuel header address hf
    obtain ⟨f, rfl⟩ : ∃ f, fuel = f + 1 := ⟨fuel - 1, by omega⟩
    rcases first_slash path with h | ⟨seg, rest, rfl, h⟩
    · refine ⟨header, address, path, ?_, ?_⟩
      · rw [find_of_not_mem h, Asar.resolve_asar_path_loop]
        simp
      · rw [path_keys_of_not_mem path h]
        rfl
    · have hl : (seg ++ '/' :: rest).length = seg.length + rest.length + 1 := by
        simp; omega
      rw [find_first seg rest h (by omega), resolve_asar_path_loop_step f header address
        seg rest]
      obtain ⟨h', ad, last, e1, e2⟩ := ih rest.length (by omega) rest rfl (by omega) f
        (walk header address (segment_keys seg)).1 (walk header address (segment_keys seg)).2
        (by omega)
      refine ⟨h', ad, last, e1, ?_⟩
      rw [e2, path_keys_first seg rest h, walk_append]
      rfl

/-- `resolve_asar_path` on a path shorter than 2^31 characters performs the lookups of
`lookup_keys`. -/
theorem resolve_asar_path_walk (a : Asar) (path : List Char)
    (hlen : path.length < 2147483648) :
    a.resolve_asar_path path
      = .ok ({ a with header := (walk a.header [] (lookup_keys path)).1 },
          (walk a.header [] (lookup_keys path)).2) := by
  obtain ⟨h, ad, last, e1, e2⟩ := resolve_asar_path_loop_walk path.length path rfl hlen
    (path.length + 1) (at_address a.header [] "files".toList).1
    (at_address a.header [] "files".toList).2 (le_refl _)
  unfold Asar.resolve_asar_path
  simp only [bind, Except.bind, e1, pure, Except.pure]
  rw [e2]
  rfl

/-- What `resolve_asar_path` returns: the pointer is the chain of keys of the path, and
the node behind it is the one reached through the lookups. -/
theorem resolve_asar_path_node (a : Asar) (path : List Char)
    (hlen : path.length < 2147483648) :
    ∃ a1, a.resolve_asar_path path = .ok (a1, lookup_keys path)
      ∧ a1.file = a.file ∧ a1.offset = a.offset
      ∧ node_at a1.header (lookup_keys path)
          = some (walk_node a.header (lookup_keys path)) := by
  obtain ⟨h1, h2⟩ := walk_spec (lookup_keys path) a.header [] a.header (by simp [node_at])
  simp only [List.nil_append] at h1
  rw [h1] at h2
  refine ⟨{ a with header := (walk a.header [] (lookup_keys path)).1 }, ?_, rfl, rfl, h2⟩
  rw [resolve_asar_path_walk a path hlen, h1]

/-- The node `resolve_asar_path` points to is the one reached through the lookups. -/
theorem resolved_eq (a : Asar) (path : List Char) (hlen : path.length < 2147483648) :
    resolved a path = .ok (walk_node a.header (lookup_keys path)) := by
  obtain ⟨a1, h1, -, -, h2⟩ := resolve_asar_path_node a path hlen
  simp [resolved, h1, bind, Except.bind, deref, h2]

/-- A slash in front of a path adds no key. -/
theorem lookup_keys_leading_slash (p : List Char) : lookup_keys ('/' :: p) = lookup_keys p := by
  simp [lookup_keys, path_keys, segment_keys]

/-- A second slash behind a slash adds no key. -/
theorem path_keys_doubled_slash (p q : List Char) :
    ∀ seg, path_keys seg (p ++ '/' :: '/' :: q) = path_keys seg (p ++ '/' :: q) := by
  induction p with
  | nil => intro seg; simp [path_keys, segment_keys]
  | cons c p ih =>
    intro seg
    by_cases hc : c = '/'
    · simp [path_keys, hc, ih]
    · simp [path_keys, hc, ih]

/-- The keys of a path through the directories `ds` to `f`. -/
theorem lookup_keys_directories (ds : List (List Char)) (f : List Char)
    (hds : ∀ d ∈ ds, d ≠ [] ∧ '.' ∉ d ∧ '/' ∉ d) (hf : '/' ∉ f) :
    path_keys [] ((ds.map (fun d => d ++ ['/'])).flatten ++ f)
      = (ds.map (fun d => [d, "files".toList])).flatten ++ [f] := by
  induction ds with
  | nil => simpa using path_keys_of_not_mem f hf []
  | cons d ds ih =>
    obtain ⟨h1, h2, h3⟩ := hds d (by simp)
    have := path_keys_first d ((ds.map (fun d => d ++ ['/'])).flatten ++ f) h3 []
    simp only [List.nil_append] at this
    simp only [List.map_cons, List.flatten_cons, List.append_assoc, List.singleton_append,
      List.cons_append, List.nil_append]
    rw [this, ih (fun e he => hds e (by simp [he]))]
    simp [segment_keys, h1, h2]

/-- `std::stoull` on a run of digits within 64 bits. -/
theorem stoull_digits (ds : List Char) (hne : ds ≠ []) (hd : ∀ c ∈ ds, isdigit c = true)
    (hmax : digitsVal ds ≤ 18446744073709551615) : stoull ds = .ok (digitsVal ds) := by
  obtain ⟨c, t, rfl⟩ := List.exists_cons_of_ne_nil hne
  have hc : isdigit c = true := hd c (by simp)
  have hcs := isdigit_facts hc
  have htw : List.takeWhile isdigit (c :: t) = c :: t := by
    rw [List.takeWhile_eq_self_iff]
    exact hd
  unfold stoull
  simp only [List.dropWhile, hcs.1, takeSign, hcs.2.1, hcs.2.2, if_false, htw]
  simp only [reduceCtorEq, if_false, Bool.false_eq_true]
  rw [if_neg (by omega)]

/-- `std::stoull` reads back the decimal text of a number that is not negative. -/
theorem stoull_to_str (i : Int) (h1 : 0 ≤ i) (h2 : i ≤ 18446744073709551615) :
    stoull (to_str i) = .ok i.toNat := by
  obtain ⟨hd, hv, -⟩ := natDigits_spec (i.natAbs + 1) i.natAbs (by omega)
  have hne := natDigits_ne_nil (i.natAbs + 1) i.natAbs (by omega)
  have hto : to_str i = natDigits (i.natAbs + 1) i.natAbs := by
    unfold to_str
    rw [if_neg (by omega)]
  rw [hto, stoull_digits _ hne hd (by rw [hv]; omega), hv]
  congr 1
  omega

/-- Digits are not escaped. -/
theorem json_escape_digits (ds : List Char) (hd : ∀ c ∈ ds, isdigit c = true) :
    json_escape ds = ds := by
  rw [json_escape_eq_self_iff]
  intro c hc
  have hn : 48 ≤ c.toNat ∧ c.toNat ≤ 57 := by simpa [isdigit] using hd c hc
  have hne : ∀ d : Char, (d.toNat < 48 ∨ 57 < d.toNat) → c ≠ d := by
    rintro d hd rfl
    omega
  simp [escaped, hne '"' (by decide), hne '\\' (by decide), hne '\x08' (by decide),
    hne '\x0c' (by decide), hne '\n' (by decide), hne '\r' (by decide), hne '\t' (by decide)]

/-! ## Copies in memory -/

/-- The values of a list under two readings that agree on its elements. -/
theorem values_of_congr {f g : Stored → Option JSON} (xs : List Stored)
    (h : ∀ x ∈ xs, ∀ v, f x = some v → g x = some v) :
    ∀ vs, values_of f xs = some vs → values_of g xs = some vs := by
  induction xs with
  | nil => intro vs hv; exact hv
  | cons x xs ih =>
    intro vs hv
    simp only [values_of] at hv ⊢
    cases hx : f x with
    | none => simp [hx] at hv
    | some v =>
      cases hxs : values_of f xs with
      | none => simp [hx, hxs] at hv
      | some ws =>
        rw [h x (by simp) v hx, ih (fun y hy => h y (by simp [hy])) ws hxs]
        simpa [hx, hxs] using hv

/-- The pairs of a map under two readings that agree on its values. -/
theorem pairs_of_congr {f g : Stored → Option JSON} (xs : List (List Char × Stored))
    (h : ∀ x ∈ xs, ∀ v, f x.2 = some v → g x.2 = some v) :
    ∀ vs, pairs_of f xs = some vs → pairs_of g xs = some vs := by
  induction xs with
  | nil => intro vs hv; exact hv
  | cons x xs ih =>
    obtain ⟨k, x⟩ := x
    intro vs hv
    simp only [pairs_of] at hv ⊢
    cases hx : f x with
    | none => simp [hx] at hv
    | some v =>
      cases hxs : pairs_of f xs with
      | none => simp [hx, hxs] at hv
      | some ws =>
        rw [h (k, x) (by simp) v hx, ih (fun y hy => h y (by simp [hy])) ws hxs]
        simpa [hx, hxs] using hv

/-- The value of an object depends only on the blocks that are there. -/
theorem value_of_same : ∀ (fuel : Nat) (mem mem1 : Memory) (x : Stored) (v : JSON),
    value_of fuel mem x = some v → same_on 0 mem.length mem1 mem →
    value_of fuel mem1 x = some v := by
  intro fuel
  induction fuel with
  | zero => intro mem mem1 x v h; simp [value_of] at h
  | succ fuel ih =>
    intro mem mem1 x v h hs
    have hget : ∀ (p : Nat) (b : Block), mem[p]? = some b → mem1[p]? = some b := by
      intro p b hb
      have hp : p < mem.length := by
        by_contra hn
        rw [List.getElem?_eq_none (by omega)] at hb
        cases hb
      rw [hs p (Nat.zero_le _) hp, hb]
    cases x with
    | object p =>
      simp only [value_of] at h ⊢
      cases hb : mem[p]? with
      | none => simp [hb] at h
      | some b =>
        cases b <;> simp only [hb, reduceCtorEq] at h
        rename_i m
        rw [hget p _ hb]
        simp only [Option.map_eq_some'] at h ⊢
        obtain ⟨pm, h1, h2⟩ := h
        exact ⟨pm, pairs_of_congr m (fun y _ w hw => ih mem mem1 y.2 w hw hs) pm h1, h2⟩
    | array p =>
      simp only [value_of] at h ⊢
      cases hb : mem[p]? with
      | none => simp [hb] at h
      | some b =>
        cases b <;> simp only [hb, reduceCtorEq] at h
        rename_i l
        rw [hget p _ hb]
        simp only [Option.map_eq_some'] at h ⊢
        obtain ⟨pm, h1, h2⟩ := h
        exact ⟨pm, values_of_congr l (fun y _ w hw => ih mem mem1 y w hw hs) pm h1, h2⟩
    | string p =>
      simp only [value_of] at h ⊢
      cases hb : mem[p]? with
      | none => simp [hb] at h
      | some b =>
        cases b <;> simp only [hb, reduceCtorEq] at h
        rw [hget p _ hb]
        exact h
    | null => exact h
    | floating f => exact h
    | integral i => exact h
    | boolean b => exact h

/-- Allocation leaves the blocks that are there as they are. -/
theorem same_on_append_left (mem extra : Memory) : same_on 0 mem.length (mem ++ extra) mem := by
  intro p _ hp
  rw [List.getElem?_append_left hp]

/-- Agreement on a range holds on every part of it. -/
theorem same_on_sub {lo hi lo1 hi1 : Nat} {m1 m2 : Memory} (h : same_on lo hi m1 m2)
    (h1 : lo ≤ lo1) (h2 : hi1 ≤ hi) : same_on lo1 hi1 m1 m2 :=
  fun p hp1 hp2 => h p (by omega) (by omega)

/-- Agreement with a memory on addresses below its blocks allocated last. -/
theorem same_on_trans_append {lo hi : Nat} {m1 m2 : Memory} (extra : Memory)
    (h : same_on lo hi m1 (m2 ++ extra)) (hhi : hi ≤ m2.length) : same_on lo hi m1 m2 := by
  intro p hp1 hp2
  rw [h p hp1 hp2, List.getElem?_append_left (by omega)]

/-- A write to one block, then allocations, leave the blocks outside as they are. -/
theorem same_on_set_append {lo hi : Nat} (mem : Memory) (p : Nat) (blk : Block)
    (more : Memory) (hp : ∀ q, lo ≤ q → q < hi → q ≠ p ∧ q < mem.length) :
    same_on lo hi (mem.set p blk ++ more) mem := by
  intro q h1 h2
  obtain ⟨hne, hlt⟩ := hp q h1 h2
  rw [List.getElem?_append_left (by simpa using hlt), List.getElem?_set_ne (Ne.symm hne)]

/-- The copies of the elements of a deque denote the values of the elements, and depend
only on the blocks allocated for them. -/
theorem copy_deque_spec (value1 : Memory → Stored → Option JSON)
    (copy1 : Memory → Stored → Except Fault (Memory × Stored))
    (hs : Stable value1) (hc : Copies value1 copy1) :
    ∀ (xs : List Stored) (mem : Memory) (vs : List JSON),
      values_of (value1 mem) xs = some vs →
      ∃ extra ys, copy_deque copy1 mem xs = .ok (mem ++ extra, ys)
        ∧ ∀ mem1, same_on mem.length (mem.length + extra.length) mem1 (mem ++ extra) →
            values_of (value1 mem1) ys = some vs := by
  intro xs
  induction xs with
  | nil =>
    intro mem vs h
    exact ⟨[], [], by simp [copy_deque, pure, Except.pure], fun _ _ => h⟩
  | cons x xs ih =>
    intro mem vs h
    simp only [values_of] at h
    cases hx : value1 mem x with
    | none => simp [hx] at h
    | some v =>
      cases hxs : values_of (value1 mem) xs with
      | none => simp [hx, hxs] at h
      | some ws =>
        simp only [hx, hxs, Option.some.injEq] at h
        obtain ⟨e1, y, hy1, hy2⟩ := hc mem x v hx
        have hxs1 : values_of (value1 (mem ++ e1)) xs = some ws :=
          values_of_congr xs (fun z _ w hw => hs mem (mem ++ e1) z w hw
            (same_on_append_left mem e1)) ws hxs
        obtain ⟨e2, ys, hys1, hys2⟩ := ih (mem ++ e1) ws hxs1
        refine ⟨e1 ++ e2, y :: ys, ?_, fun mem1 hm => ?_⟩
        · simp [copy_deque, hy1, hys1, bind, Except.bind, pure, Except.pure]
        · simp only [List.length_append] at hm hys2
          have h1 : value1 mem1 y = some v := by
            apply hy2
            have := same_on_sub hm (le_refl _) (show mem.length + e1.length
              ≤ mem.length + (e1.length + e2.length) by omega)
            rw [← List.append_assoc] at this
            exact same_on_trans_append e2 this (by simp)
          have h2 : values_of (value1 mem1) ys = some ws := by
            apply hys2
            have := same_on_sub hm (show mem.length ≤ mem.length + e1.length by omega)
              (show mem.length + e1.length + e2.length
                ≤ mem.length + (e1.length + e2.length) by omega)
            rw [← List.append_assoc] at this
            exact this
          simp only [values_of, h1, h2]
          rw [← h]

/-- The copies of the pairs of a map denote the pairs, and depend only on the blocks
allocated for them. -/
theorem copy_map_spec (value1 : Memory → Stored → Option JSON)
    (copy1 : Memory → Stored → Except Fault (Memory × Stored))
    (hs : Stable value1) (hc : Copies value1 copy1) :
    ∀ (xs : List (List Char × Stored)) (mem : Memory) (vs : List (List Char × JSON)),
      pairs_of (value1 mem) xs = some vs →
      ∃ extra ys, copy_map copy1 mem xs = .ok (mem ++ extra, ys)
        ∧ ∀ mem1, same_on mem.length (mem.length + extra.length) mem1 (mem ++ extra) →
            pairs_of (value1 mem1) ys = some vs := by
  intro xs
  induction xs with
  | nil =>
    intro mem vs h
    exact ⟨[], [], by simp [copy_map, pure, Except.pure], fun _ _ => h⟩
  | cons x xs ih =>
    obtain ⟨k, x⟩ := x
    intro mem vs h
    simp only [pairs_of] at h
    cases hx : value1 mem x with
    | none => simp [hx] at h
    | some v =>
      cases hxs : pairs_of (value1 mem) xs with
      | none => simp [hx, hxs] at h
      | some ws =>
        simp only [hx, hxs, Option.some.injEq] at h
        obtain ⟨e1, y, hy1, hy2⟩ := hc mem x v hx
        have hxs1 : pairs_of (value1 (mem ++ e1)) xs = some ws :=
          pairs_of_congr xs (fun z _ w hw => hs mem (mem ++ e1) z.2 w hw
            (same_on_append_left mem e1)) ws hxs
        obtain ⟨e2, ys, hys1, hys2⟩ := ih (mem ++ e1) ws hxs1
        refine ⟨e1 ++ e2, (k, y) :: ys, ?_, fun mem1 hm => ?_⟩
        · simp [copy_map, hy1, hys1, bind, Except.bind, pure, Except.pure]
        · simp only [List.length_append] at hm hys2
          have h1 : value1 mem1 y = some v := by
            apply hy2
            have := same_on_sub hm (le_refl _) (show mem.length + e1.length
              ≤ mem.length + (e1.length + e2.length) by omega)
            rw [← List.append_assoc] at this
            exact same_on_trans_append e2 this (by simp)
          have h2 : pairs_of (value1 mem1) ys = some ws := by
            apply hys2
            have := same_on_sub hm (show mem.length ≤ mem.length + e1.length by omega)
              (show mem.length + e1.length + e2.length
                ≤ mem.length + (e1.length + e2.length) by omega)
            rw [← List.append_assoc] at this
            exact this
          simp only [pairs_of, h1, h2]
          rw [← h]

/-- The copy constructor returns, for an object that denotes a value and fuel for its
depth, an object that denotes the same value and depends only on the blocks it
allocated. -/
theorem copy_construct_spec : ∀ fuel : Nat, Copies (value_of fuel) (copy_construct fuel) := by
  intro fuel
  induction fuel with
  | zero => intro mem x v h; simp [value_of] at h
  | succ fuel ih =>
    intro mem x v h
    have hst : Stable (value_of fuel) := value_of_same fuel
    cases x with
    | object p =>
      simp only [value_of] at h
      cases hb : mem[p]? with
      | none => simp [hb] at h
      | some b =>
        cases b <;> simp only [hb, reduceCtorEq] at h
        rename_i m
        simp only [Option.map_eq_some'] at h
        obtain ⟨pm, h1, h2⟩ := h
        obtain ⟨extra, m1, hc1, hc2⟩ := copy_map_spec _ _ hst ih m mem pm h1
        refine ⟨extra ++ [Block.map m1], Stored.object (mem ++ extra).length, ?_, ?_⟩
        · simp [copy_construct, hb, hc1, bind, Except.bind, pure, Except.pure]
        · intro mem1 hm
          simp only [List.length_append, List.length_singleton] at hm
          have hg : mem1[(mem ++ extra).length]? = some (Block.map m1) := by
            rw [hm _ (by simp) (by simp), ← List.append_assoc,
              List.getElem?_append_right (le_refl _)]
            simp
          simp only [value_of, hg]
          rw [hc2 mem1 (by
            have := same_on_sub hm (le_refl _) (show mem.length + extra.length
              ≤ mem.length + (extra.length + 1) by omega)
            rw [← List.append_assoc] at this
            exact same_on_trans_append _ this (by simp))]
          simpa using h2
    | array p =>
      simp only [value_of] at h
      cases hb : mem[p]? with
      | none => simp [hb] at h
      | some b =>
        cases b <;> simp only [hb, reduceCtorEq] at h
        rename_i l
        simp only [Option.map_eq_some'] at h
        obtain ⟨pm, h1, h2⟩ := h
        obtain ⟨extra, l1, hc1, hc2⟩ := copy_deque_spec _ _ hst ih l mem pm h1
        refine ⟨extra ++ [Block.deque l1], Stored.array (mem ++ extra).length, ?_, ?_⟩
        · simp [copy_construct, hb, hc1, bind, Except.bind, pure, Except.pure]
        · intro mem1 hm
          simp only [List.length_append, List.length_singleton] at hm
          have hg : mem1[(mem ++ extra).length]? = some (Block.deque l1) := by
            rw [hm _ (by simp) (by simp), ← List.append_assoc,
              List.getElem?_append_right (le_refl _)]
            simp
          simp only [value_of, hg]
          rw [hc2 mem1 (by
            have := same_on_sub hm (le_refl _) (show mem.length + extra.length
              ≤ mem.length + (extra.length + 1) by omega)
            rw [← List.append_assoc] at this
            exact same_on_trans_append _ this (by simp))]
          simpa using h2
    | string p =>
      simp only [value_of] at h
      cases hb : mem[p]? with
      | none => simp [hb] at h
      | some b =>
        cases b <;> simp only [hb, reduceCtorEq] at h
        rename_i s
        refine ⟨[Block.string s], Stored.string mem.length, ?_, ?_⟩
        · simp [copy_construct, hb, pure, Except.pure]
        · intro mem1 hm
          have hg : mem1[mem.length]? = some (Block.string s) := by
            rw [hm _ (le_refl _) (by simp)]
            simp
          simp only [value_of, hg]
          exact h
    | null => exact ⟨[], Stored.null, by simp [copy_construct, pure, Except.pure], fun _ _ => h⟩
    | floating f =>
      exact ⟨[], Stored.floating f, by simp [copy_construct, pure, Except.pure], fun _ _ => h⟩
    | integral i =>
      exact ⟨[], Stored.integral i, by simp [copy_construct, pure, Except.pure], fun _ _ => h⟩
    | boolean b =>
      exact ⟨[], Stored.boolean b, by simp [copy_construct, pure, Except.pure], fun _ _ => h⟩

/-- Copy assignment of a container to itself reads the blocks it has just deleted. -/
theorem copy_assign_self :
    copy_assign 3 copy_memory (Stored.object 2) (Stored.object 2) = .error Fault.undefined :=
  rfl

/-! ## The release of a copy, and assignment of a value to itself -/

/-- Each element of a list that denotes values denotes one. -/
theorem values_of_mem {f : Stored → Option JSON} :
    ∀ (xs : List Stored) (vs : List JSON), values_of f xs = some vs →
      ∀ x ∈ xs, ∃ v, f x = some v := by
  intro xs
  induction xs with
  | nil => intro vs _ x hx; cases hx
  | cons y xs ih =>
    intro vs h x hx
    simp only [values_of] at h
    cases hy : f y with
    | none => simp [hy] at h
    | some v =>
      cases hys : values_of f xs with
      | none => simp [hy, hys] at h
      | some ws =>
        rcases List.mem_cons.1 hx with rfl | hx
        · exact ⟨v, hy⟩
        · exact ih ws hys x hx

/-- Each value of a map that denotes pairs denotes a value. -/
theorem pairs_of_mem {f : Stored → Option JSON} :
    ∀ (xs : List (List Char × Stored)) (vs : List (List Char × JSON)),
      pairs_of f xs = some vs → ∀ x ∈ xs.map Prod.snd, ∃ v, f x = some v := by
  intro xs
  induction xs with
  | nil => intro vs _ x hx; cases hx
  | cons y xs ih =>
    obtain ⟨k, y⟩ := y
    intro vs h x hx
    simp only [pairs_of] at h
    cases hy : f y with
    | none => simp [hy] at h
    | some v =>
      cases hys : pairs_of f xs with
      | none => simp [hy, hys] at h
      | some ws =>
        simp only [List.map_cons, List.mem_cons] at hx
        rcases hx with rfl | hx
        · exact ⟨v, hy⟩
        · exact ih ws hys x hx

/-- Deleting one more block. -/
theorem deleted_set {mem1 mem : Memory} (h : Deleted mem1 mem) (p : Nat) :
    Deleted (mem1.set p Block.deleted) mem := by
  refine ⟨by simp [h.1], fun q => ?_⟩
  by_cases hq : p = q
  · subst hq
    by_cases hp : p < mem1.length
    · right
      simp [List.getElem?_set_self hp]
    · rw [List.set_eq_of_length_le (by omega)]
      exact h.2 p
  · rw [List.getElem?_set_ne hq]
    exact h.2 q

/-- The destructors of objects that denoted values, in a memory where some blocks have
been deleted since: they end, or read a deleted block. -/
theorem destroy_all_deleted (clear1 : Memory → Stored → Except Fault Memory) (mem : Memory)
    (xs : List Stored)
    (h1 : ∀ x ∈ xs, ∀ mem1, Deleted mem1 mem →
      (∃ mem2, clear1 mem1 x = .ok mem2 ∧ Deleted mem2 mem)
        ∨ clear1 mem1 x = .error Fault.undefined) :
    ∀ mem1, Deleted mem1 mem →
      (∃ mem2, destroy_all clear1 mem1 xs = .ok mem2 ∧ Deleted mem2 mem)
        ∨ destroy_all clear1 mem1 xs = .error Fault.undefined := by
  induction xs with
  | nil => intro mem1 hd; exact Or.inl ⟨mem1, rfl, hd⟩
  | cons x xs ih =>
    intro mem1 hd
    rcases h1 x (by simp) mem1 hd with ⟨mem2, h2, hd2⟩ | h2
    · rcases ih (fun y hy => h1 y (by simp [hy])) mem2 hd2 with ⟨mem3, h3, hd3⟩ | h3
      · exact Or.inl ⟨mem3, by simp [destroy_all, h2, h3, bind, Except.bind], hd3⟩
      · exact Or.inr (by simp [destroy_all, h2, h3, bind, Except.bind])
    · exact Or.inr (by simp [destroy_all, h2, bind, Except.bind])

/-- `ClearInternal` on an object that denoted a value, in a memory where some blocks have
been deleted since: it ends, having deleted the block of the object, or it reads a
deleted block. -/
theorem ClearInternal_deleted : ∀ (fuel : Nat) (mem : Memory) (x : Stored) (v : JSON),
    value_of fuel mem x = some v → ∀ mem1, Deleted mem1 mem →
      (∃ mem2, ClearInternal fuel mem1 x = .ok mem2 ∧ Deleted mem2 mem
        ∧ ∀ p, (x = .object p ∨ x = .array p ∨ x = .string p) →
            mem2[p]? = some Block.deleted)
        ∨ ClearInternal fuel mem1 x = .error Fault.undefined := by
  intro fuel
  induction fuel with
  | zero => intro mem x v h; simp [value_of] at h
  | succ fuel ih =>
    intro mem x v h mem1 hd
    cases x with
    | object p =>
      simp only [value_of] at h
      cases hb : mem[p]? with
      | none => simp [hb] at h
      | some b =>
        cases b <;> simp only [hb, reduceCtorEq] at h
        rename_i m
        have hp : p < mem.length := by
          by_contra hn
          rw [List.getElem?_eq_none (by omega)] at hb
          cases hb
        simp only [Option.map_eq_some'] at h
        obtain ⟨pm, hpm, _⟩ := h
        rcases hd.2 p with h1 | h1
        · rw [hb] at h1
          have hall := destroy_all_deleted (ClearInternal fuel) mem (m.map Prod.snd)
            (fun x hx mem1 hd1 => by
              obtain ⟨w, hw⟩ := pairs_of_mem m pm hpm x hx
              rcases ih mem x w hw mem1 hd1 with ⟨mem2, h2, hd2, _⟩ | h2
              · exact Or.inl ⟨mem2, h2, hd2⟩
              · exact Or.inr h2) mem1 hd
          rcases hall with ⟨mem2, h2, hd2⟩ | h2
          · refine Or.inl ⟨mem2.set p Block.deleted, ?_, deleted_set hd2 p, ?_⟩
            · simp [ClearInternal, h1, h2, bind, Except.bind, pure, Except.pure]
            · intro q hq
              have : q = p := by
                rcases hq with hq | hq | hq
                all_goals cases hq
                rfl
              subst this
              rw [List.getElem?_set_self (by rw [hd2.1]; exact hp)]
          · exact Or.inr (by simp [ClearInternal, h1, h2, bind, Except.bind])
        · exact Or.inr (by simp [ClearInternal, h1])
    | array p =>
      simp only [value_of] at h
      cases hb : mem[p]? with
      | none => simp [hb] at h
      | some b =>
        cases b <;> simp only [hb, reduceCtorEq] at h
        rename_i l
        have hp : p < mem.length := by
          by_contra hn
          rw [List.getElem?_eq_none (by omega)] at hb
          cases hb
        simp only [Option.map_eq_some'] at h
        obtain ⟨pm, hpm, _⟩ := h
        rcases hd.2 p with h1 | h1
        · rw [hb] at h1
          have hall := destroy_all_deleted (ClearInternal fuel) mem l
            (fun x hx mem1 hd1 => by
              obtain ⟨w, hw⟩ := values_of_mem l pm hpm x hx
              rcases ih mem x w hw mem1 hd1 with ⟨mem2, h2, hd2, _⟩ | h2
              · exact Or.inl ⟨mem2, h2, hd2⟩
              · exact Or.inr h2) mem1 hd
          rcases hall with ⟨mem2, h2, hd2⟩ | h2
          · refine Or.inl ⟨mem2.set p Block.deleted, ?_, deleted_set hd2 p, ?_⟩
            · simp [ClearInternal, h1, h2, bind, Except.bind, pure, Except.pure]
            · intro q hq
              have : q = p := by
                rcases hq with hq | hq | hq
                all_goals cases hq
                rfl
              subst this
              rw [List.getElem?_set_self (by rw [hd2.1]; exact hp)]
          · exact Or.inr (by simp [ClearInternal, h1, h2, bind, Except.bind])
        · exact Or.inr (by simp [ClearInternal, h1])
    | string p =>
      simp only [value_of] at h
      cases hb : mem[p]? with
      | none => simp [hb] at h
      | some b =>
        cases b <;> simp only [hb, reduceCtorEq] at h
        have hp : p < mem.length := by
          by_contra hn
          rw [List.getElem?_eq_none (by omega)] at hb
          cases hb
        rcases hd.2 p with h1 | h1
        · rw [hb] at h1
          refine Or.inl ⟨mem1.set p Block.deleted, ?_, deleted_set hd p, ?_⟩
          · simp [ClearInternal, h1, pure, Except.pure]
          · intro q hq
            have : q = p := by
              rcases hq with hq | hq | hq
              all_goals cases hq
              rfl
            subst this
            rw [List.getElem?_set_self (by rw [hd.1]; exact hp)]
        · exact Or.inr (by simp [ClearInternal, h1])
    | null =>
      exact Or.inl ⟨mem1, by simp [ClearInternal, pure, Except.pure], hd,
        fun p hp => by rcases hp with hp | hp | hp <;> cases hp⟩
    | floating f =>
      exact Or.inl ⟨mem1, by simp [ClearInternal, pure, Except.pure], hd,
        fun p hp => by rcases hp with hp | hp | hp <;> cases hp⟩
    | integral i =>
      exact Or.inl ⟨mem1, by simp [ClearInternal, pure, Except.pure], hd,
        fun p hp => by rcases hp with hp | hp | hp <;> cases hp⟩
    | boolean b =>
      exact Or.inl ⟨mem1, by simp [ClearInternal, pure, Except.pure], hd,
        fun p hp => by rcases hp with hp | hp | hp <;> cases hp⟩

/-- Copy assignment of an Object or an Array to itself reads the block `ClearInternal`
has just deleted. -/
theorem copy_assign_self_undefined (fuel : Nat) (mem : Memory) (a : Stored) (v : JSON)
    (ha : value_of fuel mem a = some v) (p : Nat) (hp : a = .object p ∨ a = .array p) :
    copy_assign fuel mem a a = .error Fault.undefined := by
  unfold copy_assign
  rcases ClearInternal_deleted fuel mem a v ha mem ⟨rfl, fun _ => Or.inl rfl⟩ with
    ⟨mem2, h2, _, h3⟩ | h2
  · have hdel := h3 p (by rcases hp with h | h <;> simp [h])
    obtain ⟨f, rfl⟩ : ∃ f, fuel = f + 1 := by
      cases fuel with
      | zero => simp [value_of] at ha
      | succ f => exact ⟨f, rfl⟩
    rcases hp with rfl | rfl <;> simp [h2, bind, Except.bind, copy_construct, hdel]
  · simp [h2, bind, Except.bind]

/-- The release of the copies of the elements of a deque succeeds in every memory that
holds their blocks, and changes no other block. -/
theorem copy_deque_releases (value1 : Memory → Stored → Option JSON)
    (copy1 : Memory → Stored → Except Fault (Memory × Stored))
    (clear1 : Memory → Stored → Except Fault Memory)
    (hs : Stable value1) (hc : Copies value1 copy1) (hr : Releases value1 copy1 clear1) :
    ∀ (xs : List Stored) (mem : Memory) (vs : List JSON),
      values_of (value1 mem) xs = some vs →
      ∀ (extra : Memory) (ys : List Stored), copy_deque copy1 mem xs = .ok (mem ++ extra, ys) →
        ∀ M : Memory, same_on mem.length (mem.length + extra.length) M (mem ++ extra) →
          ∃ M1, destroy_all clear1 M ys = .ok M1 ∧ M1.length = M.length
            ∧ ∀ p : Nat, p < mem.length ∨ mem.length + extra.length ≤ p → M1[p]? = M[p]? := by
  intro xs
  induction xs with
  | nil =>
    intro mem vs _ extra ys hcopy M _
    simp only [copy_deque, pure, Except.pure, Except.ok.injEq, Prod.mk.injEq] at hcopy
    rw [← hcopy.2]
    exact ⟨M, rfl, rfl, fun _ _ => rfl⟩
  | cons x xs ih =>
    intro mem vs h extra ys hcopy M hM
    simp only [values_of] at h
    cases hx : value1 mem x with
    | none => simp [hx] at h
    | some v =>
      cases hxs : values_of (value1 mem) xs with
      | none => simp [hx, hxs] at h
      | some ws =>
        obtain ⟨e1, y, hy1, _⟩ := hc mem x v hx
        have hxs1 : values_of (value1 (mem ++ e1)) xs = some ws :=
          values_of_congr xs (fun z _ w hw => hs mem (mem ++ e1) z w hw
            (same_on_append_left mem e1)) ws hxs
        obtain ⟨e2, ys1, hys1, _⟩ := copy_deque_spec value1 copy1 hs hc xs (mem ++ e1) ws hxs1
        simp only [copy_deque, hy1, hys1, bind, Except.bind, pure, Except.pure,
          Except.ok.injEq, Prod.mk.injEq, List.append_assoc, List.append_cancel_left_eq]
          at hcopy
        obtain ⟨rfl, rfl⟩ := hcopy
        simp only [List.length_append] at hM
        have hM1 : same_on mem.length (mem.length + e1.length) M (mem ++ e1) := by
          intro p hp1 hp2
          rw [hM p hp1 (by omega), ← List.append_assoc,
            List.getElem?_append_left (by simp; omega)]
        obtain ⟨M1, hc1, hl1, hf1⟩ := hr mem x v hx e1 y hy1 M hM1
        have hM2 : same_on (mem ++ e1).length ((mem ++ e1).length + e2.length) M1
            (mem ++ e1 ++ e2) := by
          intro p hp1 hp2
          simp only [List.length_append] at hp1 hp2
          rw [hf1 p (Or.inr hp1), hM p (by omega) (by omega), List.append_assoc]
        obtain ⟨M2, hc2, hl2, hf2⟩ := ih (mem ++ e1) ws hxs1 e2 ys1 hys1 M1 hM2
        refine ⟨M2, by simp [destroy_all, hc1, hc2, bind, Except.bind], by omega, ?_⟩
        intro p hp
        simp only [List.length_append] at hp hf2
        rw [hf2 p (by omega), hf1 p (by omega)]

/-- The release of the copies of the values of a map succeeds in every memory that holds
their blocks, and changes no other block. -/
theorem copy_map_releases (value1 : Memory → Stored → Option JSON)
    (copy1 : Memory → Stored → Except Fault (Memory × Stored))
    (clear1 : Memory → Stored → Except Fault Memory)
    (hs : Stable value1) (hc : Copies value1 copy1) (hr : Releases value1 copy1 clear1) :
    ∀ (xs : List (List Char × Stored)) (mem : Memory) (vs : List (List Char × JSON)),
      pairs_of (value1 mem) xs = some vs →
      ∀ (extra : Memory) (ys : List (List Char × Stored)),
        copy_map copy1 mem xs = .ok (mem ++ extra, ys) →
        ∀ M : Memory, same_on mem.length (mem.length + extra.length) M (mem ++ extra) →
          ∃ M1, destroy_all clear1 M (ys.map Prod.snd) = .ok M1 ∧ M1.length = M.length
            ∧ ∀ p : Nat, p < mem.length ∨ mem.length + extra.length ≤ p → M1[p]? = M[p]? := by
  intro xs
  induction xs with
  | nil =>
    intro mem vs _ extra ys hcopy M _
    simp only [copy_map, pure, Except.pure, Except.ok.injEq, Prod.mk.injEq] at hcopy
    rw [← hcopy.2]
    exact ⟨M, rfl, rfl, fun _ _ => rfl⟩
  | cons x xs ih =>
    obtain ⟨k, x⟩ := x
    intro mem vs h extra ys hcopy M hM
    simp only [pairs_of] at h
    cases hx : value1 mem x with
    | none => simp [hx] at h
    | some v =>
      cases hxs : pairs_of (value1 mem) xs with
      | none => simp [hx, hxs] at h
      | some ws =>
        obtain ⟨e1, y, hy1, _⟩ := hc mem x v hx
        have hxs1 : pairs_of (value1 (mem ++ e1)) xs = some ws :=
          pairs_of_congr xs (fun z _ w hw => hs mem (mem ++ e1) z.2 w hw
            (same_on_append_left mem e1)) ws hxs
        obtain ⟨e2, ys1, hys1, _⟩ := copy_map_spec value1 copy1 hs hc xs (mem ++ e1) ws hxs1
        simp only [copy_map, hy1, hys1, bind, Except.bind, pure, Except.pure,
          Except.ok.injEq, Prod.mk.injEq, List.append_assoc, List.append_cancel_left_eq]
          at hcopy
        obtain ⟨rfl, rfl⟩ := hcopy
        simp only [List.length_append] at hM
        have hM1 : same_on mem.length (mem.length + e1.length) M (mem ++ e1) := by
          intro p hp1 hp2
          rw [hM p hp1 (by omega), ← List.append_assoc,
            List.getElem?_append_left (by simp; omega)]
        obtain ⟨M1, hc1, hl1, hf1⟩ := hr mem x v hx e1 y hy1 M hM1
        have hM2 : same_on (mem ++ e1).length ((mem ++ e1).length + e2.length) M1
            (mem ++ e1 ++ e2) := by
          intro p hp1 hp2
          simp only [List.length_append] at hp1 hp2
          rw [hf1 p (Or.inr hp1), hM p (by omega) (by omega), List.append_assoc]
        obtain ⟨M2, hc2, hl2, hf2⟩ := ih (mem ++ e1) ws hxs1 e2 ys1 hys1 M1 hM2
        refine ⟨M2, by simp [destroy_all, hc1, hc2, bind, Except.bind], by omega, ?_⟩
        intro p hp
        simp only [List.length_append] at hp hf2
        rw [hf2 p (by omega), hf1 p (by omega)]

/-- `ClearInternal` on a copy made by the copy constructor succeeds in every memory that
holds the blocks of the copy, and changes no other block. -/
theorem ClearInternal_copy : ∀ fuel : Nat,
    Releases (value_of fuel) (copy_construct fuel) (ClearInternal fuel) := by
  intro fuel
  induction fuel with
  | zero => intro mem x v h; simp [value_of] at h
  | succ fuel ih =>
    intro mem x v h extra y hcopy M hM
    have hst : Stable (value_of fuel) := value_of_same fuel
    have hcs : Copies (value_of fuel) (copy_construct fuel) := copy_construct_spec fuel
    cases x with
    | object p =>
      simp only [value_of] at h
      cases hb : mem[p]? with
      | none => simp [hb] at h
      | some b =>
        cases b <;> simp only [hb, reduceCtorEq] at h
        rename_i m
        simp only [Option.map_eq_some'] at h
        obtain ⟨pm, h1, _⟩ := h
        obtain ⟨e1, m1, hc1, _⟩ := copy_map_spec _ _ hst hcs m mem pm h1
        simp only [copy_construct, hb, hc1, bind, Except.bind, pure, Except.pure,
          Except.ok.injEq, Prod.mk.injEq, List.append_assoc, List.append_cancel_left_eq]
          at hcopy
        obtain ⟨rfl, rfl⟩ := hcopy
        simp only [List.length_append, List.length_singleton] at hM
        have hg : M[(mem ++ e1).length]? = some (Block.map m1) := by
          rw [hM _ (by simp) (by simp), ← List.append_assoc,
            List.getElem?_append_right (le_refl _)]
          simp
        have hM1 : same_on mem.length (mem.length + e1.length) M (mem ++ e1) := by
          intro p hp1 hp2
          rw [hM p hp1 (by omega), ← List.append_assoc,
            List.getElem?_append_left (by simp; omega)]
        obtain ⟨M1, hd1, hl1, hf1⟩ :=
          copy_map_releases _ _ _ hst hcs ih m mem pm h1 e1 m1 hc1 M hM1
        refine ⟨M1.set (mem ++ e1).length Block.deleted, ?_, by simp [hl1], ?_⟩
        · simp only [ClearInternal, hg, hd1, bind, Except.bind, pure, Except.pure]
        · intro p hp
          simp only [List.length_append, List.length_singleton] at hp ⊢
          rw [List.getElem?_set_ne (by omega), hf1 p (by omega)]
    | array p =>
      simp only [value_of] at h
      cases hb : mem[p]? with
      | none => simp [hb] at h
      | some b =>
        cases b <;> simp only [hb, reduceCtorEq] at h
        rename_i l
        simp only [Option.map_eq_some'] at h
        obtain ⟨pm, h1, _⟩ := h
        obtain ⟨e1, l1, hc1, _⟩ := copy_deque_spec _ _ hst hcs l mem pm h1
        simp only [copy_construct, hb, hc1, bind, Except.bind, pure, Except.pure,
          Except.ok.injEq, Prod.mk.injEq, List.append_assoc, List.append_cancel_left_eq]
          at hcopy
        obtain ⟨rfl, rfl⟩ := hcopy
        simp only [List.length_append, List.length_singleton] at hM
        have hg : M[(mem ++ e1).length]? = some (Block.deque l1) := by
          rw [hM _ (by simp) (by simp), ← List.append_assoc,
            List.getElem?_append_right (le_refl _)]
          simp
        have hM1 : same_on mem.length (mem.length + e1.length) M (mem ++ e1) := by
          intro p hp1 hp2
          rw [hM p hp1 (by omega), ← List.append_assoc,
            List.getElem?_append_left (by simp; omega)]
        obtain ⟨M1, hd1, hl1, hf1⟩ :=
          copy_deque_releases _ _ _ hst hcs ih l mem pm h1 e1 l1 hc1 M hM1
        refine ⟨M1.set (mem ++ e1).length Block.deleted, ?_, by simp [hl1], ?_⟩
        · simp only [ClearInternal, hg, hd1, bind, Except.bind, pure, Except.pure]
        · intro p hp
          simp only [List.length_append, List.length_singleton] at hp ⊢
          rw [List.getElem?_set_ne (by omega), hf1 p (by omega)]
    | string p =>
      simp only [value_of] at h
      cases hb : mem[p]? with
      | none => simp [hb] at h
      | some b =>
        cases b <;> simp only [hb, reduceCtorEq] at h
        rename_i s
        simp only [copy_construct, hb, pure, Except.pure, Except.ok.injEq, Prod.mk.injEq,
          List.append_cancel_left_eq] at hcopy
        obtain ⟨rfl, rfl⟩ := hcopy
        simp only [List.length_singleton] at hM
        have hg : M[mem.length]? = some (Block.string s) := by
          rw [hM _ (le_refl _) (by omega)]
          simp
        refine ⟨M.set mem.length Block.deleted, ?_, by simp, ?_⟩
        · simp [ClearInternal, hg, pure, Except.pure]
        · intro p hp
          simp only [List.length_singleton] at hp
          rw [List.getElem?_set_ne (by omega)]
    | null =>
      simp only [copy_construct, pure, Except.pure, Except.ok.injEq, Prod.mk.injEq] at hcopy
      rw [← hcopy.2]
      exact ⟨M, by simp [ClearInternal, pure, Except.pure], rfl, fun _ _ => rfl⟩
    | floating f =>
      simp only [copy_construct, pure, Except.pure, Except.ok.injEq, Prod.mk.injEq] at hcopy
      rw [← hcopy.2]
      exact ⟨M, by simp [ClearInternal, pure, Except.pure], rfl, fun _ _ => rfl⟩
    | integral i =>
      simp only [copy_construct, pure, Except.pure, Except.ok.injEq, Prod.mk.injEq] at hcopy
      rw [← hcopy.2]
      exact ⟨M, by simp [ClearInternal, pure, Except.pure], rfl, fun _ _ => rfl⟩
    | boolean b =>
      simp only [copy_construct, pure, Except.pure, Except.ok.injEq, Prod.mk.injEq] at hcopy
      rw [← hcopy.2]
      exact ⟨M, by simp [ClearInternal, pure, Except.pure], rfl, fun _ _ => rfl⟩

/-- Copy assignment of a container to its own child reads what `ClearInternal` has
deleted with the container. -/
theorem copy_assign_child :
    copy_assign 3 copy_memory (Stored.object 2) (Stored.array 1) = .error Fault.undefined :=
  rfl

/-! ## The indented serializer writes the pretty form -/

/-- The padding of `dump` at a depth that is not negative. -/
theorem dump_pad_natCast (d : Nat) (tab : List Char) : dump_pad (d : Int) tab = indent d tab := by
  simp [dump_pad, indent]

/-- With an indent unit of two characters, the indentation without its first two
characters is the indentation of the depth before. -/
theorem indent_drop_two (d : Nat) (tab : List Char) (h : tab.length = 2) :
    (indent d tab).drop 2 = indent (d - 1) tab := by
  cases d with
  | zero => simp [indent]
  | succ d =>
    simp only [indent, List.replicate_succ, List.flatten_cons, Nat.add_sub_cancel]
    rw [← h, List.drop_left]

/-- The loop of `dump` over the pairs of an Object writes them as the pretty form says,
when the children are written so. -/
theorem dump_map_pretty (to_string_f : LongDouble → List Char) (d : Nat) (tab pad : List Char)
    (hpad : pad = indent d tab) (m : List (List Char × JSON)) :
    (∀ p ∈ m, JSON.dump to_string_f ((d + 1 : Nat) : Int) tab p.2
        = .ok (JSON.pretty_form to_string_f (d + 1) tab p.2)) →
    (m ≠ [] → d + 1 < 2147483648) →
    ∀ (s : List Char) (skip : Bool),
      dump_map to_string_f (d : Int) tab pad m s skip
        = .ok (s ++ pretty_pairs to_string_f d tab skip m) := by
  induction m with
  | nil => intro _ _ s skip; simp [dump_map, pretty_pairs, pure, Except.pure]
  | cons p m ih =>
    intro hc hd s skip
    have hd1 := hd (by simp)
    have hne : ¬ ((d : Int) = 2147483647) := by omega
    have hcast : ((d : Int) + 1) = ((d + 1 : Nat) : Int) := by push_cast; rfl
    rw [dump_map]
    simp only [if_neg hne, hcast, hc p (by simp), bind, Except.bind]
    rw [ih (fun q hq => hc q (by simp [hq])) (fun _ => hd1)]
    cases skip <;> simp [pretty_pairs, hpad]

/-- The loop of `dump` over the elements of an Array writes them as the pretty form
says, when the children are written so. -/
theorem dump_list_pretty (to_string_f : LongDouble → List Char) (d : Nat) (tab : List Char)
    (l : List JSON) :
    (∀ p ∈ l, JSON.dump to_string_f ((d + 1 : Nat) : Int) tab p
        = .ok (JSON.pretty_form to_string_f (d + 1) tab p)) →
    (l ≠ [] → d + 1 < 2147483648) →
    ∀ (s : List Char) (skip : Bool),
      dump_list to_string_f (d : Int) tab l s skip
        = .ok (s ++ pretty_elements to_string_f d tab skip l) := by
  induction l with
  | nil => intro _ _ s skip; simp [dump_list, pretty_elements, pure, Except.pure]
  | cons p l ih =>
    intro hc hd s skip
    have hd1 := hd (by simp)
    have hne : ¬ ((d : Int) = 2147483647) := by omega
    have hcast : ((d : Int) + 1) = ((d + 1 : Nat) : Int) := by push_cast; rfl
    rw [dump_list]
    simp only [if_neg hne, hcast, hc p (by simp), bind, Except.bind]
    rw [ih (fun q hq => hc q (by simp [hq])) (fun _ => hd1)]
    cases skip <;> simp [pretty_elements]

/-- With an indent unit of two characters `dump` writes the pretty form, as long as
the depth of the deepest child fits an `int`. -/
theorem dump_pretty (to_string_f : LongDouble → List Char) (tab : List Char)
    (htab : tab.length = 2) :
    ∀ (v : JSON) (d : Nat), d + v.depth ≤ 2147483648 →
      JSON.dump to_string_f (d : Int) tab v = .ok (JSON.pretty_form to_string_f d tab v) := by
  apply JSON.induct
  · intro d _; rfl
  · intro m ih d hd
    simp only [JSON.depth] at hd
    rw [JSON.dump, dump_map_pretty to_string_f d tab _ (dump_pad_natCast d tab) m
      (fun p hp => ih p hp (d + 1) (by have := depth_map_mem hp; omega))
      (fun hne => by
        obtain ⟨p, m', rfl⟩ := List.exists_cons_of_ne_nil hne
        have := depth_map_mem (List.mem_cons_self p m')
        have := one_le_depth p.2
        omega)]
    simp [bind, Except.bind, pure, Except.pure, JSON.pretty_form, dump_pad_natCast,
      indent_drop_two d tab htab]
  · intro l ih d hd
    simp only [JSON.depth] at hd
    rw [JSON.dump, dump_list_pretty to_string_f d tab l
      (fun p hp => ih p hp (d + 1) (by have := depth_list_mem hp; omega))
      (fun hne => by
        obtain ⟨p, l', rfl⟩ := List.exists_cons_of_ne_nil hne
        have := depth_list_mem (List.mem_cons_self p l')
        have := one_le_depth p
        omega)]
    simp [bind, Except.bind, pure, Except.pure, JSON.pretty_form]
  · intro s d _; rfl
  · intro f d _; rfl
  · intro i d _; rfl
  · intro b d _; rfl

/-- The loop of `dump` over the pairs of an Object only appends to the text. -/
theorem dump_map_prefix (to_string_f : LongDouble → List Char) (depth : Int)
    (tab pad : List Char) (m : List (List Char × JSON)) :
    ∀ (s : List Char) (skip : Bool) (r : List Char),
      dump_map to_string_f depth tab pad m s skip = .ok r → ∃ body, r = s ++ body := by
  induction m with
  | nil =>
    intro s skip r h
    simp only [dump_map, pure, Except.pure, Except.ok.injEq] at h
    exact ⟨[], by simp [h]⟩
  | cons p m ih =>
    intro s skip r h
    obtain ⟨t, ht⟩ : ∃ t, (if !skip then s ++ ",\n".toList else s) = s ++ t := by
      cases skip
      · exact ⟨",\n".toList, rfl⟩
      · exact ⟨[], by simp⟩
    rw [dump_map] at h
    simp only [bind, Except.bind, ht] at h
    by_cases hd : depth = 2147483647
    · rw [if_pos hd] at h
      cases h
    · rw [if_neg hd] at h
      cases hv : JSON.dump to_string_f (depth + 1) tab p.2 with
      | error e => simp [hv] at h
      | ok value =>
        simp only [hv] at h
        obtain ⟨body, hb⟩ := ih _ _ _ h
        exact ⟨t ++ (pad ++ '"' :: p.1 ++ "\" : ".toList ++ value) ++ body, by
          rw [hb]; simp only [List.append_assoc]⟩

/-! ## Segments with a dot -/

/-- The keys of a path that starts with the directories `ds`. -/
theorem path_keys_directories_then (ds : List (List Char)) (tail : List Char)
    (hds : ∀ d ∈ ds, d ≠ [] ∧ '.' ∉ d ∧ '/' ∉ d) :
    path_keys [] ((ds.map (fun d => d ++ ['/'])).flatten ++ tail)
      = (ds.map (fun d => [d, "files".toList])).flatten ++ path_keys [] tail := by
  induction ds with
  | nil => simp
  | cons d ds ih =>
    obtain ⟨h1, h2, h3⟩ := hds d (by simp)
    have := path_keys_first d ((ds.map (fun d => d ++ ['/'])).flatten ++ tail) h3 []
    simp only [List.nil_append] at this
    simp only [List.map_cons, List.flatten_cons, List.append_assoc, List.singleton_append,
      List.cons_append, List.nil_append]
    rw [this, ih (fun e he => hds e (by simp [he]))]
    simp [segment_keys, h1, h2]

/-- The keys of a segment: none, the segment (which has a dot), or the segment (which
has none) and `files`. -/
theorem segment_keys_cases (s : List Char) :
    segment_keys s = [] ∨ (segment_keys s = [s] ∧ '.' ∈ s)
      ∨ (segment_keys s = [s, "files".toList] ∧ '.' ∉ s) := by
  unfold segment_keys
  by_cases h1 : s = []
  · simp [h1]
  · by_cases h2 : '.' ∈ s
    · simp [h1, h2]
    · simp [h1, h2]

/-- No path has the keys `files`, `a` behind a directory with a dot. -/
theorem path_keys_ne_files_a : ∀ (n : Nat) (path : List Char), path.length = n →
    path_keys [] path ≠ ["files".toList, "a".toList] := by
  intro n
  induction n using Nat.strong_induction_on with
  | _ n ih =>
    intro path hn
    rcases first_slash path with h | ⟨s, rest, rfl, h⟩
    · rw [path_keys_of_not_mem path h]
      simp
    · have hk := path_keys_first s rest h []
      simp only [List.nil_append] at hk
      rw [hk]
      have hl : rest.length < n := by rw [← hn]; simp; omega
      rcases segment_keys_cases s with h0 | ⟨h1, hdot⟩ | ⟨h2, -⟩
      · rw [h0]
        exact ih _ hl rest rfl
      · rw [h1]
        intro he
        have : s = "files".toList := by simpa using (List.cons.inj he).1
        rw [this] at hdot
        revert hdot
        decide
      · rw [h2]
        intro he
        have h3 := (List.cons.inj he).2
        have h4 := (List.cons.inj h3).1
        revert h4
        decide

/-- No path has the keys `v1.0`, `files`, `a`. -/
theorem path_keys_ne_dotted : ∀ (n : Nat) (path : List Char), path.length = n →
    path_keys [] path ≠ ["v1.0".toList, "files".toList, "a".toList] := by
  intro n
  induction n using Nat.strong_induction_on with
  | _ n ih =>
    intro path hn
    rcases first_slash path with h | ⟨s, rest, rfl, h⟩
    · rw [path_keys_of_not_mem path h]
      simp
    · have hk := path_keys_first s rest h []
      simp only [List.nil_append] at hk
      rw [hk]
      have hl : rest.length < n := by rw [← hn]; simp; omega
      rcases segment_keys_cases s with h0 | ⟨h1, -⟩ | ⟨h2, hdot⟩
      · rw [h0]
        exact ih _ hl rest rfl
      · rw [h1]
        intro he
        exact path_keys_ne_files_a _ rest rfl (List.cons.inj he).2
      · rw [h2]
        intro he
        have : s = "v1.0".toList := by simpa using (List.cons.inj he).1
        rw [this] at hdot
        revert hdot
        decide

/-! ## Lookups of what is there -/

/-- The value of a pair of an Object that satisfies the invariant satisfies it. -/
theorem ordered_map_mem {m : List (List Char × JSON)} (h : ordered_map m)
    {p : List Char × JSON} (hp : p ∈ m) : p.2.ordered := by
  induction m with
  | nil => cases hp
  | cons q m ih =>
    rw [ordered_map] at h
    rcases List.mem_cons.1 hp with rfl | hp
    · exact h.2.1
    · exact ih h.2.2 hp

/-- The keys of an Object that satisfies the invariant are ascending. -/
theorem ordered_map_pairwise {m : List (List Char × JSON)} (h : ordered_map m) :
    m.Pairwise key_lt := by
  induction m with
  | nil => exact List.Pairwise.nil
  | cons q m ih =>
    rw [ordered_map] at h
    exact List.pairwise_cons.2 ⟨h.1, ih h.2.2⟩

/-- Assigning to a key the value it has leaves a map with ascending keys as it is. -/
theorem map_assign_same (m : List (List Char × JSON)) (h : m.Pairwise key_lt)
    (k : List Char) (c : JSON) (hf : map_find m k = some c) : map_assign m k c = m := by
  induction m with
  | nil => cases hf
  | cons p m ih =>
    obtain ⟨k0, v0⟩ := p
    rw [List.pairwise_cons] at h
    rw [map_assign]
    by_cases hk : k0 = k
    · subst hk
      simp only [map_find, if_true] at hf
      cases hf
      simp [str_lt_irrefl]
    · simp only [map_find, if_neg hk] at hf
      have hlt : str_lt k0 k = true := h.1 (k, c) (map_find_mem hf)
      have hnot : str_lt k k0 = false := str_lt_asymm _ _ hlt
      simp [hnot, hlt, ih h.2 hf]

/-- Replacing the node behind a pointer by itself leaves the value as it is. -/
theorem update_at_same (f : JSON → JSON) (address : List (List Char)) :
    ∀ (root n : JSON), root.ordered → node_at root address = some n → f n = n →
      update_at f root address = root := by
  induction address with
  | nil =>
    intro root n _ h hf
    simp only [node_at] at h
    cases h
    simpa [update_at] using hf
  | cons k ks ih =>
    intro root n ho h hf
    cases root with
    | object m =>
      simp only [node_at] at h
      cases hm : map_find m k with
      | none => rw [hm] at h; cases h
      | some c =>
        rw [hm] at h
        simp only [JSON.ordered] at ho
        have hc : c.ordered := ordered_map_mem ho (map_find_mem hm)
        simp only [update_at, hm, ih c n hc h hf,
          map_assign_same m (ordered_map_pairwise ho) k c hm]
    | _ => simp [node_at] at h

/-- A lookup of a key that is there changes nothing. -/
theorem at_address_same (root : JSON) (address : List (List Char)) (k : List Char)
    (n c : JSON) (ho : root.ordered) (h : node_at root address = some n)
    (hc : child n k = some c) :
    at_address root address k = (root, address ++ [k]) := by
  have hn : n.subscript_key k = n := by
    cases n <;> simp only [child, reduceCtorEq] at hc
    exact subscript_key_of_find hc
  simp only [at_address,
    update_at_same (fun n => n.subscript_key k) address root n ho h hn]

/-- Lookups along a chain of keys that is in the value change nothing. -/
theorem walk_same (keys : List (List Char)) :
    ∀ (root : JSON) (address : List (List Char)) (n n1 : JSON), root.ordered →
      node_at root address = some n → node_at n keys = some n1 →
      walk root address keys = (root, address ++ keys) := by
  induction keys with
  | nil => intro root address n n1 _ _ _; simp [walk]
  | cons k ks ih =>
    intro root address n n1 ho h h1
    rw [node_at_cons] at h1
    cases hc : child n k with
    | none => rw [hc] at h1; cases h1
    | some c =>
      rw [hc] at h1
      have hw : walk root address (k :: ks)
          = walk (at_address root address k).1 (at_address root address k).2 ks := rfl
      have hn : node_at root (address ++ [k]) = some c := by
        rw [node_at_append, h]
        simp only [Option.bind]
        rw [node_at_cons, hc]
        simp [Option.bind, node_at]
      rw [hw, at_address_same root address k n c ho h hc]
      simp only
      rw [ih root (address ++ [k]) c n1 ho hn h1]
      simp

/-- A lookup of a path whose chain of keys is in the header returns the object as it
was. -/
theorem resolve_asar_path_same (a : Asar) (path : List Char) (n : JSON)
    (hlen : path.length < 2147483648) (ho : a.header.ordered)
    (hn : node_at a.header (lookup_keys path) = some n) :
    a.resolve_asar_path path = .ok (a, lookup_keys path) := by
  rw [resolve_asar_path_walk a path hlen,
    walk_same (lookup_keys path) a.header [] a.header n ho (by simp [node_at]) hn]
  cases a
  rfl

/-! ## The elements and members read before an error -/

/-- A value returned by `parse_next` was read inside the text. -/
theorem parse_next_ok_le {fuel : Nat} {str : List Char} {offset : Nat} {r : JSON × Nat}
    (h : parse_next fuel str offset = .ok r) : offset ≤ str.length := by
  cases fuel with
  | zero => simp [parse_next] at h
  | succ fuel =>
    rw [parse_next] at h
    cases hc : consume_ws str offset with
    | error e => simp [hc, bind, Except.bind] at h
    | ok o =>
      exact le_trans ((consume_ws_spec str offset).2 o hc).1
        ((consume_ws_spec str offset).2 o hc).2

/-- A value returned by `parse_next` with fuel for the rest of the text leaves the offset
at or behind the one it started from. -/
theorem parse_next_ok_mono {fuel : Nat} {str : List Char} {offset : Nat} {v : JSON} {o : Nat}
    (hf : str.length + 1 ≤ fuel + offset) (h : parse_next fuel str offset = .ok (v, o)) :
    offset ≤ o :=
  (parse_next_advances str fuel offset (parse_next_ok_le h) hf).2 v o h

/-- The elements end at or behind the offset they start from. -/
theorem elements_le {next : List Char → Nat → Except Fault (JSON × Nat)} {str : List Char}
    {base : Nat} (hmono : ∀ o v o1, base ≤ o → next str o = .ok (v, o1) → o ≤ o1)
    {offset : Nat} {values : List JSON} {stop : Nat}
    (h : Elements next str offset values stop) : base ≤ offset → offset ≤ stop := by
  induction h with
  | last offset o1 stop value h1 h2 =>
    intro hb
    have := hmono _ _ _ hb h1
    have := ((consume_ws_spec str o1).2 stop h2).1
    omega
  | more offset o1 o2 stop value values h1 h2 h3 _ ih =>
    intro hb
    have := hmono _ _ _ hb h1
    have := ((consume_ws_spec str o1).2 o2 h2).1
    have := ih (by omega)
    omega

/-- The loop of `parse_array` on elements behind which neither a comma nor `]` stands:
the result is a fresh empty Array, at the offset of the unexpected character. -/
theorem parse_array_loop_elements {next : List Char → Nat → Except Fault (JSON × Nat)}
    {str : List Char} {base : Nat}
    (hmono : ∀ o v o1, base ≤ o → next str o = .ok (v, o1) → o ≤ o1)
    {c : Char} (hc1 : c ≠ ',') (hc2 : c ≠ ']')
    {offset : Nat} {values : List JSON} {stop : Nat}
    (h : Elements next str offset values stop) :
    ∀ (fuel : Nat) (acc : List JSON), base ≤ offset → stop - offset < fuel →
      acc.length + values.length < 4294967296 → charAt str stop = .ok c →
      parse_array_loop next fuel str offset (JSON.array acc) acc.length
        = .ok (JSON.array [], stop) := by
  induction h with
  | last offset o1 stop value h1 h2 =>
    intro fuel acc hb hf hlen hstop
    obtain ⟨f, rfl⟩ : ∃ f, fuel = f + 1 := ⟨fuel - 1, by omega⟩
    rw [parse_array_loop]
    simp only [h1, bind, Except.bind, assign_index_append acc value (by simpa using hlen), h2,
      hstop, if_neg hc1, if_neg hc2, pure, Except.pure]
    rfl
  | more offset o1 o2 stop value values h1 h2 h3 h4 ih =>
    intro fuel acc hb hf hlen hstop
    obtain ⟨f, rfl⟩ : ∃ f, fuel = f + 1 := ⟨fuel - 1, by omega⟩
    have m1 := hmono _ _ _ hb h1
    have m2 := ((consume_ws_spec str o1).2 o2 h2).1
    have m3 := elements_le hmono h4 (by omega)
    simp only [List.length_cons] at hlen
    have hidx : (acc.length + 1) % 4294967296 = (acc ++ [value]).length := by
      rw [Nat.mod_eq_of_lt (by omega)]; simp
    rw [parse_array_loop]
    simp only [h1, bind, Except.bind, assign_index_append acc value (by omega), h2, h3,
      if_true, hidx]
    exact ih f (acc ++ [value]) (by omega) (by omega) (by simp; omega) hstop

/-- The members end at or behind the offset they start from. -/
theorem members_le {next : List Char → Nat → Except Fault (JSON × Nat)} {str : List Char}
    {base : Nat} (hmono : ∀ o v o1, base ≤ o → next str o = .ok (v, o1) → o ≤ o1)
    {offset : Nat} {members : List (JSON × JSON)} {stop : Nat}
    (h : Members next str offset members stop) : base ≤ offset → offset ≤ stop := by
  induction h with
  | last offset o1 o2 o3 o4 stop Key Value h1 h2 h3 h4 h5 h6 =>
    intro hb
    have := hmono _ _ _ hb h1
    have := ((consume_ws_spec str o1).2 o2 h2).1
    have := ((consume_ws_spec str (o2 + 1)).2 o3 h4).1
    have := hmono _ _ _ (by omega) h5
    have := ((consume_ws_spec str o4).2 stop h6).1
    omega
  | more offset o1 o2 o3 o4 o5 stop Key Value members h1 h2 h3 h4 h5 h6 h7 _ ih =>
    intro hb
    have := hmono _ _ _ hb h1
    have := ((consume_ws_spec str o1).2 o2 h2).1
    have := ((consume_ws_spec str (o2 + 1)).2 o3 h4).1
    have := hmono _ _ _ (by omega) h5
    have := ((consume_ws_spec str o4).2 o5 h6).1
    have := ih (by omega)
    omega

/-- The loop of `parse_object` on members behind which neither a comma nor a closing
brace stands: the result is the Object with the members assigned so far, at the offset
of the unexpected character. -/
theorem parse_object_loop_members {next : List Char → Nat → Except Fault (JSON × Nat)}
    {str : List Char} {base : Nat}
    (hmono : ∀ o v o1, base ≤ o → next str o = .ok (v, o1) → o ≤ o1)
    {c : Char} (hc1 : c ≠ ',') (hc2 : c ≠ '\x7d')
    {offset : Nat} {members : List (JSON × JSON)} {stop : Nat}
    (h : Members next str offset members stop) :
    ∀ (fuel : Nat) (Object : JSON), base ≤ offset → stop - offset < fuel →
      charAt str stop = .ok c →
      parse_object_loop next fuel str offset Object
        = .ok (assign_members Object members, stop) := by
  induction h with
  | last offset o1 o2 o3 o4 stop Key Value h1 h2 h3 h4 h5 h6 =>
    intro fuel Object hb hf hstop
    obtain ⟨f, rfl⟩ : ∃ f, fuel = f + 1 := ⟨fuel - 1, by omega⟩
    rw [parse_object_loop]
    simp only [h1, h2, h3, h4, h5, h6, hstop, bind, Except.bind, ne_eq, not_true_eq_false,
      if_false, if_neg hc1, if_neg hc2, pure, Except.pure]
    rfl
  | more offset o1 o2 o3 o4 o5 stop Key Value members h1 h2 h3 h4 h5 h6 h7 h8 ih =>
    intro fuel Object hb hf hstop
    obtain ⟨f, rfl⟩ : ∃ f, fuel = f + 1 := ⟨fuel - 1, by omega⟩
    have := hmono _ _ _ hb h1
    have := ((consume_ws_spec str o1).2 o2 h2).1
    have := ((consume_ws_spec str (o2 + 1)).2 o3 h4).1
    have := hmono _ _ _ (by omega) h5
    have := ((consume_ws_spec str o4).2 o5 h6).1
    have := members_le hmono h8 (by omega)
    rw [parse_object_loop]
    simp only [h1, h2, h3, h4, h5, h6, h7, bind, Except.bind, ne_eq, not_true_eq_false,
      if_false, if_true]
    exact ih f _ (by omega) (by omega) hstop

/-! ## The parser reads the texts of the grammar -/

/-- `consume_ws` passes over white space up to a character that is none. -/
theorem consume_ws_skip {str : List Char} {offset : Nat} (ws : List Char) (c : Char)
    (tail : List Char) (hws : ∀ w ∈ ws, isspace w = true) (hc : isspace c = false)
    (hd : str.drop offset = ws ++ c :: tail) :
    consume_ws str offset = .ok (offset + ws.length) := by
  have hle : offset ≤ str.length := by
    by_contra hn
    rw [List.drop_eq_nil_of_le (by omega)] at hd
    simp at hd
  exact consume_ws_run ws (c :: tail) hws hc hle hd

/-- `parse_next` starts by passing over white space. -/
theorem parse_next_skip {str : List Char} {offset : Nat} (ws : List Char) (c : Char)
    (tail : List Char) (hws : ∀ w ∈ ws, isspace w = true) (hc : isspace c = false)
    (hd : str.drop offset = ws ++ c :: tail) (fuel : Nat) :
    parse_next fuel str offset = parse_next fuel str (offset + ws.length) := by
  cases fuel with
  | zero => rfl
  | succ fuel =>
    rw [parse_next, parse_next, consume_ws_skip ws c tail hws hc hd,
      consume_ws_of_drop (drop_add_of_drop hd) hc]

/-- The escape switch of `parse_string` for a character other than `u`. -/
theorem escape_value_step (e : Char) (he : e ≠ 'u') (fuel : Nat) (str : List Char)
    (offset : Nat) (val : List Char) (x : Except Fault (JSON × Nat)) :
    (if e = '"' then parse_string_loop fuel str offset (val ++ ['"'])
      else if e = '\\' then parse_string_loop fuel str offset (val ++ ['\\'])
      else if e = '/' then parse_string_loop fuel str offset (val ++ ['/'])
      else if e = 'b' then parse_string_loop fuel str offset (val ++ ['\x08'])
      else if e = 'f' then parse_string_loop fuel str offset (val ++ ['\x0c'])
      else if e = 'n' then parse_string_loop fuel str offset (val ++ ['\n'])
      else if e = 'r' then parse_string_loop fuel str offset (val ++ ['\r'])
      else if e = 't' then parse_string_loop fuel str offset (val ++ ['\t'])
      else if e = 'u' then x
      else parse_string_loop fuel str offset (val ++ ['\\']))
      = parse_string_loop fuel str offset (val ++ [escape_value e]) := by
  unfold escape_value
  split_ifs <;> rfl

/-- The loop of `parse_string` on the characters of a string literal followed by the
closing quote. -/
theorem parse_string_loop_chars {body val : List Char} (h : CharsText body val) :
    ∀ (fuel : Nat) (str : List Char) (offset : Nat) (val0 rest : List Char),
      str.drop (offset + 1) = body ++ '"' :: rest → body.length < fuel →
      parse_string_loop fuel str offset val0
        = .ok (JSON.string (val0 ++ val), offset + 1 + body.length + 1) := by
  induction h with
  | nil =>
    intro fuel str offset val0 rest hd hf
    obtain ⟨f, rfl⟩ : ∃ f, fuel = f + 1 := ⟨fuel - 1, by simp at hf; omega⟩
    simp only [List.nil_append] at hd
    simp [parse_string_loop, charAt_of_drop hd, bind, Except.bind, pure, Except.pure]
  | char c body val h1 h2 _ ih =>
    intro fuel str offset val0 rest hd hf
    obtain ⟨f, rfl⟩ : ∃ f, fuel = f + 1 := ⟨fuel - 1, by simp at hf; omega⟩
    have hd0 : str.drop (offset + 1) = c :: (body ++ '"' :: rest) := hd
    have hd1 := drop_succ_of_drop hd0
    rw [parse_string_loop]
    simp only [charAt_of_drop hd0, bind, Except.bind, if_neg h1, if_neg h2]
    rw [ih f str (offset + 1) _ rest hd1 (by simp at hf; omega)]
    simp
    omega
  | escape e body val he _ ih =>
    intro fuel str offset val0 rest hd hf
    obtain ⟨f, rfl⟩ : ∃ f, fuel = f + 1 := ⟨fuel - 1, by simp at hf; omega⟩
    have hd0 : str.drop (offset + 1) = '\\' :: e :: (body ++ '"' :: rest) := hd
    have hd1 := drop_succ_of_drop hd0
    have hd2 := drop_succ_of_drop hd1
    rw [parse_string_loop]
    simp only [charAt_of_drop hd0, charAt_of_drop hd1, bind, Except.bind,
      show ('\\' : Char) ≠ '"' by decide, if_false, if_true]
    rw [escape_value_step e he, ih f str (offset + 1 + 1) _ rest hd2 (by simp at hf; omega)]
    simp
    omega
  | unicode h1 h2 h3 h4 body val x1 x2 x3 x4 _ ih =>
    intro fuel str offset val0 rest hd hf
    obtain ⟨f, rfl⟩ : ∃ f, fuel = f + 1 := ⟨fuel - 1, by simp at hf; omega⟩
    have hd0 : str.drop (offset + 1)
        = '\\' :: 'u' :: h1 :: h2 :: h3 :: h4 :: (body ++ '"' :: rest) := hd
    have hd1 := drop_succ_of_drop hd0
    have hd2 := drop_succ_of_drop hd1
    have hd3 := drop_succ_of_drop hd2
    have hd4 := drop_succ_of_drop hd3
    have hd5 := drop_succ_of_drop hd4
    have hd6 := drop_succ_of_drop hd5
    have hhex : parse_string_hex str (offset + 1 + 1) 4 1 (val0 ++ ['\\', 'u'])
        = .ok (some (val0 ++ ['\\', 'u'] ++ [h1] ++ [h2] ++ [h3] ++ [h4])) := by
      simp only [parse_string_hex, charAt_of_drop hd2, charAt_of_drop hd3,
        charAt_of_drop hd4, charAt_of_drop hd5, bind, Except.bind, x1, x2, x3, x4, if_true,
        pure, Except.pure]
    rw [parse_string_loop]
    simp only [charAt_of_drop hd0, charAt_of_drop hd1, bind, Except.bind,
      show ('\\' : Char) ≠ '"' by decide, show ('u' : Char) ≠ '"' by decide,
      show ('u' : Char) ≠ '\\' by decide, show ('u' : Char) ≠ '/' by decide,
      show ('u' : Char) ≠ 'b' by decide, show ('u' : Char) ≠ 'f' by decide,
      show ('u' : Char) ≠ 'n' by decide, show ('u' : Char) ≠ 'r' by decide,
      show ('u' : Char) ≠ 't' by decide, if_false, if_true, hhex]
    rw [ih f str (offset + 1 + 1 + 4) _ rest hd6 (by simp at hf; omega)]
    simp
    omega

/-- `parse_string` on a string literal, whatever follows it. -/
theorem parse_string_chars {body val : List Char} (h : CharsText body val)
    {str : List Char} {offset : Nat} {rest : List Char}
    (hd : str.drop offset = '"' :: (body ++ '"' :: rest)) :
    parse_string str offset = .ok (JSON.string val, offset + (body.length + 2)) := by
  have hlen := congrArg List.length hd
  simp only [List.length_drop, List.length_cons, List.length_append] at hlen
  unfold parse_string
  rw [parse_string_loop_chars h _ str offset [] rest (drop_succ_of_drop hd) (by omega)]
  simp
  omega

/-- A digit is no point and no sign. -/
theorem isdigit_ne {x : Char} (h : isdigit x = true) : x ≠ '.' ∧ x ≠ '-' := by
  constructor <;> (rintro rfl; revert h; decide)

/-- The mantissa loop of `parse_number` on a run of digits, `-` and `.` ended by `c`:
`isDouble` is set when there is a point. -/
theorem parse_number_mantissa_point (mant : List Char) :
    ∀ (fuel : Nat) (str : List Char) (offset : Nat) (val : List Char) (isDouble : Bool)
      (c : Char) (rest : List Char),
      str.drop offset = mant ++ c :: rest →
      (∀ x ∈ mant, x = '-' ∨ isdigit x = true ∨ x = '.') →
      c ≠ '-' → isdigit c = false → c ≠ '.' → mant.length < fuel →
      parse_number_mantissa fuel str offset val isDouble
        = .ok (c, offset + mant.length + 1, val ++ mant, isDouble || decide ('.' ∈ mant)) := by
  induction mant with
  | nil =>
    intro fuel str offset val isDouble c rest hd _ h1 h2 h3 hf
    obtain ⟨f, rfl⟩ : ∃ f, fuel = f + 1 := ⟨fuel - 1, by simp at hf; omega⟩
    simp only [List.nil_append] at hd
    rw [parse_number_mantissa]
    simp [charAt_of_drop hd, bind, Except.bind, pure, Except.pure, h1, h2, h3]
  | cons x mant ih =>
    intro fuel str offset val isDouble c rest hd hm h1 h2 h3 hf
    obtain ⟨f, rfl⟩ : ∃ f, fuel = f + 1 := ⟨fuel - 1, by simp at hf; omega⟩
    have hf2 : mant.length < f := by simp at hf; omega
    have hd0 : str.drop offset = x :: (mant ++ c :: rest) := by simpa using hd
    have hd1 := drop_succ_of_drop hd0
    have hm' : ∀ y ∈ mant, y = '-' ∨ isdigit y = true ∨ y = '.' :=
      fun y hy => hm y (by simp [hy])
    rw [parse_number_mantissa]
    by_cases hx : x = '.'
    · subst hx
      simp only [charAt_of_drop hd0, bind, Except.bind,
        show (('.' : Char) = '-' || isdigit '.') = false by decide, Bool.false_eq_true,
        if_false, if_true]
      rw [ih f str (offset + 1) _ true c rest hd1 hm' h1 h2 h3 hf2]
      simp
      omega
    · have hx' : (x = '-' || isdigit x) = true := by
        rcases hm x (by simp) with h | h | h
        · simp [h]
        · simp [h]
        · exact absurd h hx
      simp only [charAt_of_drop hd0, bind, Except.bind, hx', if_true]
      rw [ih f str (offset + 1) _ isDouble c rest hd1 hm' h1 h2 h3 hf2]
      simp [Ne.symm hx]
      omega

/-- The exponent loop of `parse_number` on a run of digits ended by a character that
ends a number. -/
theorem parse_number_exponent_run (ds : List Char) :
    ∀ (fuel : Nat) (str : List Char) (offset : Nat) (exp_str : List Char)
      (c : Char) (rest : List Char),
      str.drop offset = ds ++ c :: rest → (∀ d ∈ ds, isdigit d = true) →
      not_terminator c = false → ds.length < fuel →
      parse_number_exponent fuel str offset exp_str
        = .ok (some (exp_str ++ ds), offset + ds.length + 1) := by
  induction ds with
  | nil =>
    intro fuel str offset exp_str c rest hd _ hc hf
    obtain ⟨f, rfl⟩ : ∃ f, fuel = f + 1 := ⟨fuel - 1, by simp at hf; omega⟩
    simp only [List.nil_append] at hd
    rw [parse_number_exponent]
    simp [charAt_of_drop hd, bind, Except.bind, pure, Except.pure, (terminator_facts hc).2.1, hc]
  | cons d ds ih =>
    intro fuel str offset exp_str c rest hd hds hc hf
    obtain ⟨f, rfl⟩ : ∃ f, fuel = f + 1 := ⟨fuel - 1, by simp at hf; omega⟩
    have hd0 : str.drop offset = d :: (ds ++ c :: rest) := by simpa using hd
    have hd1 := drop_succ_of_drop hd0
    rw [parse_number_exponent]
    simp only [charAt_of_drop hd0, bind, Except.bind, hds d (by simp), if_true]
    rw [ih f str (offset + 1) _ c rest hd1 (fun y hy => hds y (by simp [hy])) hc
      (by simp at hf; omega)]
    simp
    omega

/-- The end of `parse_number` gives the value of `number_value`, one character back. -/
theorem parse_number_value_eq (val exp_str : List Char) (exp : Int) (offset : Nat) :
    parse_number_value val exp_str (decide ('.' ∈ val)) exp (offset + 1)
      = (number_value val exp_str exp).map (fun v => (v, offset)) := by
  unfold number_value parse_number_value
  simp only [Nat.add_sub_cancel]
  split_ifs
  · cases stoll val <;> rfl
  · cases stoll val <;> rfl
  · cases stold val <;> rfl
  · cases stold val <;> rfl

/-- `parse_number` on the text of a number followed by a character that ends it. -/
theorem parse_number_text {s : List Char} {r : Except Fault JSON} (h : NumberText s r)
    {str : List Char} {offset : Nat} (t : Char) (rest : List Char)
    (hd : str.drop offset = s ++ t :: rest) (ht : not_terminator t = false) :
    parse_number str offset = r.map (fun v => (v, offset + s.length)) := by
  obtain ⟨t1, t2, t3, t4, t5⟩ := terminator_facts ht
  have hlen := congrArg List.length hd
  simp only [List.length_drop, List.length_cons, List.length_append] at hlen
  cases h with
  | plain c m hc hm =>
    have hall : ∀ x ∈ c :: m, x = '-' ∨ isdigit x = true ∨ x = '.' := by
      intro x hx
      rcases List.mem_cons.1 hx with rfl | hx
      · rcases hc with h | h
        · exact Or.inl h
        · exact Or.inr (Or.inl h)
      · exact hm x hx
    have hrun := parse_number_mantissa_point (c :: m) (str.length - offset + 1) str offset []
      false t rest hd hall t1 t2 t3 (by simp only [List.length_cons] at hlen ⊢; omega)
    unfold parse_number
    simp only [hrun, bind, Except.bind, t4, t5, ht, decide_False, Bool.or_self,
      Bool.false_eq_true, if_false, List.nil_append, Bool.false_or]
    exact parse_number_value_eq (c :: m) [] 0 (offset + (c :: m).length)
  | exponent c m e sg ds hc hm he hsg hds =>
    have hall : ∀ x ∈ c :: m, x = '-' ∨ isdigit x = true ∨ x = '.' := by
      intro x hx
      rcases List.mem_cons.1 hx with rfl | hx
      · rcases hc with h | h
        · exact Or.inl h
        · exact Or.inr (Or.inl h)
      · exact hm x hx
    have hd' : str.drop offset = (c :: m) ++ e :: (sg :: (ds ++ t :: rest)) := by
      rw [hd]; simp
    have e1 : e ≠ '-' ∧ isdigit e = false ∧ e ≠ '.' := by
      rcases he with rfl | rfl <;> decide
    have hE : (e = 'E' || e = 'e') = true := by rcases he with h | h <;> simp [h]
    have hsg' : sg ≠ '-' := by
      rcases hsg with rfl | h
      · decide
      · exact (isdigit_ne h).2
    simp only [List.length_cons, List.length_append] at hlen
    have hrun := parse_number_mantissa_point (c :: m) (str.length - offset + 1) str offset []
      false e _ hd' hall e1.1 e1.2.1 e1.2.2 (by simp only [List.length_cons]; omega)
    have hd1 := drop_succ_of_drop (drop_add_of_drop hd')
    have hd2 := drop_succ_of_drop hd1
    have hexp := parse_number_exponent_run ds
      (str.length - (offset + (c :: m).length + 1 + 1) + 1) str
      (offset + (c :: m).length + 1 + 1) [] t rest hd2 hds ht
      (by simp only [List.length_cons]; omega)
    unfold parse_number
    simp only [hrun, bind, Except.bind, hE, if_true, charAt_of_drop hd1, if_neg hsg', hexp,
      List.nil_append, Bool.false_or]
    cases hst : stoll ds with
    | error x => rfl
    | ok exp =>
      have := parse_number_value_eq (c :: m) ds exp
        (offset + (c :: m).length + 1 + 1 + ds.length)
      simp only [this]
      have hl : offset + (c :: m).length + 1 + 1 + ds.length
          = offset + (c :: m ++ e :: sg :: ds).length := by
        simp; omega
      rw [hl]
  | negative_exponent c m e d ds hc hm he hdg hds =>
    have hall : ∀ x ∈ c :: m, x = '-' ∨ isdigit x = true ∨ x = '.' := by
      intro x hx
      rcases List.mem_cons.1 hx with rfl | hx
      · rcases hc with h | h
        · exact Or.inl h
        · exact Or.inr (Or.inl h)
      · exact hm x hx
    have hd' : str.drop offset = (c :: m) ++ e :: ('-' :: (d :: (ds ++ t :: rest))) := by
      rw [hd]; simp
    have e1 : e ≠ '-' ∧ isdigit e = false ∧ e ≠ '.' := by
      rcases he with rfl | rfl <;> decide
    have hE : (e = 'E' || e = 'e') = true := by rcases he with h | h <;> simp [h]
    simp only [List.length_cons, List.length_append] at hlen
    have hrun := parse_number_mantissa_point (c :: m) (str.length - offset + 1) str offset []
      false e _ hd' hall e1.1 e1.2.1 e1.2.2 (by simp only [List.length_cons]; omega)
    have hd1 := drop_succ_of_drop (drop_add_of_drop hd')
    have hd2 := drop_succ_of_drop hd1
    have hd3 := drop_succ_of_drop hd2
    have hexp := parse_number_exponent_run ds
      (str.length - (offset + (c :: m).length + 1 + 1 + 1) + 1) str
      (offset + (c :: m).length + 1 + 1 + 1) ['-'] t rest hd3 hds ht
      (by simp only [List.length_cons]; omega)
    unfold parse_number
    simp only [hrun, bind, Except.bind, hE, if_true, charAt_of_drop hd1, hexp,
      List.nil_append, Bool.false_or, List.singleton_append]
    cases hst : stoll ('-' :: ds) with
    | error x => rfl
    | ok exp =>
      have := parse_number_value_eq (c :: m) ('-' :: ds) exp
        (offset + (c :: m).length + 1 + 1 + 1 + ds.length)
      simp only [this]
      have hl : offset + (c :: m).length + 1 + 1 + 1 + ds.length
          = offset + (c :: m ++ e :: '-' :: d :: ds).length := by
        simp; omega
      rw [hl]

/-- White space and then a comma, a bracket or a brace start with a character that ends
a number. -/
theorem terminator_behind (ws : List Char) (c : Char) (tail : List Char)
    (hws : ∀ w ∈ ws, isspace w = true) (hc : not_terminator c = false) :
    ∃ c1 t1, ws ++ c :: tail = c1 :: t1 ∧ not_terminator c1 = false := by
  cases ws with
  | nil => exact ⟨c, tail, rfl, hc⟩
  | cons w ws => exact ⟨w, ws ++ c :: tail, rfl, by simp [not_terminator, hws w (by simp)]⟩

/-- The loop of `parse_array` on the text of the elements: the Array of the results. -/
theorem parse_array_loop_text (P : List Char → Except Fault JSON → Prop) (fuel0 N : Nat)
    (hP : ∀ e r, P e r → e.length ≤ N →
      (∃ c t, e = c :: t ∧ isspace c = false) ∧ ReadsText fuel0 e r)
    {es : List Char} {rs : List (Except Fault JSON)} (h : ElementsText P es rs) :
    ∀ (fuel : Nat) (str : List Char) (offset : Nat) (rest : List Char) (Array : JSON)
      (index : Nat), es.length ≤ N → es.length ≤ fuel → str.drop offset = es ++ rest →
      parse_array_loop (parse_next fuel0) fuel str offset Array index
        = (array_result rs Array index).map (fun v => (v, offset + es.length)) := by
  induction h with
  | last ws0 e ws1 r hws0 he hws1 =>
    intro fuel str offset rest Array index hN hf hd
    obtain ⟨f, rfl⟩ : ∃ f, fuel = f + 1 := ⟨fuel - 1, by simp at hf; omega⟩
    simp only [List.length_append, List.length_cons, List.length_nil] at hN
    obtain ⟨⟨c, t, rfl, hc⟩, hread⟩ := hP e r he (by omega)
    have hd0 : str.drop offset = ws0 ++ c :: (t ++ (ws1 ++ ']' :: rest)) := by
      rw [hd]; simp
    have hd1 : str.drop (offset + ws0.length) = (c :: t) ++ (ws1 ++ ']' :: rest) :=
      drop_add_of_drop hd0
    have hd2 := drop_add_of_drop hd1
    have hd3 := drop_add_of_drop hd2
    have hnext := hread str (offset + ws0.length) (ws1 ++ ']' :: rest) hd1
      (fun _ => terminator_behind ws1 ']' rest hws1 (by decide))
    rw [parse_array_loop, parse_next_skip ws0 c _ hws0 hc hd0, hnext]
    cases r with
    | error x => rfl
    | ok v =>
      simp only [Except.map, bind, Except.bind, array_result]
      cases Array.assign_index index v with
      | error x => rfl
      | ok A =>
        simp only [consume_ws_skip ws1 ']' rest hws1 (by decide) hd2, charAt_of_drop hd3,
          show (']' : Char) ≠ ',' by decide, if_false, if_true, pure, Except.pure]
        simp only [Except.ok.injEq, Prod.mk.injEq, true_and, List.length_append,
          List.length_cons, List.length_nil]
        omega
  | more ws0 e ws1 es r rs hws0 he hws1 _ ih =>
    intro fuel str offset rest Array index hN hf hd
    obtain ⟨f, rfl⟩ : ∃ f, fuel = f + 1 := ⟨fuel - 1, by simp at hf; omega⟩
    simp only [List.length_append, List.length_cons] at hN hf
    obtain ⟨⟨c, t, rfl, hc⟩, hread⟩ := hP e r he (by omega)
    have hd0 : str.drop offset = ws0 ++ c :: (t ++ (ws1 ++ ',' :: (es ++ rest))) := by
      rw [hd]; simp
    have hd1 : str.drop (offset + ws0.length) = (c :: t) ++ (ws1 ++ ',' :: (es ++ rest)) :=
      drop_add_of_drop hd0
    have hd2 := drop_add_of_drop hd1
    have hd3 := drop_add_of_drop hd2
    have hd4 := drop_succ_of_drop hd3
    have hnext := hread str (offset + ws0.length) (ws1 ++ ',' :: (es ++ rest)) hd1
      (fun _ => terminator_behind ws1 ',' _ hws1 (by decide))
    rw [parse_array_loop, parse_next_skip ws0 c _ hws0 hc hd0, hnext]
    cases r with
    | error x => rfl
    | ok v =>
      simp only [Except.map, bind, Except.bind, array_result]
      cases Array.assign_index index v with
      | error x => rfl
      | ok A =>
        simp only [consume_ws_skip ws1 ',' _ hws1 (by decide) hd2, charAt_of_drop hd3,
          if_true]
        rw [ih f str _ rest A _ (by omega) (by simp only [List.length_cons] at hf; omega) hd4]
        simp only [Except.map, List.length_append, List.length_cons]
        cases array_result rs A ((index + 1) % 4294967296) with
        | error x => rfl
        | ok B =>
          simp only [Except.ok.injEq, Prod.mk.injEq, true_and]
          omega

/-- `parse_next` on a string literal, whatever follows it. -/
theorem parse_next_chars {body val : List Char} (h : CharsText body val) (fuel : Nat)
    {str : List Char} {offset : Nat} {rest : List Char}
    (hd : str.drop offset = '"' :: (body ++ '"' :: rest)) :
    parse_next (fuel + 1) str offset = .ok (JSON.string val, offset + (body.length + 2)) := by
  rw [parse_next]
  simp only [consume_ws_of_drop hd (by decide), charAt_of_drop hd, bind, Except.bind,
    show ('"' : Char) ≠ '[' by decide, show ('"' : Char) ≠ '\x7b' by decide, if_false,
    if_true]
  exact parse_string_chars h hd

/-- The loop of `parse_object` on the text of the members: the Object of the results. -/
theorem parse_object_loop_text (P : List Char → Except Fault JSON → Prop) (fuel0 N : Nat)
    (hP : ∀ e r, P e r → e.length ≤ N →
      (∃ c t, e = c :: t ∧ isspace c = false) ∧ ReadsText (fuel0 + 1) e r)
    {ms : List Char} {rs : List (List Char × Except Fault JSON)} (h : MembersText P ms rs) :
    ∀ (fuel : Nat) (str : List Char) (offset : Nat) (rest : List Char) (Object : JSON),
      ms.length ≤ N → ms.length ≤ fuel → str.drop offset = ms ++ rest →
      parse_object_loop (parse_next (fuel0 + 1)) fuel str offset Object
        = (object_result rs Object).map (fun v => (v, offset + ms.length)) := by
  induction h with
  | last ws0 body key ws1 ws2 v ws3 r hws0 hkey hws1 hws2 hv hws3 =>
    intro fuel str offset rest Object hN hf hd
    obtain ⟨f, rfl⟩ : ∃ f, fuel = f + 1 := ⟨fuel - 1, by simp at hf; omega⟩
    simp only [List.length_append, List.length_cons, List.length_nil] at hN
    obtain ⟨⟨c, t, rfl, hc⟩, hread⟩ := hP v r hv (by omega)
    have hd0 : str.drop offset = ws0 ++ '"' :: (body ++ '"' ::
        (ws1 ++ ':' :: (ws2 ++ c :: (t ++ (ws3 ++ '\x7d' :: rest))))) := by
      rw [hd]; simp
    have hd1 : str.drop (offset + ws0.length) = '"' :: (body ++ '"' ::
        (ws1 ++ ':' :: (ws2 ++ c :: (t ++ (ws3 ++ '\x7d' :: rest))))) :=
      drop_add_of_drop hd0
    have hd2 : str.drop (offset + ws0.length + (body.length + 2))
        = ws1 ++ ':' :: (ws2 ++ c :: (t ++ (ws3 ++ '\x7d' :: rest))) := by
      have h1 := drop_add_of_drop (drop_succ_of_drop hd1)
      have h2 := drop_succ_of_drop h1
      rw [← h2]
      congr 1
      omega
    have hd3 := drop_add_of_drop hd2
    have hd4 := drop_succ_of_drop hd3
    have hd5 : str.drop (offset + ws0.length + (body.length + 2) + ws1.length + 1
        + ws2.length) = (c :: t) ++ (ws3 ++ '\x7d' :: rest) := drop_add_of_drop hd4
    have hd6 := drop_add_of_drop hd5
    have hd7 := drop_add_of_drop hd6
    have hnext := hread str _ (ws3 ++ '\x7d' :: rest) hd5
      (fun _ => terminator_behind ws3 '\x7d' rest hws3 (by decide))
    rw [parse_object_loop, parse_next_skip ws0 '"' _ hws0 (by decide) hd0,
      parse_next_chars hkey fuel0 hd1]
    simp only [bind, Except.bind, consume_ws_skip ws1 ':' _ hws1 (by decide) hd2,
      charAt_of_drop hd3, ne_eq, not_true_eq_false, if_false,
      consume_ws_skip ws2 c _ hws2 hc hd4, hnext]
    cases r with
    | error x => rfl
    | ok w =>
      simp only [Except.map, object_result, bind, Except.bind,
        consume_ws_skip ws3 '\x7d' rest hws3 (by decide) hd6, charAt_of_drop hd7,
        show ('\x7d' : Char) ≠ ',' by decide, if_false, if_true, pure, Except.pure]
      simp only [Except.ok.injEq, Prod.mk.injEq, true_and, List.length_append,
        List.length_cons, List.length_nil]
      omega
  | more ws0 body key ws1 ws2 v ws3 ms r rs hws0 hkey hws1 hws2 hv hws3 _ ih =>
    intro fuel str offset rest Object hN hf hd
    obtain ⟨f, rfl⟩ : ∃ f, fuel = f + 1 := ⟨fuel - 1, by simp at hf; omega⟩
    simp only [List.length_append, List.length_cons] at hN hf
    obtain ⟨⟨c, t, rfl, hc⟩, hread⟩ := hP v r hv (by omega)
    have hd0 : str.drop offset = ws0 ++ '"' :: (body ++ '"' ::
        (ws1 ++ ':' :: (ws2 ++ c :: (t ++ (ws3 ++ ',' :: (ms ++ rest)))))) := by
      rw [hd]; simp
    have hd1 : str.drop (offset + ws0.length) = '"' :: (body ++ '"' ::
        (ws1 ++ ':' :: (ws2 ++ c :: (t ++ (ws3 ++ ',' :: (ms ++ rest)))))) :=
      drop_add_of_drop hd0
    have hd2 : str.drop (offset + ws0.length + (body.length + 2))
        = ws1 ++ ':' :: (ws2 ++ c :: (t ++ (ws3 ++ ',' :: (ms ++ rest)))) := by
      have h1 := drop_add_of_drop (drop_succ_of_drop hd1)
      have h2 := drop_succ_of_drop h1
      rw [← h2]
      congr 1
      omega
    have hd3 := drop_add_of_drop hd2
    have hd4 := drop_succ_of_drop hd3
    have hd5 : str.drop (offset + ws0.length + (body.length + 2) + ws1.length + 1
        + ws2.length) = (c :: t) ++ (ws3 ++ ',' :: (ms ++ rest)) := drop_add_of_drop hd4
    have hd6 := drop_add_of_drop hd5
    have hd7 := drop_add_of_drop hd6
    have hd8 := drop_succ_of_drop hd7
    have hnext := hread str _ (ws3 ++ ',' :: (ms ++ rest)) hd5
      (fun _ => terminator_behind ws3 ',' _ hws3 (by decide))
    rw [parse_object_loop, parse_next_skip ws0 '"' _ hws0 (by decide) hd0,
      parse_next_chars hkey fuel0 hd1]
    simp only [bind, Except.bind, consume_ws_skip ws1 ':' _ hws1 (by decide) hd2,
      charAt_of_drop hd3, ne_eq, not_true_eq_false, if_false,
      consume_ws_skip ws2 c _ hws2 hc hd4, hnext]
    cases r with
    | error x => rfl
    | ok w =>
      simp only [Except.map, object_result, bind, Except.bind,
        consume_ws_skip ws3 ',' _ hws3 (by decide) hd6, charAt_of_drop hd7, if_true]
      rw [ih f str _ rest _ (by omega) (by simp only [List.length_cons] at hf; omega) hd8]
      simp only [Except.map, List.length_append, List.length_cons]
      cases object_result rs (Object.assign_key (JSON.string key).ToString.1 w) with
      | error x => rfl
      | ok B =>
        simp only [Except.ok.injEq, Prod.mk.injEq, true_and]
        omega

/-- The text of a number starts with a digit or `-`. -/
theorem number_text_head {s : List Char} {r : Except Fault JSON} (h : NumberText s r) :
    ∃ c t, s = c :: t ∧ (c = '-' ∨ isdigit c = true) := by
  cases h with
  | plain c m hc _ => exact ⟨c, m, rfl, hc⟩
  | exponent c m e sg ds hc _ _ _ _ => exact ⟨c, _, rfl, hc⟩
  | negative_exponent c m e d ds hc _ _ _ _ => exact ⟨c, _, rfl, hc⟩

/-- The text of a value starts with a character that is no white space and closes
nothing. -/
theorem value_text_head {s : List Char} {r : Except Fault JSON} (h : ValueText s r) :
    ∃ c t, s = c :: t ∧ isspace c = false ∧ c ≠ ']' := by
  cases h with
  | null => exact ⟨'n', _, rfl, by decide, by decide⟩
  | true => exact ⟨'t', _, rfl, by decide, by decide⟩
  | false => exact ⟨'f', _, rfl, by decide, by decide⟩
  | string body val _ => exact ⟨'"', _, rfl, by decide, by decide⟩
  | number s r hn =>
    obtain ⟨c, t, rfl, hc⟩ := number_text_head hn
    refine ⟨c, t, rfl, (number_start_facts hc).2.2.2.2.2.2.1, ?_⟩
    rcases hc with rfl | hc
    · decide
    · rintro rfl
      revert hc
      decide
  | empty_array ws _ => exact ⟨'[', _, rfl, by decide, by decide⟩
  | array es rs _ => exact ⟨'[', _, rfl, by decide, by decide⟩
  | empty_object ws _ => exact ⟨'\x7b', _, rfl, by decide, by decide⟩
  | object ms rs _ => exact ⟨'\x7b', _, rfl, by decide, by decide⟩

/-- The text of the elements of an array without the white space before the first. -/
theorem elements_text_strip {es : List Char} {rs : List (Except Fault JSON)}
    (h : ElementsText ValueText es rs) :
    ∃ ws0 c t, es = ws0 ++ c :: t ∧ (∀ w ∈ ws0, isspace w = true) ∧ isspace c = false
      ∧ c ≠ ']' ∧ ElementsText ValueText (c :: t) rs := by
  cases h with
  | last ws0 e ws1 r hws0 he hws1 =>
    obtain ⟨c, t, rfl, h1, h2⟩ := value_text_head he
    exact ⟨ws0, c, t ++ (ws1 ++ [']']), rfl, hws0, h1, h2,
      ElementsText.last [] (c :: t) ws1 r (by simp) he hws1⟩
  | more ws0 e ws1 es r rs hws0 he hws1 hes =>
    obtain ⟨c, t, rfl, h1, h2⟩ := value_text_head he
    exact ⟨ws0, c, t ++ (ws1 ++ ',' :: es), rfl, hws0, h1, h2,
      ElementsText.more [] (c :: t) ws1 es r rs (by simp) he hws1 hes⟩

/-- The text of the members of an object without the white space before the first. -/
theorem members_text_strip {ms : List Char} {rs : List (List Char × Except Fault JSON)}
    (h : MembersText ValueText ms rs) :
    ∃ ws0 t, ms = ws0 ++ '"' :: t ∧ (∀ w ∈ ws0, isspace w = true)
      ∧ MembersText ValueText ('"' :: t) rs := by
  cases h with
  | last ws0 body key ws1 ws2 v ws3 r hws0 hkey hws1 hws2 hv hws3 =>
    exact ⟨ws0, _, rfl, hws0,
      MembersText.last [] body key ws1 ws2 v ws3 r (by simp) hkey hws1 hws2 hv hws3⟩
  | more ws0 body key ws1 ws2 v ws3 ms r rs hws0 hkey hws1 hws2 hv hws3 hms =>
    exact ⟨ws0, _, rfl, hws0,
      MembersText.more [] body key ws1 ws2 v ws3 ms r rs (by simp) hkey hws1 hws2 hv hws3 hms⟩

/-- `parse_next` reads every text of a value as the grammar says, with fuel for the
length of the text. -/
theorem value_text_reads : ∀ (N : Nat) (s : List Char) (r : Except Fault JSON),
    s.length ≤ N → ValueText s r → ∀ fuel : Nat, s.length + 1 ≤ fuel → ReadsText fuel s r := by
  intro N
  induction N with
  | zero =>
    intro s r hN h
    obtain ⟨c, t, rfl, _⟩ := value_text_head h
    simp at hN
  | succ N ih =>
    intro s r hN h fuel hf str offset rest hd hnum
    obtain ⟨f, rfl⟩ : ∃ f, fuel = f + 1 := ⟨fuel - 1, by omega⟩
    have hlen := congrArg List.length hd
    simp only [List.length_drop, List.length_append] at hlen
    cases h with
    | null =>
      have hd' : str.drop offset = 'n' :: ('u' :: 'l' :: 'l' :: rest) := hd
      rw [parse_next]
      simp only [consume_ws_of_drop hd' (by decide), charAt_of_drop hd', bind, Except.bind,
        parse_null_of_drop hd]
      rfl
    | true =>
      have hd' : str.drop offset = 't' :: ('r' :: 'u' :: 'e' :: rest) := hd
      rw [parse_next]
      simp only [consume_ws_of_drop hd' (by decide), charAt_of_drop hd', bind, Except.bind,
        parse_bool_of_drop_true hd]
      rfl
    | false =>
      have hd' : str.drop offset = 'f' :: ('a' :: 'l' :: 's' :: 'e' :: rest) := hd
      rw [parse_next]
      simp only [consume_ws_of_drop hd' (by decide), charAt_of_drop hd', bind, Except.bind,
        parse_bool_of_drop_false hd]
      rfl
    | string body val hb =>
      have hd' : str.drop offset = '"' :: (body ++ '"' :: rest) := by rw [hd]; simp
      rw [parse_next_chars hb f hd']
      simp [Except.map]
    | number s r hn =>
      obtain ⟨c, t, rfl, hc⟩ := number_text_head hn
      obtain ⟨c1, t1, rfl, hc1⟩ := hnum (by
        rcases hc with rfl | hc
        · rfl
        · simp [number_text, hc])
      obtain ⟨g1, g2, g3, g4, g5, g6, g7, g8⟩ := number_start_facts hc
      have hd' : str.drop offset = c :: (t ++ c1 :: t1) := hd
      rw [parse_next]
      simp only [consume_ws_of_drop hd' g7, charAt_of_drop hd', bind, Except.bind, g1, g2, g3,
        g4, g5, g6, g8, if_false, if_true, decide_False, Bool.or_self, Bool.false_eq_true]
      exact parse_number_text hn c1 t1 hd hc1
    | empty_array ws hws =>
      have hd' : str.drop offset = '[' :: (ws ++ ']' :: rest) := by rw [hd]; simp
      have hd1 := drop_succ_of_drop hd'
      have hd2 := drop_add_of_drop hd1
      rw [parse_next]
      simp only [consume_ws_of_drop hd' (by decide), charAt_of_drop hd', bind, Except.bind,
        if_true, parse_array, consume_ws_skip ws ']' rest hws (by decide) hd1,
        charAt_of_drop hd2, pure, Except.pure, Except.map, JSON.Make]
      simp only [Except.ok.injEq, Prod.mk.injEq, true_and, List.length_append,
        List.length_cons, List.length_nil]
      omega
    | array es rs he =>
      obtain ⟨ws0, c, t, rfl, hws0, hc1, hc2, he0⟩ := elements_text_strip he
      simp only [List.length_cons, List.length_append] at hN hf hlen
      have hd' : str.drop offset = '[' :: (ws0 ++ c :: (t ++ rest)) := by rw [hd]; simp
      have hd1 := drop_succ_of_drop hd'
      have hd2 : str.drop (offset + 1 + ws0.length) = (c :: t) ++ rest := drop_add_of_drop hd1
      have hloop := parse_array_loop_text ValueText f (c :: t).length
        (fun e r h1 h2 => ⟨by
            obtain ⟨c', t', h', h'', _⟩ := value_text_head h1
            exact ⟨c', t', h', h''⟩,
          ih e r (by simp only [List.length_cons] at h2; omega) h1 f
            (by simp only [List.length_cons] at h2; omega)⟩)
        he0 (str.length - (offset + 1 + ws0.length) + 1) str (offset + 1 + ws0.length) rest
        (JSON.array []) 0 (le_refl _) (by simp only [List.length_cons]; omega) hd2
      rw [parse_next]
      simp only [consume_ws_of_drop hd' (by decide), charAt_of_drop hd', bind, Except.bind,
        if_true, parse_array, consume_ws_skip ws0 c _ hws0 hc1 hd1, charAt_of_drop hd2,
        if_neg hc2]
      rw [show JSON.Make Class.Array = JSON.array [] from rfl, hloop]
      have hl : offset + 1 + ws0.length + (c :: t).length
          = offset + ('[' :: (ws0 ++ c :: t)).length := by
        simp only [List.length_cons, List.length_append]; omega
      rw [hl]
    | empty_object ws hws =>
      have hd' : str.drop offset = '\x7b' :: (ws ++ '\x7d' :: rest) := by rw [hd]; simp
      have hd1 := drop_succ_of_drop hd'
      have hd2 := drop_add_of_drop hd1
      rw [parse_next]
      simp only [consume_ws_of_drop hd' (by decide), charAt_of_drop hd', bind, Except.bind,
        show ('\x7b' : Char) ≠ '[' by decide, if_false, if_true, parse_object,
        consume_ws_skip ws '\x7d' rest hws (by decide) hd1,
        charAt_of_drop hd2, pure, Except.pure, Except.map, JSON.Make]
      simp only [Except.ok.injEq, Prod.mk.injEq, true_and, List.length_append,
        List.length_cons, List.length_nil]
      omega
    | object ms rs hm =>
      obtain ⟨ws0, t, rfl, hws0, hm0⟩ := members_text_strip hm
      simp only [List.length_cons, List.length_append] at hN hf hlen
      obtain ⟨f0, rfl⟩ : ∃ f0, f = f0 + 1 := ⟨f - 1, by omega⟩
      have hd' : str.drop offset = '\x7b' :: (ws0 ++ '"' :: (t ++ rest)) := by rw [hd]; simp
      have hd1 := drop_succ_of_drop hd'
      have hd2 : str.drop (offset + 1 + ws0.length) = ('"' :: t) ++ rest :=
        drop_add_of_drop hd1
      have hloop := parse_object_loop_text ValueText f0 ('"' :: t).length
        (fun e r h1 h2 => ⟨by
            obtain ⟨c', t', h', h'', _⟩ := value_text_head h1
            exact ⟨c', t', h', h''⟩,
          ih e r (by simp only [List.length_cons] at h2; omega) h1 (f0 + 1)
            (by simp only [List.length_cons] at h2; omega)⟩)
        hm0 (str.length - (offset + 1 + ws0.length) + 1) str (offset + 1 + ws0.length) rest
        (JSON.object []) (le_refl _) (by simp only [List.length_cons]; omega) hd2
      rw [parse_next]
      simp only [consume_ws_of_drop hd' (by decide), charAt_of_drop hd', bind, Except.bind,
        show ('\x7b' : Char) ≠ '[' by decide, if_false, if_true, parse_object,
        consume_ws_skip ws0 '"' _ hws0 (by decide) hd1, charAt_of_drop hd2,
        show ('"' : Char) ≠ '\x7d' by decide]
      rw [show JSON.Make Class.Object = JSON.object [] from rfl, hloop]
      have hl : offset + 1 + ws0.length + ('"' :: t).length
          = offset + ('\x7b' :: (ws0 ++ '"' :: t)).length := by
        simp only [List.length_cons, List.length_append]; omega
      rw [hl]

/-! ## The claims -/

/-- C2 (the code leaves a separator): for the Object with the fields `x` = 1 and
`y` = the string `undefined`, `stringify` writes the comma of `y` before it finds that
`y` is suppressed, so the output is `{"x":1,}`; in an Array a suppressed element in the
middle leaves two commas in a row. -/
theorem C2_suppressed_child_leaves_comma (to_str_f : LongDouble → List Char) :
    JSON.stringify to_str_f (JSON.object [("x".toList, JSON.integral 1),
        ("y".toList, JSON.string "undefined".toList)]) = "\x7b\"x\":1,\x7d".toList
    ∧ (JSON.Load "\x7b\"x\": 1, \"y\": \"undefined\"\x7d".toList).map
        (JSON.stringify to_str_f) = .ok "\x7b\"x\":1,\x7d".toList
    ∧ JSON.stringify to_str_f (JSON.array [JSON.integral 1, JSON.string "undefined".toList,
        JSON.integral 2]) = "[1,,2]".toList :=
  ⟨rfl, rfl, rfl⟩

/-- C4 (the code raises): on the text `{"n": 1.5e2}` the exponent loop of
`parse_number` starts after the first character behind `e`, so `exp_str` is empty and
`std::stoll` raises `std::invalid_argument` out of `Load`; with two exponent digits
the first one is lost: `1.5e12` is read as 1.5 * 10^2. -/
theorem C4_decimal_exponent_first_digit_lost :
    JSON.Load "\x7b\"n\": 1.5e2\x7d".toList = .error Fault.invalid_argument
    ∧ parse_number "1.5e12 ".toList 0 = .ok (JSON.floating ⟨15, 1⟩, 6)
    ∧ parse_number "1.5e-12 ".toList 0 = .ok (JSON.floating ⟨15, -3⟩, 7) :=
  ⟨rfl, rfl, rfl⟩

/-- C5 (counterexample): the literal `2e10` has no decimal point and an exponent part
that `parse_number` accepts, and the value returned is Floating-tagged, not
Integral-tagged. -/
theorem C5_counterexample :
    (parse_number "2e10 ".toList 0).map (fun r => r.1.JSONType) = .ok Class.Floating
    ∧ Class.Floating ≠ Class.Integral :=
  ⟨rfl, by decide⟩

/-- C5 (as amended): a number literal without a decimal point (a mantissa of `-` and
digits) followed by an exponent marker, when `parse_number` accepts it (returns a value
that is not the Null of its error returns), yields a Floating-tagged value: the product
with `std::pow( 10, exp )` is a floating-point number, assigned through `operator=` for
floating-point types. -/
theorem C5_integer_mantissa_with_exponent_is_floating (str : List Char) (offset : Nat)
    (mant rest : List Char) (e : Char) (v : JSON) (off : Nat)
    (hstr : str.drop offset = mant ++ e :: rest)
    (hmant : ∀ c ∈ mant, c = '-' ∨ isdigit c = true)
    (he : e = 'e' ∨ e = 'E')
    (hres : parse_number str offset = .ok (v, off))
    (hacc : v ≠ JSON.null) :
    v.JSONType = Class.Floating := by
  suffices h : ∃ x, v = JSON.floating x by
    obtain ⟨x, h2⟩ := h
    rw [h2]
    rfl
  have hlen : mant.length < str.length - offset + 1 := by
    have := congrArg List.length hstr
    simp at this
    omega
  have hm := parse_number_mantissa_run mant (str.length - offset + 1) str offset [] false
    e rest hstr hmant (by rcases he with h | h <;> simp [h])
    (by rcases he with h | h <;> subst h <;> rfl) (by rcases he with h | h <;> simp [h]) hlen
  have hE : (e = 'E' || e = 'e') = true := by rcases he with h | h <;> simp [h]
  unfold parse_number at hres
  simp only [hm, bind, Except.bind, hE, if_true, List.nil_append] at hres
  split at hres
  · simp at hres
  · split at hres
    · simp at hres
    · split at hres
      · simp only [pure, Except.pure, JSON.Make, Except.ok.injEq, Prod.mk.injEq] at hres
        exact absurd hres.1.symm hacc
      · split at hres
        · simp at hres
        · have hne := stoll_ne_nil ‹stoll _ = Except.ok _›
          unfold parse_number_value at hres
          simp only [Bool.not_false, if_true, hne, if_false, bind, Except.bind] at hres
          split at hres
          · simp at hres
          · simp only [pure, Except.pure, Except.ok.injEq, Prod.mk.injEq] at hres
            exact ⟨_, hres.1.symm⟩

/-- C5 (witness): the literal `2e10`. -/
theorem C5_integer_mantissa_with_exponent_is_floating_witness :
    (JSON.floating ⟨2, 0⟩).JSONType = Class.Floating :=
  C5_integer_mantissa_with_exponent_is_floating "2e10 ".toList 0 ['2'] "10 ".toList 'e'
    (JSON.floating ⟨2, 0⟩) 4 rfl (by decide) (Or.inl rfl) rfl (by simp)

/-- C6 (the code raises): `Load` of `[1e5]` and of `- ` raises `std::invalid_argument`
(`std::stoll` of an empty exponent, of a lone sign), and `Load` of the unterminated
string `"abc` reads the text beyond its terminator; `[1 .` is returned as an Array. -/
theorem C6_load_raises :
    JSON.Load "[1e5]".toList = .error Fault.invalid_argument
    ∧ JSON.Load "- ".toList = .error Fault.invalid_argument
    ∧ JSON.Load "\"abc".toList = .error Fault.out_of_bounds
    ∧ JSON.Load "[1 .".toList = .ok (JSON.array []) :=
  ⟨rfl, rfl, rfl, rfl⟩

/-- C7 (the code drops the character): in the literal `"a\qb"` the escape `\q` is
stored as the single character backslash, `q` is consumed and not stored; so it is for
every character `c` the escape switch has no case for: the literal of backslash, `c`
is stored as the backslash alone. -/
theorem C7_unknown_escape_drops_character :
    parse_string "\"a\\qb\"".toList 0 = .ok (JSON.string "a\\b".toList, 6)
    ∧ ∀ (c : Char) (rest : List Char), known_escape c = false →
        parse_string ('"' :: '\\' :: c :: '"' :: rest) 0
          = .ok (JSON.string ['\\'], 4) := by
  refine ⟨rfl, ?_⟩
  intro c rest hc
  simp only [known_escape, Bool.or_eq_false_iff, decide_eq_false_iff_not] at hc
  obtain ⟨⟨⟨⟨⟨⟨⟨⟨h1, h2⟩, h3⟩, h4⟩, h5⟩, h6⟩, h7⟩, h8⟩, h9⟩ := hc
  have hd1 : ('"' :: '\\' :: c :: '"' :: rest).drop 1 = '\\' :: (c :: '"' :: rest) := rfl
  have hd2 : ('"' :: '\\' :: c :: '"' :: rest).drop (0 + 1 + 1) = c :: ('"' :: rest) := rfl
  have hd3 : ('"' :: '\\' :: c :: '"' :: rest).drop (0 + 1 + 1 + 1) = '"' :: rest := rfl
  unfold parse_string
  simp only [List.length_cons, Nat.sub_zero]
  rw [parse_string_loop]
  simp only [charAt_of_drop hd1, charAt_of_drop hd2, bind, Except.bind, h1, h2, h3, h4, h5, h6,
    h7, h8, h9, if_false, Char.reduceEq, if_true, reduceCtorEq]
  rw [parse_string_loop]
  simp [charAt_of_drop hd3, bind, Except.bind, pure, Except.pure]

/-- C8 (counterexample): the Object read from `{"a":"undefined"}` has the key `a`, and
`stringify` writes `{}`: the key is not emitted. -/
theorem C8_counterexample :
    JSON.Load "\x7b\"a\":\"undefined\"\x7d".toList
        = .ok (JSON.object [("a".toList, JSON.string "undefined".toList)])
    ∧ (JSON.object [("a".toList, JSON.string "undefined".toList)]).hasKey "a".toList = true
    ∧ ∀ to_str_f : LongDouble → List Char,
        JSON.stringify to_str_f (JSON.object [("a".toList, JSON.string "undefined".toList)])
          = "\x7b\x7d".toList :=
  ⟨rfl, rfl, fun _ => rfl⟩

/-- C8 (as amended): an Object built by the assignments `kvs`, in any order, holds
exactly the assigned keys in strictly ascending byte-lexicographic order, and
`stringify` writes between the braces, in that order, each pair whose value does not
serialize to the quoted text `undefined` once, as `"key":value`, and nothing for a
pair whose value does (each behind an empty separator or a comma); when no value is
suppressed the pairs are separated by single commas; the Object (hence the text) is the
same for every reordering of assignments to distinct keys.  `{"b":1,"a":2}` serializes
to `{"a":2,"b":1}`, and `{"a":1,"b":[1,2,3]}` to the same text, its field `b` of
length 3. -/
theorem C8_compact_form_key_order (to_str_f : LongDouble → List Char)
    (kvs : List (List Char × JSON)) :
    (∃ m, (JSON.Make Class.Object).assign_all kvs = JSON.object m
      ∧ m.Pairwise key_lt
      ∧ (∀ k, k ∈ m.map Prod.fst ↔ k ∈ kvs.map Prod.fst)
      ∧ (∃ seps : List (List Char), seps.length = m.length
          ∧ (∀ x ∈ seps, x = [] ∨ x = [','])
          ∧ JSON.stringify to_str_f (JSON.object m)
              = '\x7b' :: pieces_text to_str_f seps m ++ ['\x7d'])
      ∧ ((∀ p ∈ m, JSON.stringify to_str_f p.2 ≠ undefined_text) →
          JSON.stringify to_str_f (JSON.object m)
            = '\x7b' :: comma_join (m.map (pair_text to_str_f)) ++ ['\x7d'])
      ∧ (∀ kvs' : List (List Char × JSON), kvs'.Perm kvs → (kvs.map Prod.fst).Nodup →
          (JSON.Make Class.Object).assign_all kvs' = JSON.object m))
    ∧ (JSON.Load "\x7b\"b\":1,\"a\":2\x7d".toList).map (JSON.stringify to_str_f)
        = .ok "\x7b\"a\":2,\"b\":1\x7d".toList
    ∧ JSON.Load "\x7b\"a\":1,\"b\":[1,2,3]\x7d".toList
        = .ok (JSON.object [("a".toList, JSON.integral 1),
            ("b".toList, JSON.array [JSON.integral 1, JSON.integral 2, JSON.integral 3])])
    ∧ JSON.stringify to_str_f (JSON.object [("a".toList, JSON.integral 1),
          ("b".toList, JSON.array [JSON.integral 1, JSON.integral 2, JSON.integral 3])])
        = "\x7b\"a\":1,\"b\":[1,2,3]\x7d".toList
    ∧ (JSON.array [JSON.integral 1, JSON.integral 2, JSON.integral 3]).length = 3 := by
  refine ⟨?_, rfl, rfl, rfl, rfl⟩
  obtain ⟨m, h1, h2, h3, -, h5⟩ := assign_all_object kvs [] List.Pairwise.nil
  refine ⟨m, h1, h2, ?_, ?_, ?_, ?_⟩
  · intro k
    simpa using h3 k
  · obtain ⟨seps, g1, g2, g3⟩ := stringify_map_pieces to_str_f m ['\x7b'] true
    exact ⟨seps, g1, g2, by simp [JSON.stringify, g3]⟩
  · intro hm
    simp [JSON.stringify, stringify_map_join to_str_f m _ hm]
  · intro kvs' hperm hnd
    obtain ⟨m', h1', h2', -, -, h5'⟩ := assign_all_object kvs' [] List.Pairwise.nil
    have hnd' : (([] ++ kvs').map Prod.fst).Nodup := by
      simpa using (hperm.map Prod.fst).nodup_iff.2 hnd
    have hp1 : m'.Perm m :=
      ((h5' hnd').trans (by simpa using hperm)).trans (h5 (by simpa using hnd)).symm
    haveI := key_lt_antisymm
    rw [show JSON.Make Class.Object = JSON.object [] from rfl, h1',
      List.eq_of_perm_of_sorted hp1 h2' h2]

/-- C8 (witness): the assignments `b` = 1, then `a` = 2, read from the text
`{"b":1,"a":2}`. -/
theorem C8_compact_form_key_order_witness :
    (JSON.Load "\x7b\"b\":1,\"a\":2\x7d".toList).map (JSON.stringify (fun _ => []))
        = .ok "\x7b\"a\":2,\"b\":1\x7d".toList
    ∧ ∃ m, (JSON.Make Class.Object).assign_all
          [("b".toList, JSON.integral 1), ("a".toList, JSON.integral 2)] = JSON.object m
      ∧ m.Pairwise key_lt
      ∧ (∀ k, k ∈ m.map Prod.fst ↔ k = "b".toList ∨ k = "a".toList) :=
  ⟨(C8_compact_form_key_order (fun _ => [])
      [("b".toList, JSON.integral 1), ("a".toList, JSON.integral 2)]).2.1,
   (C8_compact_form_key_order (fun _ => [])
      [("b".toList, JSON.integral 1), ("a".toList, JSON.integral 2)]).1.imp
     (fun _ h => ⟨h.1, h.2.1, fun k => by simpa using h.2.2.1 k⟩)⟩

/-- C10: on a value whose tag is not String / Floating / Integral / Boolean,
`ToString` / `ToFloat` / `ToInt` / `ToBool` set `ok` to false and return the empty
string / 0.0 / 0 / false (they are total); on a matching tag `ToInt`, `ToFloat` and
`ToBool` set `ok` to true and return the payload. -/
theorem C10_typed_extraction (v : JSON) :
    (v.JSONType ≠ Class.String → v.ToString = ([], false))
    ∧ (v.JSONType ≠ Class.Floating → v.ToFloat = (⟨0, 0⟩, false))
    ∧ (v.JSONType ≠ Class.Integral → v.ToInt = (0, false))
    ∧ (v.JSONType ≠ Class.Boolean → v.ToBool = (false, false))
    ∧ (∀ i, v = JSON.integral i → v.ToInt = (i, true))
    ∧ (∀ f, v = JSON.floating f → v.ToFloat = (f, true))
    ∧ (∀ b, v = JSON.boolean b → v.ToBool = (b, true)) := by
  refine ⟨?_, ?_, ?_, ?_, ?_, ?_, ?_⟩
  · cases v <;> simp [JSON.JSONType, JSON.ToString]
  · cases v <;> simp [JSON.JSONType, JSON.ToFloat]
  · cases v <;> simp [JSON.JSONType, JSON.ToInt]
  · cases v <;> simp [JSON.JSONType, JSON.ToBool]
  · rintro i rfl; rfl
  · rintro f rfl; rfl
  · rintro b rfl; rfl

/-- C10 (witness): the Null value has each extraction fail with its default, and the
Integral value 7 has `ToInt` return 7. -/
theorem C10_typed_extraction_witness :
    JSON.null.ToString = ([], false) ∧ JSON.null.ToFloat = (⟨0, 0⟩, false)
    ∧ JSON.null.ToInt = (0, false) ∧ JSON.null.ToBool = (false, false)
    ∧ (JSON.integral 7).ToInt = (7, true) :=
  ⟨(C10_typed_extraction JSON.null).1 (by decide),
   (C10_typed_extraction JSON.null).2.1 (by decide),
   (C10_typed_extraction JSON.null).2.2.1 (by decide),
   (C10_typed_extraction JSON.null).2.2.2.1 (by decide),
   (C10_typed_extraction (JSON.integral 7)).2.2.2.2.1 7 rfl⟩

/-- C11 (counterexample to the claim as written): the const accessor has no test of the
tag, so on a Null, an Array or a String it does not fail with a NotAnObject failure; it
dereferences the map pointer of a value that has no map. -/
theorem C11_counterexample :
    JSON.null.at_const_key "k".toList = .error Fault.undefined
    ∧ (JSON.array [JSON.integral 1]).at_const_key "k".toList = .error Fault.undefined
    ∧ (JSON.string "k".toList).at_const_key "k".toList = .error Fault.undefined :=
  ⟨rfl, rfl, rfl⟩

/-- C11 (as amended): on an Object (a map with ascending keys) the const accessor
`at( k )` raises `std::out_of_range` when the Object has no key `k`, and returns the child
stored under `k` otherwise, and nothing else; it is a function of the value that
returns the child only, so the value is not changed.  Under every other tag the call is
undefined behaviour. -/
theorem C11_const_at_on_object (m : List (List Char × JSON)) (hm : m.Pairwise key_lt)
    (k : List Char) :
    ((JSON.object m).hasKey k = false →
        (JSON.object m).at_const_key k = .error Fault.out_of_range)
    ∧ (∀ c, (k, c) ∈ m → (JSON.object m).at_const_key k = .ok c)
    ∧ (∀ c, (JSON.object m).at_const_key k = .ok c → (k, c) ∈ m)
    ∧ (∀ v : JSON, v.JSONType ≠ Class.Object →
        v.at_const_key k = .error Fault.undefined) := by
  refine ⟨?_, ?_, ?_, ?_⟩
  · intro h
    have : map_find m k = none := by
      rw [map_find_eq_none]
      simpa [JSON.hasKey] using h
    simp [JSON.at_const_key, this]
  · intro c hc
    simp [JSON.at_const_key, map_find_of_mem m hm k c hc]
  · intro c hc
    simp only [JSON.at_const_key] at hc
    split at hc
    · cases hc
      exact map_find_mem ‹_›
    · cases hc
  · intro v hv
    cases v <;> simp_all [JSON.at_const_key, JSON.JSONType]

/-- C11 (witness): the Object `{"a":1,"b":null}` read at `b` and at `c`. -/
theorem C11_const_at_on_object_witness :
    (JSON.object [("a".toList, JSON.integral 1), ("b".toList, JSON.null)]).at_const_key
        "b".toList = .ok JSON.null
    ∧ (JSON.object [("a".toList, JSON.integral 1), ("b".toList, JSON.null)]).at_const_key
        "c".toList = .error Fault.out_of_range := by
  have hs : [("a".toList, JSON.integral 1), ("b".toList, JSON.null)].Pairwise key_lt := by
    simp [key_lt, str_lt]
  exact ⟨(C11_const_at_on_object _ hs "b".toList).2.1 JSON.null (by simp),
    (C11_const_at_on_object _ hs "c".toList).1 rfl⟩

/-- C12 (the code wraps at the last index): for every index `k` with `k + 1 < 2^32`,
`operator[]( k )` on an Array shorter than `k + 1` (such as the empty Array, or a Null,
which is coerced) yields the Array grown to length exactly `k + 1` by Null elements, and
on a longer Array it changes nothing, an assignment replacing the element `k` only.
For `k = 2^32 - 1` the new size `k + 1` is computed in `unsigned` and is 0: the Array
is emptied and the element returned does not exist. -/
theorem C12_sparse_growth_wraps_at_last_index :
    (∀ (l : List JSON) (k : Nat), l.length ≤ k → k + 1 < 4294967296 →
      (JSON.array l).subscript_index k
          = .ok (JSON.array (l ++ List.replicate (k + 1 - l.length) JSON.null))
      ∧ ((l ++ List.replicate (k + 1 - l.length) JSON.null).length = k + 1))
    ∧ (∀ k : Nat, k + 1 < 4294967296 →
      (JSON.array []).subscript_index k
          = .ok (JSON.array (List.replicate (k + 1) JSON.null))
      ∧ JSON.null.subscript_index k
          = .ok (JSON.array (List.replicate (k + 1) JSON.null)))
    ∧ (∀ (l : List JSON) (k : Nat), k < l.length →
      (JSON.array l).subscript_index k = .ok (JSON.array l)
      ∧ ∀ x, (JSON.array l).assign_index k x = .ok (JSON.array (l.set k x)))
    ∧ (JSON.array []).subscript_index 4294967295 = .error Fault.undefined
    ∧ JSON.null.subscript_index 4294967295 = .error Fault.undefined
    ∧ (JSON.array [JSON.integral 1]).subscript_index 4294967295
        = .error Fault.undefined := by
  refine ⟨fun l k hk h => ⟨subscript_index_grow l k hk h, by simp; omega⟩,
    fun k h => ⟨by simpa using subscript_index_grow [] k (Nat.zero_le _) h, ?_⟩,
    fun l k h => ⟨subscript_index_below l k h, fun x => ?_⟩, rfl, rfl, rfl⟩
  · simpa [JSON.subscript_index, JSON.SetType, JSON.JSONType, JSON.Make]
      using subscript_index_grow [] k (Nat.zero_le _) h
  · simp [JSON.assign_index, subscript_index_below l k h, bind, Except.bind, pure,
      Except.pure]

/-- C12 (witness): index 3 on the empty Array gives four Null elements. -/
theorem C12_sparse_growth_wraps_at_last_index_witness :
    (JSON.array []).subscript_index 3
      = .ok (JSON.array [JSON.null, JSON.null, JSON.null, JSON.null]) :=
  (C12_sparse_growth_wraps_at_last_index.2.1 3 (by decide)).1

/-- C13 (counterexample to the claim as written): for the bare number `42` the result
depends on the suffix; with the empty suffix, and with the suffix `x`, `Load` returns
Null, and with a blank as suffix it returns 42. -/
theorem C13_counterexample :
    JSON.Load ("42".toList ++ []) = .ok JSON.null
    ∧ JSON.Load ("42".toList ++ " ".toList) = .ok (JSON.integral 42)
    ∧ JSON.Load ("42".toList ++ "x".toList) = .ok JSON.null :=
  ⟨rfl, rfl, rfl⟩

/-- C13 (as amended): for every text `s` of one JSON value (`ValueText`: `null`, `true`,
`false`, a string literal with any escapes, a number, an array or an object with white
space between the tokens, nested in any way), standing behind white space `ws`, and for
every `t`, `Load` of the text followed by `t` gives what the parser makes of `s`, provided
that behind a bare number `t` starts with a character that ends a number (white space,
`,`, `]` or a closing brace); and when `s` is no bare number, `Load` of the text alone
gives the same: the result does not depend on `t`. -/
theorem C13_trailing_bytes_ignored (ws s : List Char) (r : Except Fault JSON) (t : List Char)
    (hws : ∀ w ∈ ws, isspace w = true) (hs : ValueText s r)
    (hnum : number_text s = true → ∃ c rest, t = c :: rest ∧ not_terminator c = false) :
    JSON.Load (ws ++ s ++ t) = r ∧ (number_text s = false → JSON.Load (ws ++ s) = r) := by
  have key : ∀ t1 : List Char,
      (number_text s = true → ∃ c rest, t1 = c :: rest ∧ not_terminator c = false) →
      JSON.Load (ws ++ s ++ t1) = r := by
    intro t1 h1
    obtain ⟨c, u, rfl, hc, _⟩ := value_text_head hs
    have hd0 : (ws ++ c :: u ++ t1).drop 0 = ws ++ c :: (u ++ t1) := by simp
    have hd1 : (ws ++ c :: u ++ t1).drop (0 + ws.length) = (c :: u) ++ t1 :=
      drop_add_of_drop hd0
    have hread := value_text_reads (c :: u).length (c :: u) r (le_refl _) hs
      ((ws ++ c :: u ++ t1).length + 1) (by simp; omega) _ _ t1 hd1 h1
    unfold JSON.Load
    rw [parse_next_skip ws c _ hws hc hd0, hread]
    cases r <;> rfl
  refine ⟨key t hnum, fun hn => ?_⟩
  have := key [] (fun h => by rw [hn] at h; cases h)
  simpa using this

/-- C13 (witness): the text of an Object behind a blank, with keys out of order, white
space between the tokens, a number with a fraction and the escapes `\/` and `\u00e9`,
followed by `x]`; and the bare number `42` followed by a blank and `x`. -/
theorem C13_trailing_bytes_ignored_witness :
    JSON.Load " \x7b\"b\" : [1, -2.5 ,true],\n\"a\":\"\\/\\u00e9\"\x7dx]".toList
      = .ok (JSON.object [("a".toList, JSON.string "/\\u00e9".toList),
          ("b".toList, JSON.array [JSON.integral 1, JSON.floating ⟨-25, -1⟩,
            JSON.boolean true])])
    ∧ JSON.Load "42 x".toList = .ok (JSON.integral 42) :=
  ⟨(C13_trailing_bytes_ignored " ".toList
    "\x7b\"b\" : [1, -2.5 ,true],\n\"a\":\"\\/\\u00e9\"\x7d".toList _ "x]".toList (by decide)
    (ValueText.object _ _
      (MembersText.more [] ['b'] ['b'] [' '] [' '] "[1, -2.5 ,true]".toList [] _ _ _
        (by decide) (CharsText.char 'b' [] [] (by decide) (by decide) CharsText.nil)
        (by decide) (by decide)
        (ValueText.array _ _
          (ElementsText.more [] ['1'] [] _ _ _ (by decide)
            (ValueText.number _ _ (NumberText.plain '1' [] (by decide) (by decide)))
            (by decide)
            (ElementsText.more [' '] "-2.5".toList [' '] _ _ _ (by decide)
              (ValueText.number _ _ (NumberText.plain '-' "2.5".toList (by decide)
                (by decide)))
              (by decide)
              (ElementsText.last [] "true".toList [] _ (by decide) ValueText.true
                (by decide)))))
        (by decide)
        (MembersText.last ['\n'] ['a'] ['a'] [] [] "\"\\/\\u00e9\"".toList [] _
          (by decide) (CharsText.char 'a' [] [] (by decide) (by decide) CharsText.nil)
          (by decide) (by decide)
          (ValueText.string _ _
            (CharsText.escape '/' _ _ (by decide)
              (CharsText.unicode '0' '0' 'e' '9' [] [] (by decide) (by decide) (by decide)
                (by decide) CharsText.nil)))
          (by decide))))
    (fun h => absurd h (by decide))).1,
  (C13_trailing_bytes_ignored [] "42".toList _ " x".toList (by decide)
    (ValueText.number _ _ (NumberText.plain '4' ['2'] (by decide) (by decide)))
    (fun _ => ⟨' ', ['x'], rfl, by decide⟩)).1⟩

/-- C14 (the code looks up the empty last segment): for every header and every path
shorter than 2^31 characters, `resolve_asar_path` returns the same for the path with a
slash in front, and with a slash doubled.  A slash at the end is not tolerated: only the
loop discards empty segments, and the segment behind the last slash is looked up as it
is, so `/assets/image.png/` resolves to the child with the empty key of the entry, a
Null, where the other three paths of the example resolve to the entry. -/
theorem C14_trailing_slash_looks_up_empty_key :
    (∀ (a : Asar) (p : List Char), p.length + 1 < 2147483648 →
      a.resolve_asar_path ('/' :: p) = a.resolve_asar_path p)
    ∧ (∀ (a : Asar) (p q : List Char), p.length + q.length + 2 < 2147483648 →
      a.resolve_asar_path (p ++ '/' :: '/' :: q) = a.resolve_asar_path (p ++ '/' :: q))
    ∧ JSON.Load image_text = .ok image_header
    ∧ resolved ⟨image_archive, image_header, 85⟩ "assets/image.png".toList = .ok image_leaf
    ∧ resolved ⟨image_archive, image_header, 85⟩ "/assets/image.png".toList = .ok image_leaf
    ∧ resolved ⟨image_archive, image_header, 85⟩ "//assets//image.png".toList
        = .ok image_leaf
    ∧ resolved ⟨image_archive, image_header, 85⟩ "/assets/image.png/".toList
        = .ok JSON.null
    ∧ (Asar.resolve_asar_path ⟨image_archive, image_header, 85⟩
        "/assets/image.png/".toList).map Prod.snd
        = .ok ["files".toList, "assets".toList, "files".toList, "image.png".toList, []] := by
  refine ⟨fun a p h => ?_, fun a p q h => ?_, rfl, rfl, rfl, rfl, rfl, rfl⟩
  · rw [resolve_asar_path_walk a _ (by simp only [List.length_cons]; omega),
      resolve_asar_path_walk a p (by omega), lookup_keys_leading_slash]
  · rw [resolve_asar_path_walk a _ (by simp; omega),
      resolve_asar_path_walk a (p ++ '/' :: q) (by simp; omega)]
    simp only [lookup_keys, path_keys_doubled_slash]

/-- C14 (witness): `/assets//image.png` and `/assets/image.png` in the example. -/
theorem C14_trailing_slash_looks_up_empty_key_witness :
    Asar.resolve_asar_path ⟨image_archive, image_header, 85⟩ "/assets//image.png".toList
      = Asar.resolve_asar_path ⟨image_archive, image_header, 85⟩ "/assets/image.png".toList :=
  C14_trailing_slash_looks_up_empty_key.2.1 ⟨image_archive, image_header, 85⟩
    "/assets".toList "image.png".toList (by decide)

/-- C15: for every header (a Null or a value without `files` included) and every path
(shorter than 2^31 characters) whose chain of keys leaves the header,
`resolve_asar_path` returns a pointer to a Null without failing, `exist` is false, and
`content` returns the empty string whatever the file holds: it does not read it. -/
theorem C15_missing_path_is_soft_failure (to_str_f : LongDouble → List Char) (a : Asar)
    (path : List Char) (hlen : path.length < 2147483648)
    (habs : node_at a.header (lookup_keys path) = none) :
    resolved a path = .ok JSON.null
    ∧ (a.exist path).map Prod.fst = .ok false
    ∧ ∀ file : List Char,
        (Asar.content to_str_f ⟨file, a.header, a.offset⟩ path).map Prod.fst = .ok [] := by
  have hnull := (walk_node_of_node_at (lookup_keys path) a.header).2 habs
  refine ⟨by rw [resolved_eq a path hlen, hnull], ?_, fun file => ?_⟩
  · obtain ⟨a1, hr, -, -, hn⟩ := resolve_asar_path_node a path hlen
    rw [hnull] at hn
    simp [Asar.exist, hr, bind, Except.bind, deref, hn, JSON.IsNull, JSON.JSONType, pure,
      Except.pure, Except.map]
  · obtain ⟨a1, hr, -, -, hn⟩ := resolve_asar_path_node ⟨file, a.header, a.offset⟩ path hlen
    simp only at hn
    rw [hnull] at hn
    simp [Asar.content, hr, bind, Except.bind, deref, hn, Asar.exist_file, JSON.IsNull,
      JSON.JSONType, pure, Except.pure, Except.map]

/-- C15 (witness): `/missing/path` in the example, and with a Null header and an empty
file. -/
theorem C15_missing_path_is_soft_failure_witness :
    resolved ⟨image_archive, image_header, 85⟩ "/missing/path".toList = .ok JSON.null
    ∧ (Asar.exist ⟨image_archive, image_header, 85⟩ "/missing/path".toList).map Prod.fst
        = .ok false
    ∧ (Asar.content (fun _ => []) ⟨[], JSON.null, 0⟩ "/missing/path".toList).map Prod.fst
        = .ok [] :=
  ⟨(C15_missing_path_is_soft_failure (fun _ => []) ⟨image_archive, image_header, 85⟩
      "/missing/path".toList (by decide) rfl).1,
    (C15_missing_path_is_soft_failure (fun _ => []) ⟨image_archive, image_header, 85⟩
      "/missing/path".toList (by decide) rfl).2.1,
    (C15_missing_path_is_soft_failure (fun _ => []) ⟨[], JSON.null, 0⟩
      "/missing/path".toList (by decide) rfl).2.2 []⟩

/-- C16 (counterexample to the claim as written): with the numeric `offset` field of the
example header the entry exists, but `content` raises `std::invalid_argument`:
`ToString` of a value that is no String is the empty text, which `std::stoull` rejects. -/
theorem C16_counterexample :
    JSON.Load numeric_text = .ok numeric_header
    ∧ (Asar.exist ⟨image_archive, numeric_header, 85⟩ "/assets/image.png".toList).map Prod.fst
        = .ok true
    ∧ Asar.content (fun _ => []) ⟨image_archive, numeric_header, 85⟩
        "/assets/image.png".toList = .error Fault.invalid_argument :=
  ⟨rfl, rfl, rfl⟩

/-- C16 (as amended): for an entry that exists, with an Integral `size` that is not
negative and an `offset` that is a String of decimal digits, in an archive whose file
(shorter than 2^63 bytes) holds the bytes, `content` returns exactly `size` bytes of the
file, those from byte `offset` of the object plus the `offset` of the entry on. -/
theorem C16_content_of_entry (to_str_f : LongDouble → List Char) (a : Asar)
    (path : List Char) (m : List (List Char × JSON)) (sz : Int) (off : List Char)
    (hlen : path.length < 2147483648)
    (hnode : node_at a.header (lookup_keys path) = some (JSON.object m))
    (hs : map_find m "size".toList = some (JSON.integral sz))
    (ho : map_find m "offset".toList = some (JSON.string off))
    (hsz : 0 ≤ sz) (hoff : off ≠ []) (hdig : ∀ c ∈ off, isdigit c = true)
    (hbase : 0 ≤ a.offset)
    (hfile : a.offset.toNat + digitsVal off + sz.toNat ≤ a.file.length)
    (hsmall : a.file.length < 9223372036854775808) :
    (a.content to_str_f path).map Prod.fst
        = .ok ((a.file.drop (a.offset.toNat + digitsVal off)).take sz.toNat)
    ∧ ((a.file.drop (a.offset.toNat + digitsVal off)).take sz.toNat).length = sz.toNat := by
  obtain ⟨a1, hr, hf, hofs, hn⟩ := resolve_asar_path_node a path hlen
  rw [(walk_node_of_node_at _ _).1 _ hnode] at hn
  obtain ⟨e1, e2⟩ := content_fields a1.header (lookup_keys path) m _ _ hn hs ho
  have hlen2 : ((a.file.drop (a.offset.toNat + digitsVal off)).take sz.toNat).length
      = sz.toNat := by
    rw [List.length_take, List.length_drop]
    omega
  refine ⟨?_, hlen2⟩
  have hu : to_uint64 a.offset = a.offset.toNat := by
    unfold to_uint64
    rw [Int.emod_eq_of_lt hbase (by omega)]
  have hpos : (to_uint64 a.offset + digitsVal off) % 18446744073709551616
      = a.offset.toNat + digitsVal off := by
    rw [hu, Nat.mod_eq_of_lt (by omega)]
  have hread : stream_read a.file (a.offset.toNat + digitsVal off) sz.toNat
      = (a.file.drop (a.offset.toNat + digitsVal off)).take sz.toNat := by
    unfold stream_read
    rw [if_neg (by omega)]
  unfold Asar.content
  simp only [hr, bind, Except.bind, deref, hn, Asar.exist_file, JSON.IsNull, JSON.JSONType]
  simp only [deref] at e1 e2
  simp only [e1, e2, JSON.stringify, stoull_to_str sz hsz (by omega), JSON.ToString,
    json_escape_digits off hdig, stoull_digits off hoff hdig (by omega), hf, hofs, hpos, hread,
    hlen2]
  simp [pure, Except.pure, Except.map]

/-- C16 (witness): the example archive, whose constructor yields the example header and
the base offset 85; the content of `/assets/image.png` is the 10 bytes behind the
header. -/
theorem C16_content_of_entry_witness :
    Asar.Asar image_archive = .ok ⟨image_archive, image_header, 85⟩
    ∧ (Asar.content (fun _ => []) ⟨image_archive, image_header, 85⟩
        "/assets/image.png".toList).map Prod.fst = .ok "0123456789".toList :=
  ⟨rfl, (C16_content_of_entry (fun _ => []) ⟨image_archive, image_header, 85⟩
    "/assets/image.png".toList
    [("offset".toList, JSON.string "0".toList), ("size".toList, JSON.integral 10)] 10
    "0".toList (by decide) rfl rfl rfl (by decide) (by decide) (by decide) (by decide)
    (by decide) (by decide)).1⟩

/-- C17: for a file of at least 8 bytes whose size field `s` (bytes 4 to 7, little
endian) satisfies `8 <= s < 2^31 - 8`, the constructor asks for `s - 8` bytes from byte 16
on, parses them (as a C string) as the header, and sets the base offset to
`16 + (s - 8)`; when the file holds them, the bytes read are exactly these `s - 8`. -/
theorem C17_header_layout (file : List Char) (s : Nat) (h8 : 8 ≤ file.length)
    (hs : uint32_at ((file.drop 4).take 4) = s) (hlo : 8 ≤ s) (hhi : s < 2147483648 - 8) :
    Asar.Asar file
      = (if (stream_read file 16 (s - 8)).length < s - 8 ∧ '\x00' ∉ stream_read file 16 (s - 8)
        then .error Fault.undefined
        else (JSON.Load ((stream_read file 16 (s - 8)).takeWhile (fun c => c != '\x00'))).map
          (fun h => ⟨file, h, ((16 + (s - 8) : Nat) : Int)⟩))
    ∧ (16 + (s - 8) ≤ file.length →
        stream_read file 16 (s - 8) = (file.drop 16).take (s - 8)
        ∧ ((file.drop 16).take (s - 8)).length = s - 8)
    ∧ (∀ a, Asar.Asar file = .ok a → a.offset = ((16 + (s - 8) : Nat) : Int) ∧ a.file = file) := by
  have hu : (s + 4294967296 - 8) % 4294967296 = s - 8 := by
    rw [show s + 4294967296 - 8 = (s - 8) + 4294967296 by omega, Nat.add_mod_right,
      Nat.mod_eq_of_lt (by omega)]
  have h1 : ¬ ((s - 8 + 1) % 4294967296 = 0) := by
    rw [Nat.mod_eq_of_lt (by omega)]
    omega
  have ho : to_int ((s - 8 + 16) % 4294967296) = ((16 + (s - 8) : Nat) : Int) := by
    rw [Nat.mod_eq_of_lt (by omega), to_int_of_lt (by omega), Nat.add_comm]
  have hmain : Asar.Asar file
      = (if (stream_read file 16 (s - 8)).length < s - 8 ∧ '\x00' ∉ stream_read file 16 (s - 8)
        then .error Fault.undefined
        else (JSON.Load ((stream_read file 16 (s - 8)).takeWhile (fun c => c != '\x00'))).map
          (fun h => ⟨file, h, ((16 + (s - 8) : Nat) : Int)⟩)) := by
    unfold Asar.Asar
    rw [if_neg (by omega)]
    simp only [hs, hu, if_neg h1, ho]
    split_ifs
    · rfl
    · cases JSON.Load ((stream_read file 16 (s - 8)).takeWhile (fun c => c != '\x00')) <;> rfl
  refine ⟨hmain, fun hfile => ?_, fun a ha => ?_⟩
  · have : stream_read file 16 (s - 8) = (file.drop 16).take (s - 8) := by
      unfold stream_read
      rw [if_neg (by omega)]
    refine ⟨this, ?_⟩
    rw [List.length_take, List.length_drop]
    omega
  · rw [hmain] at ha
    split_ifs at ha
    cases hl : JSON.Load ((stream_read file 16 (s - 8)).takeWhile (fun c => c != '\x00')) with
    | error e => rw [hl] at ha; cases ha
    | ok h =>
      rw [hl] at ha
      cases ha
      exact ⟨rfl, rfl⟩

/-- C17 (witness): a size field of 40 gives a header of 32 bytes and the base offset 48. -/
theorem C17_header_layout_witness :
    uint32_at ((small_archive.drop 4).take 4) = 40
    ∧ stream_read small_archive 16 (40 - 8)
        = "\x7b\"files\":\x7b\"a.txt\":\x7b\"size\":10\x7d\x7d\x7d ".toList
    ∧ (Asar.Asar small_archive).map (fun a => a.offset) = .ok 48 := by
  obtain ⟨h1, h2, -⟩ := C17_header_layout small_archive 40 (by decide) rfl (by decide)
    (by decide)
  refine ⟨rfl, ?_, ?_⟩
  · rw [(h2 (by decide)).1]
    rfl
  · rw [h1]
    rfl

/-- C18: when the header has the node `files.d1.files. ... .dn.files.f`, the names `d1`,
..., `dn` being non-empty without a dot or slash and `f` without a slash, then
`resolve_asar_path` on `/d1/.../dn/f` (shorter than 2^31 characters) returns the pointer to
exactly that node, whether or not `f` has a dot. -/
theorem C18_resolution_through_directories (a : Asar) (ds : List (List Char))
    (f : List Char) (n : JSON)
    (hds : ∀ d ∈ ds, d ≠ [] ∧ '.' ∉ d ∧ '/' ∉ d) (hf : '/' ∉ f)
    (hlen : ('/' :: ((ds.map (fun d => d ++ ['/'])).flatten ++ f)).length < 2147483648)
    (hn : node_at a.header
      ("files".toList :: ((ds.map (fun d => [d, "files".toList])).flatten ++ [f])) = some n) :
    resolved a ('/' :: ((ds.map (fun d => d ++ ['/'])).flatten ++ f)) = .ok n
    ∧ (a.resolve_asar_path ('/' :: ((ds.map (fun d => d ++ ['/'])).flatten ++ f))).map
        Prod.snd
        = .ok ("files".toList :: ((ds.map (fun d => [d, "files".toList])).flatten ++ [f])) := by
  have hk : lookup_keys ('/' :: ((ds.map (fun d => d ++ ['/'])).flatten ++ f))
      = "files".toList :: ((ds.map (fun d => [d, "files".toList])).flatten ++ [f]) := by
    rw [lookup_keys_leading_slash, lookup_keys, lookup_keys_directories ds f hds hf]
  constructor
  · rw [resolved_eq a _ hlen, hk, (walk_node_of_node_at _ _).1 n hn]
  · obtain ⟨a1, hr, -, -, -⟩ := resolve_asar_path_node a _ hlen
    rw [hr, hk]
    rfl

/-- C18 (witness): `/assets/image.png` in the example resolves to the entry. -/
theorem C18_resolution_through_directories_witness :
    resolved ⟨image_archive, image_header, 85⟩ "/assets/image.png".toList = .ok image_leaf :=
  (C18_resolution_through_directories ⟨image_archive, image_header, 85⟩ ["assets".toList]
    "image.png".toList image_leaf (by decide) (by decide) (by decide) rfl).1

/-- C19 (what the code does): for every object `a` in memory that denotes a value `v`
(any tag), the copy constructor returns an object `b` that denotes `v`; `a` still denotes
`v`; the value of `a` depends only on the blocks allocated before the copy, so whatever
is written to the blocks of `b` or allocated later leaves `a` unchanged; and the value
of `b` depends only on the blocks the copy allocated, so whatever is written to the
blocks of `a` leaves `b` unchanged.  Copy assignment of `a` to a separate object, one
that was itself made by the copy constructor from any object `c` that denotes a value
(`Null` for a fresh `JSON`), releases the payload of that object and gives the same.
Copy assignment of an Object or an Array to itself does not: `ClearInternal` has deleted
the block the copy then reads, which is undefined behaviour. -/
theorem C19_deep_copy_independence (fuel : Nat) (mem : Memory) (a : Stored) (v : JSON)
    (ha : value_of fuel mem a = some v) :
    (∃ (mem1 : Memory) (b : Stored),
      copy_construct fuel mem a = .ok (mem1, b)
      ∧ value_of fuel mem1 b = some v
      ∧ value_of fuel mem1 a = some v
      ∧ mem.length ≤ mem1.length
      ∧ (∀ mem2, same_on 0 mem.length mem2 mem1 → value_of fuel mem2 a = some v)
      ∧ (∀ mem2, same_on mem.length mem1.length mem2 mem1 → value_of fuel mem2 b = some v)
      ∧ (∀ (p : Nat) (blk : Block) (more : Memory), mem.length ≤ p →
          value_of fuel (mem1.set p blk ++ more) a = some v)
      ∧ (∀ (p : Nat) (blk : Block) (more : Memory), p < mem.length →
          value_of fuel (mem1.set p blk ++ more) b = some v))
    ∧ (∀ (c : Stored) (w : JSON), value_of fuel mem c = some w →
        ∃ (mem0 : Memory) (self : Stored) (mem1 : Memory) (b : Stored),
          copy_construct fuel mem c = .ok (mem0, self)
          ∧ copy_assign fuel mem0 self a = .ok (mem1, b)
          ∧ value_of fuel mem1 b = some v
          ∧ value_of fuel mem1 a = some v
          ∧ mem.length ≤ mem0.length ∧ mem0.length ≤ mem1.length
          ∧ (∀ mem2, same_on 0 mem.length mem2 mem1 → value_of fuel mem2 a = some v)
          ∧ (∀ mem2, same_on mem0.length mem1.length mem2 mem1 →
              value_of fuel mem2 b = some v)
          ∧ (∀ (p : Nat) (blk : Block) (more : Memory), mem.length ≤ p →
              value_of fuel (mem1.set p blk ++ more) a = some v)
          ∧ (∀ (p : Nat) (blk : Block) (more : Memory), p < mem0.length →
              value_of fuel (mem1.set p blk ++ more) b = some v))
    ∧ (∀ p : Nat, a = .object p ∨ a = .array p →
        copy_assign fuel mem a a = .error Fault.undefined) := by
  refine ⟨?_, ?_, fun p hp => copy_assign_self_undefined fuel mem a v ha p hp⟩
  · obtain ⟨extra, b, hc, hb⟩ := copy_construct_spec fuel mem a v ha
    have hl : (mem ++ extra).length = mem.length + extra.length := List.length_append _ _
    have h1 : ∀ mem2, same_on 0 mem.length mem2 (mem ++ extra) →
        value_of fuel mem2 a = some v :=
      fun mem2 h2 => value_of_same fuel mem mem2 a v ha
        (same_on_trans_append extra h2 (le_refl _))
    have h2 : ∀ mem2, same_on mem.length (mem ++ extra).length mem2 (mem ++ extra) →
        value_of fuel mem2 b = some v :=
      fun mem2 h2 => hb mem2 (by rw [← hl]; exact h2)
    exact ⟨mem ++ extra, b, hc, hb _ (fun _ _ _ => rfl),
      value_of_same fuel mem _ a v ha (same_on_append_left mem extra), by omega, h1, h2,
      fun p blk more hp => h1 _ (same_on_set_append _ p blk more (fun q _ hq => by omega)),
      fun p blk more hp => h2 _ (same_on_set_append _ p blk more (fun q hq _ => by omega))⟩
  · intro c w hcw
    obtain ⟨e0, self, hc0, _⟩ := copy_construct_spec fuel mem c w hcw
    obtain ⟨M, hM, hMl, hMf⟩ := ClearInternal_copy fuel mem c w hcw e0 self hc0 (mem ++ e0)
      (fun _ _ _ => rfl)
    have hMa : value_of fuel M a = some v :=
      value_of_same fuel mem M a v ha (fun p _ hp => by
        rw [hMf p (Or.inl hp), List.getElem?_append_left hp])
    obtain ⟨e1, b, hc1, hb⟩ := copy_construct_spec fuel M a v hMa
    have hl0 : (mem ++ e0).length = mem.length + e0.length := List.length_append _ _
    have hl1 : (M ++ e1).length = M.length + e1.length := List.length_append _ _
    have h1 : ∀ mem2, same_on 0 mem.length mem2 (M ++ e1) → value_of fuel mem2 a = some v :=
      fun mem2 h2 => value_of_same fuel mem mem2 a v ha (fun p hp1 hp2 => by
        rw [h2 p hp1 hp2, List.getElem?_append_left (by omega), hMf p (Or.inl hp2),
          List.getElem?_append_left hp2])
    have h2 : ∀ mem2, same_on (mem ++ e0).length (M ++ e1).length mem2 (M ++ e1) →
        value_of fuel mem2 b = some v :=
      fun mem2 h2 => hb mem2 (by rw [← hl1, hMl]; exact h2)
    refine ⟨mem ++ e0, self, M ++ e1, b, hc0, ?_, hb _ (fun _ _ _ => rfl),
      value_of_same fuel M _ a v hMa (same_on_append_left M e1), by omega, by omega, h1, h2,
      fun p blk more hp => h1 _ (same_on_set_append _ p blk more (fun q _ hq => by omega)),
      fun p blk more hp => h2 _ (same_on_set_append _ p blk more (fun q hq _ => by omega))⟩
    simp [copy_assign, hM, bind, Except.bind, hc1]

/-- C19 (witness): the Object `{"x":[1,"s"]}` at address 2 of `copy_memory`: its copy,
its assignment to a copy of the Array at address 1, and its assignment to itself. -/
theorem C19_deep_copy_independence_witness :
    (∃ (mem1 : Memory) (b : Stored),
      copy_construct 3 copy_memory (Stored.object 2) = .ok (mem1, b)
      ∧ value_of 3 mem1 b = some copy_value
      ∧ value_of 3 mem1 (Stored.object 2) = some copy_value
      ∧ copy_memory.length ≤ mem1.length
      ∧ (∀ mem2, same_on 0 copy_memory.length mem2 mem1 →
          value_of 3 mem2 (Stored.object 2) = some copy_value)
      ∧ (∀ mem2, same_on copy_memory.length mem1.length mem2 mem1 →
          value_of 3 mem2 b = some copy_value)
      ∧ (∀ (p : Nat) (blk : Block) (more : Memory), copy_memory.length ≤ p →
          value_of 3 (mem1.set p blk ++ more) (Stored.object 2) = some copy_value)
      ∧ (∀ (p : Nat) (blk : Block) (more : Memory), p < copy_memory.length →
          value_of 3 (mem1.set p blk ++ more) b = some copy_value))
    ∧ (∃ (mem0 : Memory) (self : Stored) (mem1 : Memory) (b : Stored),
        copy_construct 3 copy_memory (Stored.array 1) = .ok (mem0, self)
        ∧ copy_assign 3 mem0 self (Stored.object 2) = .ok (mem1, b)
        ∧ value_of 3 mem1 b = some copy_value
        ∧ value_of 3 mem1 (Stored.object 2) = some copy_value
        ∧ copy_memory.length ≤ mem0.length ∧ mem0.length ≤ mem1.length
        ∧ (∀ mem2, same_on 0 copy_memory.length mem2 mem1 →
            value_of 3 mem2 (Stored.object 2) = some copy_value)
        ∧ (∀ mem2, same_on mem0.length mem1.length mem2 mem1 →
            value_of 3 mem2 b = some copy_value)
        ∧ (∀ (p : Nat) (blk : Block) (more : Memory), copy_memory.length ≤ p →
            value_of 3 (mem1.set p blk ++ more) (Stored.object 2) = some copy_value)
        ∧ (∀ (p : Nat) (blk : Block) (more : Memory), p < mem0.length →
            value_of 3 (mem1.set p blk ++ more) b = some copy_value))
    ∧ copy_assign 3 copy_memory (Stored.object 2) (Stored.object 2)
        = .error Fault.undefined :=
  have h := C19_deep_copy_independence 3 copy_memory (Stored.object 2) copy_value rfl
  ⟨h.1, h.2.1 (Stored.array 1) (JSON.array [JSON.integral 1, JSON.string "s".toList]) rfl,
    h.2.2 2 (Or.inl rfl)⟩

/-- C20 (counterexample to the claim as written): for the text `[1 2]` the result is
the empty Array, which does not hold the element 1; the Object parser does return the
pair read before the error. -/
theorem C20_counterexample :
    JSON.Load "[1 2]".toList = .ok (JSON.array [])
    ∧ JSON.Load "\x7b\"a\":1 \"b\":2\x7d".toList
        = .ok (JSON.object [("a".toList, JSON.integral 1)]) :=
  ⟨rfl, rfl⟩

/-- C20 (as amended): let `parse_array` or `parse_object` be called at `offset` with fuel
for the rest of the text, `start` be the offset of the first character behind the
opening bracket that is not white space, and `c`, the character at `stop`, be no comma.
When the loop of `parse_array` has read fewer than 2^32 elements from `start` on
(`Elements`: each is what `parse_next` returns, up to the offset it leaves, so `2x` is
read as a Null up to behind `x`) and `c`, the first character behind the last of them
that is not white space, is not `]`, the result is a new empty Array: the elements read
are discarded.  When the loop of `parse_object` has read members (`Members`) and `c`,
the first character behind the value of the last that is not white space, is no closing
brace, the result is the Object with the members read so far assigned. -/
theorem C20_array_error_returns_empty_array (fuel : Nat) (str : List Char)
    (offset start stop : Nat) (first c : Char)
    (hfuel : str.length ≤ fuel + offset)
    (hstart : consume_ws str (offset + 1) = .ok start)
    (hfirst : charAt str start = .ok first)
    (hstop : charAt str stop = .ok c)
    (hcomma : c ≠ ',') :
    (∀ values : List JSON, first ≠ ']' → Elements (parse_next fuel) str start values stop →
        values.length < 4294967296 → c ≠ ']' →
        parse_array (parse_next fuel) str offset = .ok (JSON.array [], stop))
    ∧ (∀ members : List (JSON × JSON), first ≠ '\x7d' →
        Members (parse_next fuel) str start members stop → c ≠ '\x7d' →
        parse_object (parse_next fuel) str offset
          = .ok (assign_members (JSON.object []) members, stop)) := by
  have hs := ((consume_ws_spec str (offset + 1)).2 start hstart).1
  have hmono : ∀ o v o1, offset + 1 ≤ o → parse_next fuel str o = .ok (v, o1) → o ≤ o1 :=
    fun o v o1 ho h => parse_next_ok_mono (by omega) h
  have hle := charAt_le hstop
  constructor
  · intro values hf he hlen hc
    have := parse_array_loop_elements hmono hcomma hc he (str.length - start + 1) []
      hs (by omega) (by simpa using hlen) hstop
    simp only [parse_array, hstart, hfirst, bind, Except.bind, if_neg hf]
    exact this
  · intro members hf hm hc
    have := parse_object_loop_members hmono hcomma hc hm (str.length - start + 1)
      (JSON.Make Class.Object) hs (by omega) hstop
    simp only [parse_object, hstart, hfirst, bind, Except.bind, if_neg hf]
    exact this

/-- C20 (witness): the texts `[1 2]`, `[1,2x y]` and `{"a":1 "b":2}`. -/
theorem C20_array_error_returns_empty_array_witness :
    parse_array (parse_next 5) "[1 2]".toList 0 = .ok (JSON.array [], 3)
    ∧ parse_array (parse_next 8) "[1,2x y]".toList 0 = .ok (JSON.array [], 6)
    ∧ parse_object (parse_next 15) "\x7b\"a\":1 \"b\":2\x7d".toList 0
        = .ok (JSON.object [("a".toList, JSON.integral 1)], 7) :=
  ⟨(C20_array_error_returns_empty_array 5 "[1 2]".toList 0 1 3 '1' '2' (by decide) rfl rfl rfl
      (by decide)).1 [JSON.integral 1] (by decide) (Elements.last 1 2 3 _ rfl rfl)
      (by decide) (by decide),
    (C20_array_error_returns_empty_array 8 "[1,2x y]".toList 0 1 6 '1' 'y' (by decide) rfl rfl
      rfl (by decide)).1 [JSON.integral 1, JSON.null] (by decide)
      (Elements.more 1 2 2 6 _ _ rfl rfl rfl (Elements.last 3 5 6 _ rfl rfl))
      (by decide) (by decide),
    (C20_array_error_returns_empty_array 15 "\x7b\"a\":1 \"b\":2\x7d".toList 0 1 7 '"' '"'
      (by decide) rfl rfl rfl (by decide)).2 [(JSON.string "a".toList, JSON.integral 1)]
      (by decide) (Members.last 1 4 4 5 6 7 _ _ rfl rfl rfl rfl rfl rfl) (by decide)⟩

/-- C21 (counterexample to the claim as written): in the header of the example (with 7
for `X`) the path `/v1.0/files/a` does not resolve to `X` either: the segment `files` has
no dot, so it is followed by a step into its `files` member, and the pointer returned is
`files.v1.0.files.files.a`, a Null, while `X` is at `files.v1.0.files.a`. -/
theorem C21_counterexample :
    resolved ⟨[], dotted_header (JSON.integral 7), 0⟩ "/v1.0/files/a".toList = .ok JSON.null
    ∧ (Asar.resolve_asar_path ⟨[], dotted_header (JSON.integral 7), 0⟩
        "/v1.0/files/a".toList).map Prod.snd
        = .ok ["files".toList, "v1.0".toList, "files".toList, "files".toList, "a".toList]
    ∧ node_at (dotted_header (JSON.integral 7))
        ["files".toList, "v1.0".toList, "files".toList, "a".toList] = some (JSON.integral 7) :=
  ⟨rfl, rfl, rfl⟩

/-- C21 (as amended): for a path `/d1/.../dn/i/rest` (shorter than 2^31 characters)
whose segment `i` has a dot, the directories `d1`, ..., `dn` having none,
`resolve_asar_path` looks up `i` and then goes on with the keys of `rest`, without the
key `files` in between.  So in the header of the example, for every `X`, `/v1.0/a`
resolves to `files.v1.0.a`, a Null; `/v1.0/files/a` resolves to `files.v1.0.files.files.a`,
a Null; and no path resolves to the node `files.v1.0.files.a` of `X`. -/
theorem C21_dot_segment_skips_files :
    (∀ (a : Asar) (ds : List (List Char)) (i rest : List Char),
      (∀ d ∈ ds, d ≠ [] ∧ '.' ∉ d ∧ '/' ∉ d) → '.' ∈ i → '/' ∉ i →
      ('/' :: ((ds.map (fun d => d ++ ['/'])).flatten ++ (i ++ '/' :: rest))).length
        < 2147483648 →
      (a.resolve_asar_path
          ('/' :: ((ds.map (fun d => d ++ ['/'])).flatten ++ (i ++ '/' :: rest)))).map Prod.snd
        = .ok ("files".toList :: ((ds.map (fun d => [d, "files".toList])).flatten
            ++ i :: path_keys [] rest)))
    ∧ (∀ (X : JSON) (file : List Char) (offset : Int),
      node_at (dotted_header X) ["files".toList, "v1.0".toList, "files".toList, "a".toList]
        = some X
      ∧ resolved ⟨file, dotted_header X, offset⟩ "/v1.0/a".toList = .ok JSON.null
      ∧ (Asar.resolve_asar_path ⟨file, dotted_header X, offset⟩ "/v1.0/a".toList).map Prod.snd
          = .ok ["files".toList, "v1.0".toList, "a".toList]
      ∧ resolved ⟨file, dotted_header X, offset⟩ "/v1.0/files/a".toList = .ok JSON.null
      ∧ (Asar.resolve_asar_path ⟨file, dotted_header X, offset⟩
          "/v1.0/files/a".toList).map Prod.snd
          = .ok ["files".toList, "v1.0".toList, "files".toList, "files".toList, "a".toList]
      ∧ ∀ path : List Char, path.length < 2147483648 →
          (Asar.resolve_asar_path ⟨file, dotted_header X, offset⟩ path).map Prod.snd
            ≠ .ok ["files".toList, "v1.0".toList, "files".toList, "a".toList]) := by
  constructor
  · intro a ds i rest hds hi hs hlen
    obtain ⟨a1, hr, -, -, -⟩ := resolve_asar_path_node a _ hlen
    have hine : i ≠ [] := by
      rintro rfl
      simp at hi
    rw [hr, lookup_keys_leading_slash, lookup_keys, path_keys_directories_then ds _ hds]
    have := path_keys_first i rest hs []
    simp only [List.nil_append] at this
    rw [this]
    simp [segment_keys, hine, hi, Except.map]
  · intro X file offset
    have hk : ∀ path : List Char, path.length < 2147483648 →
        (Asar.resolve_asar_path ⟨file, dotted_header X, offset⟩ path).map Prod.snd
          = .ok (lookup_keys path) := by
      intro path hlen
      obtain ⟨a1, hr, -, -, -⟩ := resolve_asar_path_node ⟨file, dotted_header X, offset⟩ path hlen
      rw [hr]
      rfl
    refine ⟨by simp [dotted_header, node_at, map_find], ?_, ?_, ?_, ?_, ?_⟩
    · rw [resolved_eq _ _ (by decide)]
      rfl
    · rw [hk _ (by decide)]
      rfl
    · rw [resolved_eq _ _ (by decide)]
      rfl
    · rw [hk _ (by decide)]
      rfl
    · intro path hlen
      rw [hk path hlen]
      intro he
      have h1 : lookup_keys path = ["files".toList, "v1.0".toList, "files".toList, "a".toList] :=
        Except.ok.inj he
      exact path_keys_ne_dotted _ path rfl (List.cons.inj h1).2

/-- C21 (witness): `/app/v1.0/a`, whose keys are `files`, `app`, `files`, `v1.0`, `a`. -/
theorem C21_dot_segment_skips_files_witness :
    (Asar.resolve_asar_path ⟨[], dotted_header JSON.null, 0⟩ "/app/v1.0/a".toList).map Prod.snd
      = .ok ["files".toList, "app".toList, "files".toList, "v1.0".toList, "a".toList] :=
  C21_dot_segment_skips_files.1 ⟨[], dotted_header JSON.null, 0⟩ ["app".toList] "v1.0".toList
    "a".toList (by decide) (by decide) (by decide) (by decide)

/-- C23 (the lookups write into the header): `resolve_asar_path` goes through the
mutable `at`.  When the chain of keys of the path is in the header (a header with
ascending keys, a path shorter than 2^31 characters), `resolve_asar_path` and `exist`
return the object as it was, and so does `content` when the entry has the members
`size` and `offset`.  When it is not, the missing nodes are inserted: in the example
`exist` of `/missing` is false, and after `exist`, `content` or `resolve_asar_path` of
`/missing/path` the header has the member `missing` and `exist` of `/missing` is true. -/
theorem C23_lookup_of_missing_path_inserts_nodes (to_str_f : LongDouble → List Char) :
    (∀ (a : Asar) (path : List Char) (n : JSON), path.length < 2147483648 →
      a.header.ordered → node_at a.header (lookup_keys path) = some n →
      a.resolve_asar_path path = .ok (a, lookup_keys path)
      ∧ a.exist path = .ok (!n.IsNull, a)
      ∧ ((∃ vs vo, child n "size".toList = some vs ∧ child n "offset".toList = some vo) →
          ∀ r, a.content to_str_f path = .ok r → r.2 = a))
    ∧ (Asar.exist ⟨image_archive, image_header, 85⟩ "/missing".toList).map Prod.fst
        = .ok false
    ∧ (Asar.exist ⟨image_archive, image_header, 85⟩ "/missing/path".toList).map Prod.fst
        = .ok false
    ∧ (Asar.exist ⟨image_archive, image_header, 85⟩ "/missing/path".toList).map
        (fun r => node_at r.2.header ["files".toList, "missing".toList])
        = .ok (some (JSON.object [("files".toList,
            JSON.object [("path".toList, JSON.null)])]))
    ∧ node_at image_header ["files".toList, "missing".toList] = none
    ∧ ((Asar.exist ⟨image_archive, image_header, 85⟩ "/missing/path".toList).bind
        (fun r => r.2.exist "/missing".toList)).map Prod.fst = .ok true
    ∧ ((Asar.content to_str_f ⟨image_archive, image_header, 85⟩ "/missing/path".toList).bind
        (fun r => r.2.exist "/missing".toList)).map Prod.fst = .ok true
    ∧ ((Asar.resolve_asar_path ⟨image_archive, image_header, 85⟩ "/missing/path".toList).bind
        (fun r => r.1.exist "/missing".toList)).map Prod.fst = .ok true := by
  refine ⟨fun a path n hlen ho hn => ?_, rfl, rfl, rfl, rfl, rfl, rfl, rfl⟩
  have hr := resolve_asar_path_same a path n hlen ho hn
  refine ⟨hr, ?_, ?_⟩
  · simp [Asar.exist, hr, bind, Except.bind, deref, hn, pure, Except.pure]
  · rintro ⟨vs, vo, hs, hoff⟩ r hc
    have h1 := at_address_same a.header (lookup_keys path) "size".toList n vs ho hn hs
    have h2 := at_address_same a.header (lookup_keys path) "offset".toList n vo ho hn hoff
    have hnn : n.IsNull = false := by
      cases n <;> simp_all [child, JSON.IsNull, JSON.JSONType]
    have hd1 : deref a.header (lookup_keys path ++ ["size".toList]) = .ok vs := by
      have := (at_address_spec a.header (lookup_keys path) "size".toList n hn).2
      rw [h1, hs] at this
      simp only [Option.getD] at this
      simp only [deref, this]
    have hd2 : deref a.header (lookup_keys path ++ ["offset".toList]) = .ok vo := by
      have := (at_address_spec a.header (lookup_keys path) "offset".toList n hn).2
      rw [h2, hoff] at this
      simp only [Option.getD] at this
      simp only [deref, this]
    unfold Asar.content at hc
    simp only [hr, bind, Except.bind, show deref a.header (lookup_keys path) = .ok n by
      simp only [deref, hn], Asar.exist_file, hnn, Bool.not_false, Bool.not_true,
      Bool.false_eq_true, if_false, h1, hd1, h2, hd2] at hc
    cases hs1 : stoull (JSON.stringify to_str_f vs) with
    | error e => simp [hs1] at hc
    | ok sz =>
      simp only [hs1] at hc
      cases hs2 : stoull vo.ToString.1 with
      | error e => simp [hs2] at hc
      | ok off =>
        simp only [hs2] at hc
        split_ifs at hc
        simp only [pure, Except.pure, Except.ok.injEq] at hc
        rw [← hc]

/-- C23 (witness): the lookup of `/assets/image.png` leaves the example as it was. -/
theorem C23_lookup_of_missing_path_inserts_nodes_witness :
    Asar.resolve_asar_path ⟨image_archive, image_header, 85⟩ "/assets/image.png".toList
        = .ok (⟨image_archive, image_header, 85⟩,
            ["files".toList, "assets".toList, "files".toList, "image.png".toList])
    ∧ Asar.exist ⟨image_archive, image_header, 85⟩ "/assets/image.png".toList
        = .ok (true, ⟨image_archive, image_header, 85⟩) := by
  have h := (C23_lookup_of_missing_path_inserts_nodes (fun _ => [])).1
    ⟨image_archive, image_header, 85⟩ "/assets/image.png".toList image_leaf (by decide)
    (by simp [JSON.ordered, ordered_map, image_header, image_leaf, key_lt, str_lt]) rfl
  exact ⟨h.1, h.2.1⟩

/-- C24 (the closing line assumes an indent unit of two characters): with an indent unit
of two characters `dump` writes the pretty form of the specification at every depth
(Arrays on one line, the pairs of an Object behind `d` copies of the unit, the closing
brace behind `d - 1`).  For every indent unit the closing brace of an Object stands
behind the padding without its first two characters (`pad.erase( 0, 2 )`): with a unit
of four blanks at depth 1 behind two blanks instead of none, with a tabulator at depth 2
behind none instead of one. -/
theorem C24_closing_indent_drops_two_characters (to_string_f : LongDouble → List Char) :
    (∀ (tab : List Char) (v : JSON) (d : Nat), tab.length = 2 → d + v.depth ≤ 2147483648 →
      JSON.dump to_string_f (d : Int) tab v = .ok (JSON.pretty_form to_string_f d tab v))
    ∧ (∀ (tab : List Char) (depth : Int) (m : List (List Char × JSON)) (s : List Char),
      JSON.dump to_string_f depth tab (JSON.object m) = .ok s →
      ∃ body, s = "\x7b\n".toList ++ body
        ++ ("\n".toList ++ (dump_pad depth tab).drop 2 ++ ['\x7d']))
    ∧ JSON.dump to_string_f 1 "    ".toList (JSON.object [("a".toList, JSON.integral 1)])
        = .ok "\x7b\n    \"a\" : 1\n  \x7d".toList
    ∧ JSON.pretty_form to_string_f 1 "    ".toList
        (JSON.object [("a".toList, JSON.integral 1)]) = "\x7b\n    \"a\" : 1\n\x7d".toList
    ∧ JSON.dump to_string_f 2 "\t".toList (JSON.object [("a".toList, JSON.integral 1)])
        = .ok "\x7b\n\t\t\"a\" : 1\n\x7d".toList
    ∧ JSON.pretty_form to_string_f 2 "\t".toList
        (JSON.object [("a".toList, JSON.integral 1)]) = "\x7b\n\t\t\"a\" : 1\n\t\x7d".toList := by
  refine ⟨fun tab v d htab hd => dump_pretty to_string_f tab htab v d hd,
    fun tab depth m s h => ?_, rfl, rfl, rfl, rfl⟩
  rw [JSON.dump] at h
  cases hm : dump_map to_string_f depth tab (dump_pad depth tab) m "\x7b\n".toList true with
  | error e =>
    rw [hm] at h
    cases h
  | ok r =>
    rw [hm] at h
    obtain ⟨body, hb⟩ := dump_map_prefix to_string_f depth tab _ m _ _ r hm
    refine ⟨body, ?_⟩
    have h1 : s = r ++ ("\n".toList ++ (dump_pad depth tab).drop 2 ++ ['\x7d']) :=
      (Except.ok.inj h).symm
    rw [h1, hb]

/-- C24 (witness): an Object with an Array and a nested Object, the unit two blanks. -/
theorem C24_closing_indent_drops_two_characters_witness :
    JSON.dump (fun _ => []) 1 "  ".toList
      (JSON.object [("a".toList, JSON.array [JSON.integral 1, JSON.null]),
        ("b".toList, JSON.object [("c".toList, JSON.boolean true)])])
      = .ok "\x7b\n  \"a\" : [1, null],\n  \"b\" : \x7b\n    \"c\" : true\n  \x7d\n\x7d".toList :=
  (C24_closing_indent_drops_two_characters (fun _ => [])).1 "  ".toList
    (JSON.object [("a".toList, JSON.array [JSON.integral 1, JSON.null]),
      ("b".toList, JSON.object [("c".toList, JSON.boolean true)])]) 1 rfl (by decide)

end json
